import Mathlib

/-!
Verification of the submit-wars repository against its specification.

The repository is a TypeScript tool that fetches weekly time records from
Toggl Track and merges formatted weekly reports into a Confluence page.
The core logic lives in string manipulation over the page markup
(ConfluenceService.prepareUpdatedContent and friends), the report
formatter (formatTimeRecords), the Toggl fetch layer (TogglService), and
the backfill orchestrator (index.ts).

Documents and all markup are embedded as lists of characters.  The
concrete regular expressions of the source are interpolated from literal
fragments (headings, labels, names); they are embedded here as literal
pattern scans with the exact case-sensitivity flags of the source.
-/

abbrev Str := List Char

def str (s : String) : Str :=
  s.toList

/-- ASCII case-insensitive character comparison: the effect of the i flag
of a JavaScript regular expression on the ASCII heading fragments used by
the source. -/
def chEqCI (a b : Char) : Bool :=
  a.toLower == b.toLower

/-- Case-sensitive character comparison. -/
def chEqCS (a b : Char) : Bool :=
  a == b

/-- startsWithBy eq pat s: pat matches at the start of s, character-wise
under eq. -/
def startsWithBy (eq : Char → Char → Bool) : Str → Str → Bool
  | [], _ => true
  | _ :: _, [] => false
  | p :: ps, c :: cs => eq p c && startsWithBy eq ps cs

/-- occursBy eq pat s: pat matches at some position of s (regex .test of a
literal pattern). -/
def occursBy (eq : Char → Char → Bool) (pat : Str) : Str → Bool
  | [] => startsWithBy eq pat []
  | c :: cs => startsWithBy eq pat (c :: cs) || occursBy eq pat cs

def occursCS (pat s : Str) : Bool := occursBy chEqCS pat s

def occursCI (pat s : Str) : Bool := occursBy chEqCI pat s

/-- First match of a literal pattern: returns the text before the match and
the text after the match (the match itself removed), as JavaScript
String.split at the first regex match does. -/
def splitFirstBy (eq : Char → Char → Bool) (pat : Str) : Str → Option (Str × Str)
  | [] => if startsWithBy eq pat [] then some ([], []) else none
  | c :: cs =>
    if startsWithBy eq pat (c :: cs) then some ([], (c :: cs).drop pat.length)
    else (splitFirstBy eq pat cs).map fun pq => (c :: pq.1, pq.2)

/-- The test of a regex of the form A dot-star-lazy B with the s flag
(as in the userHeadingPattern of the source): some occurrence of A is
followed, at or after its end, by an occurrence of B. -/
def matchesSeq (s a b : Str) : Bool :=
  match splitFirstBy chEqCS a s with
  | some pq => occursCS b pq.2
  | none => false

/-- Split at the first case-sensitive occurrence of pat, keeping the match:
returns (before, from-match-on); when there is no match returns (s, []).
Models substring up to a lookahead boundary. -/
def breakOnCS (pat : Str) : Str → Str × Str
  | [] => ([], [])
  | c :: cs =>
    if startsWithBy chEqCS pat (c :: cs) then ([], c :: cs)
    else
      let ab := breakOnCS pat cs
      (c :: ab.1, ab.2)

/-- Whitespace characters removed by JavaScript String.trim (the ASCII
ones; the source only ever meets these). -/
def isWS (c : Char) : Bool :=
  c == ' ' || c == '\t' || c == '\n' || c == '\r' || c == '\x0b' || c == '\x0c'

def trimStr (s : Str) : Str :=
  ((s.dropWhile isWS).reverse.dropWhile isWS).reverse

/-- Insertion step of the comparison sort used to model JavaScript
Array.prototype.sort: bef a b means a is placed before b. -/
def insBy (bef : α → α → Bool) (x : α) : List α → List α
  | [] => [x]
  | y :: ys => if bef x y then x :: y :: ys else y :: insBy bef x ys

/-- Comparison sort (insertion sort).  All comparators of the source are
total orders on the keys actually present (distinct strings, distinct
month indices, distinct dates), for which every comparison sort computes
the same result, so insertion sort is a faithful model of
Array.prototype.sort. -/
def sortBy (bef : α → α → Bool) : List α → List α
  | [] => []
  | x :: xs => insBy bef x (sortBy bef xs)

/-- Lexicographic strict order on strings by character code, the order of
the default JavaScript string comparison used by Array.prototype.sort. -/
def strLtB : Str → Str → Bool
  | [], [] => false
  | [], _ :: _ => true
  | _ :: _, [] => false
  | a :: as, b :: bs =>
    if a.toNat < b.toNat then true
    else if b.toNat < a.toNat then false
    else strLtB as bs

/-! ## Report formatter (src/utils/formatUtils.ts, formatTimeRecords) -/

/-- A Toggl time entry; only the fields read by the formatter are kept
(description and pid — id, start, end, duration and tags are never
consulted by the core logic). -/
structure TimeRecord where
  description : Str
  pid : Option Nat
deriving DecidableEq, Repr

/-- The project map built by fetchProjects: project id to project name. -/
abbrev ProjectMap := List (Nat × Str)

def lookupPM : ProjectMap → Nat → Option Str
  | [], _ => none
  | kv :: t, p => if kv.1 == p then some kv.2 else lookupPM t p

/-- Overwriting insert, the effect of projectMap[project.id] = project.name. -/
def setPM : ProjectMap → Nat → Str → ProjectMap
  | [], k, v => [(k, v)]
  | kv :: t, k, v => if kv.1 == k then (k, v) :: t else kv :: setPM t k v

def buildPM (ps : List (Nat × Str)) : ProjectMap :=
  ps.foldl (fun m kv => setPM m kv.1 kv.2) []

/-- Project-name resolution of formatTimeRecords:
record.pid and projectMap[record.pid] must both be truthy, otherwise the
record lands in the No Project bucket.  A pid of 0 is falsy in
JavaScript, as is an empty project name. -/
def resolveProject (m : ProjectMap) (r : TimeRecord) : Str :=
  match r.pid with
  | none => str "No Project"
  | some p =>
    if p ≠ 0 then
      match lookupPM m p with
      | some n => if n ≠ [] then n else str "No Project"
      | none => str "No Project"
    else str "No Project"

/-- One loop step of formatTimeRecords: ensure the group for the resolved
project name exists, and add the description to its set when it is
truthy and does not trim to the empty string.  Sets preserve insertion
order and collapse duplicates. -/
def addToGroups (gs : List (Str × List Str)) (name : Str) (d : Option Str) :
    List (Str × List Str) :=
  match gs with
  | [] => [(name, match d with | some t => [t] | none => [])]
  | g :: rest =>
    if g.1 = name then
      (g.1, match d with
        | some t => if t ∈ g.2 then g.2 else g.2 ++ [t]
        | none => g.2) :: rest
    else g :: addToGroups rest name d

def descOfRecord (r : TimeRecord) : Option Str :=
  if r.description ≠ [] ∧ trimStr r.description ≠ [] then some r.description
  else none

def buildGroups (rs : List TimeRecord) (m : ProjectMap) : List (Str × List Str) :=
  rs.foldl (fun gs r => addToGroups gs (resolveProject m r) (descOfRecord r)) []

def strLeB (a b : Str) : Bool := !strLtB b a

def sortStrs (l : List Str) : List Str := sortBy strLeB l

def sortGroups (l : List (Str × List Str)) : List (Str × List Str) :=
  sortBy (fun a b => strLeB a.1 b.1) l

/-- The sorted, deduplicated project groups of formatTimeRecords, before
rendering: Object.keys(projectGroups).sort() paired with
Array.from(set).sort() for each group. -/
def formatGroups (rs : List TimeRecord) (m : ProjectMap) : List (Str × List Str) :=
  sortGroups ((buildGroups rs m).map fun g => (g.1, sortStrs g.2))

/-- Rendering of one project group: the li for the project, with a nested
ul only when the task set is non-empty. -/
def renderGroup (g : Str × List Str) : Str :=
  str "<li>" ++ g.1 ++
    (if g.2.isEmpty then []
     else str "<ul>" ++ (g.2.map fun t => str "<li>" ++ t ++ str "</li>").flatten ++ str "</ul>") ++
  str "</li>"

/-- formatTimeRecords of src/utils/formatUtils.ts. -/
def formatTimeRecords (rs : List TimeRecord) (m : ProjectMap) : Str :=
  if rs.isEmpty then str "No time records found for the last week."
  else str "<ul>" ++ ((formatGroups rs m).map renderGroup).flatten ++ str "</ul>"

/-! ## Merge engine (ConfluenceService of src/services/confluenceService.ts) -/

/-- The interpolated week heading literal of the source regexes and
templates. -/
def weekHeading (label : Str) : Str :=
  str "<h2>w/e " ++ label ++ str "</h2>"

/-- The interpolated user heading literal. -/
def userHeading (name : Str) : Str :=
  str "<h3>" ++ name ++ str "</h3>"

/-- The interpolated month heading literal. -/
def monthHeading (month : Str) : Str :=
  str "<h1>" ++ month ++ str "</h1>"

/-- hasWeekForUser: the test of a regex interpolating the week heading,
dot-star-lazy with the s flag, then the user heading (case-sensitive). -/
def hasWeekForUser (displayName content weekEndDate : Str) : Bool :=
  matchesSeq content (weekHeading weekEndDate) (userHeading displayName)

def monthNames : List Str :=
  [str "January", str "February", str "March", str "April", str "May", str "June",
   str "July", str "August", str "September", str "October", str "November", str "December"]

/-- monthHeadAt s: the month-section head match of the extraction regex at
the start of s: the literal h1 open tag, one or more ASCII letters, the
closing tag.  Returns the captured name and the text after the closing
tag. -/
def monthHeadAt (s : Str) : Option (Str × Str) :=
  if startsWithBy chEqCS (str "<h1>") s then
    if (s.drop 4).takeWhile Char.isAlpha = [] then none
    else if startsWithBy chEqCS (str "</h1>")
        ((s.drop 4).drop ((s.drop 4).takeWhile Char.isAlpha).length) then
      some ((s.drop 4).takeWhile Char.isAlpha,
        (s.drop 4).drop (((s.drop 4).takeWhile Char.isAlpha).length + 5))
    else none
  else none

/-- The global scan of the month-section extraction regex.  Each match is
the section head followed lazily by everything up to the next h1 open tag
or the end of input (the lookahead of the source pattern).  The scan
advances character by character; matches of this pattern cannot overlap
(a section tail contains no h1 open tag by construction of the lazy
quantifier, and no h1 open tag starts strictly inside a section head), so
this equals the resume-at-lastIndex behaviour of a global regex. -/
def extractScan : Str → List (Str × Str)
  | [] => []
  | c :: cs =>
    match monthHeadAt (c :: cs) with
    | some nr =>
      (nr.1, str "<h1>" ++ nr.1 ++ str "</h1>" ++ (breakOnCS (str "<h1>") nr.2).1)
        :: extractScan cs
    | none => extractScan cs

/-- JavaScript Map.set: overwriting an existing key keeps its position,
a new key is appended. -/
def mapSet : List (Str × Str) → Str → Str → List (Str × Str)
  | [], k, v => [(k, v)]
  | kv :: t, k, v => if kv.1 = k then (k, v) :: t else kv :: mapSet t k v

def lookupSec : List (Str × Str) → Str → Option Str
  | [], _ => none
  | kv :: t, k => if kv.1 = k then some kv.2 else lookupSec t k

/-- extractMonthSections: run the extraction scan and keep the matches
whose captured heading is one of the twelve month names, in a Map. -/
def extractMonthSections (content : Str) : List (Str × Str) :=
  (extractScan content).foldl
    (fun m nr => if nr.1 ∈ monthNames then mapSet m nr.1 nr.2 else m) []

/-- createUserSection of the source. -/
def createUserSection (displayName formattedContent : Str) : Str :=
  str "\n<h3>" ++ displayName ++ str "</h3>\n" ++ formattedContent ++ str "\n\n"

/-- createWeekSection of the source. -/
def createWeekSection (weekEndDate displayName formattedContent : Str) : Str :=
  str "\n" ++ weekHeading weekEndDate ++ createUserSection displayName formattedContent

/-- createFullSection of the source. -/
def createFullSection (month weekEndDate displayName formattedContent : Str) : Str :=
  str "\n" ++ monthHeading month ++ createWeekSection weekEndDate displayName formattedContent

/-- A match of the next-heading regex (h1, h2 or h3, attributes allowed,
i flag) starts here: the open angle bracket, h, a digit from ds, then any
characters other than the closing angle bracket and finally a closing
angle bracket — for the test of a match it is enough that some closing
bracket follows. -/
def headTagAt (ds : List Char) (s : Str) : Bool :=
  match s with
  | a :: b :: c :: rest => a == '<' && chEqCI b 'h' && ds.contains c && rest.contains '>'
  | _ => false

/-- Split s at the first match of the next-heading regex for the digit set
ds (substring before the match index, substring from it); none when the
regex does not match. -/
def splitAtHeadTag (ds : List Char) : Str → Option (Str × Str)
  | [] => none
  | c :: cs =>
    if headTagAt ds (c :: cs) then some ([], c :: cs)
    else (splitAtHeadTag ds cs).map fun pq => (c :: pq.1, pq.2)

def digitVal (c : Char) : Nat := c.toNat - 48

/-- A match of the week-heading scan regex at the start of s: the literal
week heading with a two-digit day, slash, two-digit month label.  Returns
the (month, day) pair, which is the comparison key of the Date built by
setMonth and setDate from the captured numbers (labels carry no year, so
the source compares month and day only). -/
def weekAtP : Str → Option (Nat × Nat)
  | a :: b :: c :: d :: e :: f :: g :: h8 :: d1 :: d2 :: sl :: m1 :: m2 :: c1 :: c2 :: c3 :: c4 :: c5 :: _ =>
    if [a, b, c, d, e, f, g, h8] = str "<h2>w/e " ∧ sl = '/' ∧ [c1, c2, c3, c4, c5] = str "</h2>" ∧
        d1.isDigit = true ∧ d2.isDigit = true ∧ m1.isDigit = true ∧ m2.isDigit = true then
      some (10 * digitVal m1 + digitVal m2, 10 * digitVal d1 + digitVal d2)
    else none
  | _ => none

/-- Global scan for week headings inside a month section, with match
indices.  Character-by-character advance: matches of this fixed-width
pattern cannot overlap (the only later open angle bracket inside a match
is the one of its closing tag), so this equals the global-regex scan. -/
def scanWeeksFrom (i : Nat) : Str → List ((Nat × Nat) × Nat)
  | [] => []
  | c :: cs =>
    match weekAtP (c :: cs) with
    | some k => (k, i) :: scanWeeksFrom (i + 1) cs
    | none => scanWeeksFrom (i + 1) cs

def scanWeeks (s : Str) : List ((Nat × Nat) × Nat) := scanWeeksFrom 0 s

/-- Lexicographic order on the (month, day) comparison keys: the order of
the Date timestamps the source builds from the labels within one
reference year. -/
def keyLt (a b : Nat × Nat) : Bool :=
  a.1 < b.1 || (a.1 == b.1 && a.2 < b.2)

def splitOnChar (sep : Char) : Str → List Str
  | [] => [[]]
  | c :: cs =>
    if c == sep then [] :: splitOnChar sep cs
    else
      match splitOnChar sep cs with
      | [] => [[c]]
      | p :: ps => (c :: p) :: ps

/-- JavaScript Number on a label fragment: its value when the fragment is
a non-empty digit string, none (NaN) otherwise.  (Number also accepts
signs, blanks and decimal points; no caller of the merge engine produces
such fragments, and every comparison against NaN is false, which the
Option models.) -/
def numOfFrag (s : Str) : Option Nat :=
  if s ≠ [] ∧ s.all Char.isDigit then
    some (s.foldl (fun n c => 10 * n + digitVal c) 0)
  else none

/-- The (month, day) key parsed from the request label by
weekEndDate.split slash mapped through Number; none models the NaN /
Invalid Date case, for which every Date comparison is false. -/
def parseLabelKey (label : Str) : Option (Nat × Nat) :=
  match splitOnChar '/' label with
  | d :: m :: _ =>
    match numOfFrag d, numOfFrag m with
    | some dv, some mv => some (mv, dv)
    | _, _ => none
  | _ => none

/-- heading.date smaller than newDate; false when the new key is NaN. -/
def headOlder (h : (Nat × Nat) × Nat) (newKey : Option (Nat × Nat)) : Bool :=
  match newKey with
  | some k => keyLt h.1 k
  | none => false

/-- The append-at-the-end-of-the-month position: the source searches from
20 characters past the index of the (18-character) last sorted heading for
the next h1 or h2 tag and appends there, or at the end of the month
content when there is none. -/
def appendPos (mc : Str) (idx : Nat) : Nat :=
  match splitAtHeadTag ['1', '2'] (mc.drop (idx + 20)) with
  | some pq => idx + 20 + pq.1.length
  | none => mc.length

/-- The insertion-position loop over the date-sorted week headings: insert
at the first heading strictly older than the new week; when the last
heading is reached without a break, fall through to the append position
of that last heading. -/
def findInsertPos (mc : Str) (newKey : Option (Nat × Nat)) :
    List ((Nat × Nat) × Nat) → Nat → Nat
  | [], dflt => dflt
  | [h], _ => if headOlder h newKey then h.2 else appendPos mc h.2
  | h :: g :: t, dflt => if headOlder h newKey then h.2 else findInsertPos mc newKey (g :: t) dflt

/-- h1EndIndex: indexOf of the h1 closing tag plus five; JavaScript
indexOf yields minus one when absent, hence position four then. -/
def h1EndIndex (mc : Str) : Nat :=
  match splitFirstBy chEqCS (str "</h1>") mc with
  | some pq => pq.1.length + 5
  | none => 4

/-- The week-absent branch of addContentToMonthSections: scan and
date-sort the existing week headings, find the insertion position that
keeps reverse chronological order, and splice the new week section in. -/
def insertWeekIntoMonth (mc : Str) (weekEndDate displayName formatted : Str) : Str :=
  let heads := sortBy (fun a b => !keyLt a.1 b.1) (scanWeeks mc)
  let newKey := parseLabelKey weekEndDate
  let pos := findInsertPos mc newKey heads (h1EndIndex mc)
  mc.take pos ++ createWeekSection weekEndDate displayName formatted ++ mc.drop pos

/-- parts[1] of the JavaScript split of the month content at the (case
insensitive) week-heading regex: the piece between the first and second
match, or everything after the first match when there is no second one —
anything after a further match is dropped by the source, which reads only
parts[0] and parts[1]. -/
def afterWeekPart (weekEndDate post : Str) : Str :=
  match splitFirstBy chEqCI (weekHeading weekEndDate) post with
  | some ab => ab.1
  | none => post

/-- Reassembly of the month content in the week-present branch: parts[0],
the canonical week heading, and parts[1] with the user section inserted
at the first next-heading match inside it, or appended at its end. -/
def spliceUserSection (p0 post weekEndDate displayName formatted : Str) : Str :=
  match splitAtHeadTag ['1', '2', '3'] (afterWeekPart weekEndDate post) with
  | some ab =>
    p0 ++ weekHeading weekEndDate ++ ab.1 ++
      createUserSection displayName formatted ++ ab.2
  | none =>
    p0 ++ weekHeading weekEndDate ++ afterWeekPart weekEndDate post ++
      createUserSection displayName formatted

/-- The week-present branch of addContentToMonthSections; none models the
parts.length below two guard (no match at all). -/
def insertUserIntoWeek (mc : Str) (weekEndDate displayName formatted : Str) : Option Str :=
  match splitFirstBy chEqCI (weekHeading weekEndDate) mc with
  | none => none
  | some pq => some (spliceUserSection pq.1 pq.2 weekEndDate displayName formatted)

/-- The month-present case of addContentToMonthSections: the userExists
check, then the weekExists check, then the new-week insertion. -/
def addContentExisting (sections : List (Str × Str))
    (month mc weekEndDate displayName formatted : Str) : List (Str × Str) :=
  if matchesSeq mc (weekHeading weekEndDate) (userHeading displayName) then
    sections
  else if occursCI (weekHeading weekEndDate) mc then
    match insertUserIntoWeek mc weekEndDate displayName formatted with
    | some mc' => mapSet sections month mc'
    | none => sections
  else
    mapSet sections month (insertWeekIntoMonth mc weekEndDate displayName formatted)

/-- addContentToMonthSections of the source. -/
def addContentToMonthSections (sections : List (Str × Str))
    (month weekEndDate displayName formatted : Str) : List (Str × Str) :=
  match lookupSec sections month with
  | some mc => addContentExisting sections month mc weekEndDate displayName formatted
  | none =>
    mapSet sections month (createFullSection month weekEndDate displayName formatted)

def monthIdx : Str → List Str → Int
  | _, [] => -1
  | n, m :: ms => if n = m then 0 else
      match monthIdx n ms with
      | -1 => -1
      | i => i + 1

/-- regenerateOrderedContent: sort the section keys by month index in
reverse chronological order and concatenate the section texts. -/
def regenerateOrderedContent (sections : List (Str × Str)) : Str :=
  (sortBy (fun a b => monthIdx b.1 monthNames ≤ monthIdx a.1 monthNames) sections).map
    (fun kv => kv.2) |>.flatten

/-- The four status outcomes of prepareUpdatedContent. -/
inductive Outcome where
  | alreadyExists
  | addedUserToWeek
  | addedWeekToMonth
  | addedNewMonth
deriving DecidableEq, Repr

/-- prepareUpdatedContent of the source: the idempotency check first (the
user heading pattern on the whole current content); otherwise extract the
month sections, add the new content, regenerate the ordered page, and
classify the outcome by re-testing the user, week and month heading
patterns on the current content. -/
def prepareUpdatedContent (currentContent formattedContent : Str)
    (month weekEndDate displayName : Str) : Str × Outcome :=
  if matchesSeq currentContent (weekHeading weekEndDate) (userHeading displayName) then
    (currentContent, Outcome.alreadyExists)
  else
    let sections := extractMonthSections currentContent
    let updated := addContentToMonthSections sections month weekEndDate displayName formattedContent
    let ordered := regenerateOrderedContent updated
    let oc :=
      if occursCI (weekHeading weekEndDate) currentContent then Outcome.addedUserToWeek
      else if occursCI (monthHeading month) currentContent then Outcome.addedWeekToMonth
      else Outcome.addedNewMonth
    (ordered, oc)

/-- A merge request: the inputs prepareUpdatedContent interpolates into
its patterns and templates. -/
structure ReportRequest where
  month : Str
  weekEndingLabel : Str
  displayName : Str
  body : Str
deriving DecidableEq, Repr

/-- The document merge engine: current document and request to updated
document and outcome. -/
def merge (doc : Str) (r : ReportRequest) : Str × Outcome :=
  prepareUpdatedContent doc r.body r.month r.weekEndingLabel r.displayName

def mergeSeq (doc : Str) (rs : List ReportRequest) : Str :=
  rs.foldl (fun d r => (merge d r).1) doc

/-! ## Basic lemmas about the pattern scans -/

/-- Pointwise match of two strings of equal length under eq. -/
def eqSB (eq : Char → Char → Bool) : Str → Str → Bool
  | [], [] => true
  | [], _ :: _ => false
  | _ :: _, [] => false
  | a :: as, b :: bs => eq a b && eqSB eq as bs

theorem eqSB_length {eq : Char → Char → Bool} {p m : Str}
    (h : eqSB eq p m = true) : p.length = m.length := by
  induction p generalizing m with
  | nil => cases m with
    | nil => rfl
    | cons b bs => simp [eqSB] at h
  | cons a as ih =>
    cases m with
    | nil => simp [eqSB] at h
    | cons b bs =>
      simp only [eqSB, Bool.and_eq_true] at h
      simpa [List.length_cons] using ih h.2

theorem eqSB_refl_CS (p : Str) : eqSB chEqCS p p = true := by
  induction p with
  | nil => rfl
  | cons a as ih => simp [eqSB, chEqCS, ih]

theorem eqSB_CS_iff {p m : Str} : eqSB chEqCS p m = true ↔ p = m := by
  constructor
  · intro h
    induction p generalizing m with
    | nil => cases m with
      | nil => rfl
      | cons b bs => simp [eqSB] at h
    | cons a as ih =>
      cases m with
      | nil => simp [eqSB] at h
      | cons b bs =>
        simp only [eqSB, Bool.and_eq_true, chEqCS, beq_iff_eq] at h
        simp [h.1, ih h.2]
  · rintro rfl; exact eqSB_refl_CS p

theorem startsWithBy_iff {eq : Char → Char → Bool} {p s : Str} :
    startsWithBy eq p s = true ↔ ∃ m t, s = m ++ t ∧ eqSB eq p m = true := by
  induction p generalizing s with
  | nil =>
    simp only [startsWithBy]
    constructor
    · intro _; exact ⟨[], s, rfl, rfl⟩
    · intro _; trivial
  | cons a as ih =>
    cases s with
    | nil =>
      simp only [startsWithBy]
      constructor
      · intro h; cases h
      · rintro ⟨m, t, hmt, hm⟩
        cases m with
        | nil => simp [eqSB] at hm
        | cons b bs => simp at hmt
    | cons c cs =>
      simp only [startsWithBy, Bool.and_eq_true, ih]
      constructor
      · rintro ⟨he, m, t, rfl, hm⟩
        exact ⟨c :: m, t, rfl, by simp [eqSB, he, hm]⟩
      · rintro ⟨m, t, hmt, hm⟩
        cases m with
        | nil => simp [eqSB] at hm
        | cons b bs =>
          simp only [List.cons_append, List.cons.injEq] at hmt
          obtain ⟨rfl, rfl⟩ := hmt
          simp only [eqSB, Bool.and_eq_true] at hm
          exact ⟨hm.1, bs, t, rfl, hm.2⟩

theorem startsWithCS_iff {p s : Str} :
    startsWithBy chEqCS p s = true ↔ ∃ t, s = p ++ t := by
  rw [startsWithBy_iff]
  constructor
  · rintro ⟨m, t, rfl, hm⟩
    rw [eqSB_CS_iff] at hm
    exact ⟨t, by rw [hm]⟩
  · rintro ⟨t, rfl⟩
    exact ⟨p, t, rfl, eqSB_refl_CS p⟩

theorem occursBy_iff {eq : Char → Char → Bool} {p s : Str} :
    occursBy eq p s = true ↔ ∃ x m y, s = x ++ m ++ y ∧ eqSB eq p m = true := by
  induction s with
  | nil =>
    simp only [occursBy]
    rw [startsWithBy_iff]
    constructor
    · rintro ⟨m, t, hmt, hm⟩
      exact ⟨[], m, t, by simpa using hmt, hm⟩
    · rintro ⟨x, m, y, hxy, hm⟩
      have hx : x = [] ∧ m ++ y = [] := by
        constructor
        · cases x with
          | nil => rfl
          | cons a as => simp at hxy
        · cases x with
          | nil => simpa using hxy.symm
          | cons a as => simp at hxy
      exact ⟨m, y, hx.2.symm, hm⟩
  | cons c cs ih =>
    simp only [occursBy, Bool.or_eq_true, ih]
    rw [startsWithBy_iff]
    constructor
    · rintro (⟨m, t, hmt, hm⟩ | ⟨x, m, y, hxy, hm⟩)
      · exact ⟨[], m, t, by simpa using hmt, hm⟩
      · exact ⟨c :: x, m, y, by simp [hxy], hm⟩
    · rintro ⟨x, m, y, hxy, hm⟩
      cases x with
      | nil =>
        exact Or.inl ⟨m, y, by simpa using hxy, hm⟩
      | cons a as =>
        simp only [List.cons_append, List.cons.injEq] at hxy
        exact Or.inr ⟨as, m, y, hxy.2, hm⟩

theorem occursCS_iff {p s : Str} :
    occursCS p s = true ↔ ∃ x y, s = x ++ p ++ y := by
  unfold occursCS
  rw [occursBy_iff]
  constructor
  · rintro ⟨x, m, y, hxy, hm⟩
    rw [eqSB_CS_iff] at hm
    exact ⟨x, y, by rw [hxy, hm]⟩
  · rintro ⟨x, y, rfl⟩
    exact ⟨x, p, y, rfl, eqSB_refl_CS p⟩

theorem occursCS_of_mid {p m u v : Str} (h : occursCS p m = true) :
    occursCS p (u ++ m ++ v) = true := by
  rw [occursCS_iff] at h ⊢
  obtain ⟨x, y, rfl⟩ := h
  exact ⟨u ++ x, y ++ v, by simp⟩

theorem splitFirstBy_some {eq : Char → Char → Bool} {p s x y : Str}
    (h : splitFirstBy eq p s = some (x, y)) :
    ∃ m, s = x ++ m ++ y ∧ eqSB eq p m = true := by
  induction s generalizing x y with
  | nil =>
    simp only [splitFirstBy] at h
    by_cases hs : startsWithBy eq p [] = true
    · rw [if_pos hs] at h
      obtain ⟨rfl, rfl⟩ : x = [] ∧ y = [] := by
        constructor <;> { injection h with h'; cases h'; rfl }
      rw [startsWithBy_iff] at hs
      obtain ⟨m, t, hmt, hm⟩ := hs
      have : m = [] := by
        cases m with
        | nil => rfl
        | cons a as => simp at hmt
      exact ⟨m, by simp [this], hm⟩
    · rw [if_neg hs] at h; cases h
  | cons c cs ih =>
    simp only [splitFirstBy] at h
    by_cases hs : startsWithBy eq p (c :: cs) = true
    · rw [if_pos hs] at h
      injection h with h'
      have hx : x = [] := congrArg Prod.fst h' |>.symm
      have hy : y = (c :: cs).drop p.length := congrArg Prod.snd h' |>.symm
      rw [startsWithBy_iff] at hs
      obtain ⟨m, t, hmt, hm⟩ := hs
      refine ⟨m, ?_, hm⟩
      have hl : p.length = m.length := eqSB_length hm
      rw [hx, hy, hmt, hl]
      simp [List.drop_append_of_le_length]
    · rw [if_neg hs] at h
      cases hsp : splitFirstBy eq p cs with
      | none => rw [hsp] at h; cases h
      | some pq =>
        rw [hsp] at h
        simp only [Option.map_some'] at h
        injection h with h'
        obtain ⟨a, b⟩ := pq
        have hx : x = c :: a := congrArg Prod.fst h' |>.symm
        have hy : y = b := congrArg Prod.snd h' |>.symm
        obtain ⟨m, hmt, hm⟩ := ih hsp
        exact ⟨m, by simp [hx, hy, hmt], hm⟩

theorem splitFirstBy_none {eq : Char → Char → Bool} {p s : Str}
    (h : splitFirstBy eq p s = none) : occursBy eq p s = false := by
  induction s with
  | nil =>
    simp only [splitFirstBy] at h
    by_cases hs : startsWithBy eq p [] = true
    · rw [if_pos hs] at h; cases h
    · simpa [occursBy] using hs
  | cons c cs ih =>
    simp only [splitFirstBy] at h
    by_cases hs : startsWithBy eq p (c :: cs) = true
    · rw [if_pos hs] at h; cases h
    · rw [if_neg hs] at h
      cases hsp : splitFirstBy eq p cs with
      | none =>
        simp only [occursBy, Bool.or_eq_false_iff]
        exact ⟨by simpa using hs, ih hsp⟩
      | some pq => rw [hsp] at h; simp at h

theorem splitFirstBy_isSome_of_occurs {eq : Char → Char → Bool} {p s : Str}
    (h : occursBy eq p s = true) : (splitFirstBy eq p s).isSome = true := by
  cases hsp : splitFirstBy eq p s with
  | none => rw [splitFirstBy_none hsp] at h; cases h
  | some pq => rfl

theorem splitFirstBy_minimal {eq : Char → Char → Bool} {p s x y : Str}
    (h : splitFirstBy eq p s = some (x, y)) :
    ∀ a m b, s = a ++ m ++ b → eqSB eq p m = true → x.length ≤ a.length := by
  induction s generalizing x y with
  | nil =>
    intro a m b habm _
    have ha : a = [] := by
      cases a with
      | nil => rfl
      | cons a0 as => simp at habm
    simp only [splitFirstBy] at h
    by_cases hs : startsWithBy eq p [] = true
    · rw [if_pos hs] at h
      injection h with h'
      have hx : x = [] := congrArg Prod.fst h' |>.symm
      simp [hx]
    · rw [if_neg hs] at h; cases h
  | cons c cs ih =>
    intro a m b habm hm
    simp only [splitFirstBy] at h
    by_cases hs : startsWithBy eq p (c :: cs) = true
    · rw [if_pos hs] at h
      injection h with h'
      have hx : x = [] := congrArg Prod.fst h' |>.symm
      simp [hx]
    · rw [if_neg hs] at h
      cases a with
      | nil =>
        exfalso
        apply hs
        rw [startsWithBy_iff]
        exact ⟨m, b, by simpa using habm, hm⟩
      | cons a0 as =>
        cases hsp : splitFirstBy eq p cs with
        | none => rw [hsp] at h; cases h
        | some pq =>
          rw [hsp] at h
          simp only [Option.map_some'] at h
          injection h with h'
          obtain ⟨u, v⟩ := pq
          have hx : x = c :: u := congrArg Prod.fst h' |>.symm
          simp only [List.cons_append, List.cons.injEq] at habm
          have := ih hsp as m b habm.2 hm
          simp [hx, Nat.succ_le_succ this]

theorem matchesSeq_split_iff {s a b : Str} :
    matchesSeq s a b = true ↔
      ∃ u v, splitFirstBy chEqCS a s = some (u, v) ∧ occursCS b v = true := by
  unfold matchesSeq
  cases hsp : splitFirstBy chEqCS a s with
  | none => simp
  | some pq =>
    obtain ⟨u, v⟩ := pq
    simp only [Option.some.injEq, Prod.mk.injEq]
    constructor
    · intro h; exact ⟨u, v, ⟨rfl, rfl⟩, h⟩
    · rintro ⟨u1, v1, ⟨rfl, rfl⟩, h⟩; exact h

theorem matchesSeq_iff {s a b : Str} :
    matchesSeq s a b = true ↔ ∃ x y z, s = x ++ a ++ y ++ b ++ z := by
  rw [matchesSeq_split_iff]
  constructor
  · rintro ⟨u, v, hsp, hocc⟩
    rw [occursCS_iff] at hocc
    obtain ⟨x, y, hv⟩ := hocc
    obtain ⟨m, hm, hme⟩ := splitFirstBy_some hsp
    rw [eqSB_CS_iff] at hme
    refine ⟨u, x, y, ?_⟩
    rw [hm, ← hme, hv]
    simp
  · rintro ⟨x, y, z, rfl⟩
    have hocc : occursBy chEqCS a (x ++ a ++ y ++ b ++ z) = true := by
      have h2 : occursCS a (x ++ a ++ (y ++ b ++ z)) = true := by
        rw [occursCS_iff]
        exact ⟨x, y ++ b ++ z, rfl⟩
      simpa using h2
    cases hsp : splitFirstBy chEqCS a (x ++ a ++ y ++ b ++ z) with
    | none => rw [splitFirstBy_none hsp] at hocc; cases hocc
    | some pq =>
      obtain ⟨u, v⟩ := pq
      refine ⟨u, v, rfl, ?_⟩
      obtain ⟨m, hm, hme⟩ := splitFirstBy_some hsp
      rw [eqSB_CS_iff] at hme
      rw [← hme] at hm
      have hmin : u.length ≤ x.length :=
        splitFirstBy_minimal hsp x a (y ++ b ++ z) (by simp) (eqSB_refl_CS a)
      have hQ : (u ++ a) ++ v = (x ++ a ++ y) ++ (b ++ z) := by
        have := hm.symm
        simp only [List.append_assoc] at this ⊢
        exact this
      have hv : v = ((x ++ a ++ y) ++ (b ++ z)).drop (u ++ a).length := by
        rw [← hQ, List.drop_left]
      have hle : (u ++ a).length ≤ (x ++ a ++ y).length := by
        simp only [List.length_append]
        omega
      rw [hv, List.drop_append_of_le_length hle, occursCS_iff]
      exact ⟨(x ++ a ++ y).drop (u ++ a).length, z, by simp⟩

theorem matchesSeq_of_mid {m a b : Str} (u v : Str)
    (h : matchesSeq m a b = true) : matchesSeq (u ++ m ++ v) a b = true := by
  rw [matchesSeq_iff] at h ⊢
  obtain ⟨x, y, z, rfl⟩ := h
  exact ⟨u ++ x, y, z ++ v, by simp⟩

/-! ## Lemmas about the comparison sort -/

theorem insBy_perm (bef : α → α → Bool) (x : α) (l : List α) :
    (insBy bef x l).Perm (x :: l) := by
  induction l with
  | nil => exact List.Perm.refl _
  | cons y ys ih =>
    simp only [insBy]
    by_cases h : bef x y = true
    · rw [if_pos h]
    · rw [if_neg h]
      exact (ih.cons y).trans (List.Perm.swap x y ys)

theorem sortBy_perm (bef : α → α → Bool) (l : List α) :
    (sortBy bef l).Perm l := by
  induction l with
  | nil => exact List.Perm.refl _
  | cons x xs ih =>
    exact (insBy_perm bef x (sortBy bef xs)).trans (ih.cons x)

theorem mem_sortBy {bef : α → α → Bool} {l : List α} {a : α} :
    a ∈ sortBy bef l ↔ a ∈ l :=
  (sortBy_perm bef l).mem_iff

theorem head?_insBy (bef : α → α → Bool) (x : α) (l : List α) :
    (insBy bef x l).head? = some x ∨ (insBy bef x l).head? = l.head? := by
  cases l with
  | nil => exact Or.inl rfl
  | cons y ys =>
    simp only [insBy]
    by_cases h : bef x y = true
    · rw [if_pos h]; exact Or.inl rfl
    · rw [if_neg h]; exact Or.inr rfl

theorem chain'_insBy {bef : α → α → Bool}
    (htot : ∀ a b, bef a b = true ∨ bef b a = true) {x : α} {l : List α}
    (h : List.Chain' (fun a b => bef a b = true) l) :
    List.Chain' (fun a b => bef a b = true) (insBy bef x l) := by
  induction l with
  | nil => simp [insBy]
  | cons y ys ih =>
    simp only [insBy]
    by_cases hb : bef x y = true
    · rw [if_pos hb]
      exact List.chain'_cons.2 ⟨hb, h⟩
    · rw [if_neg hb]
      have hyx : bef y x = true := (htot x y).resolve_left hb
      have hys : List.Chain' (fun a b => bef a b = true) ys :=
        (List.chain'_cons'.1 h).2
      refine List.chain'_cons'.2 ⟨?_, ih hys⟩
      intro z hz
      rcases head?_insBy bef x ys with hh | hh
      · rw [hh] at hz
        injection hz with hz
        rw [hz] at hyx
        exact hyx
      · rw [hh] at hz
        exact (List.chain'_cons'.1 h).1 z hz

theorem chain'_sortBy {bef : α → α → Bool}
    (htot : ∀ a b, bef a b = true ∨ bef b a = true) (l : List α) :
    List.Chain' (fun a b => bef a b = true) (sortBy bef l) := by
  induction l with
  | nil => simp [sortBy]
  | cons x xs ih => exact chain'_insBy htot ih

/-! ## Lemmas about the formatter grouping -/

/-- The value stored for a fresh group. -/
def freshVal (d : Option Str) : List Str :=
  match d with
  | some t => [t]
  | none => []

/-- The value stored when updating an existing group. -/
def updVal (d : Option Str) (old : List Str) : List Str :=
  match d with
  | some t => if t ∈ old then old else old ++ [t]
  | none => old

theorem keys_addToGroups (gs : List (Str × List Str)) (n : Str) (d : Option Str) :
    (addToGroups gs n d).map Prod.fst =
      if n ∈ gs.map Prod.fst then gs.map Prod.fst else gs.map Prod.fst ++ [n] := by
  induction gs with
  | nil => simp [addToGroups]
  | cons g rest ih =>
    obtain ⟨k0, v0⟩ := g
    simp only [addToGroups]
    by_cases hk : k0 = n
    · subst hk
      simp
    · rw [if_neg hk]
      simp only [List.map_cons, ih]
      by_cases hn : n ∈ rest.map Prod.fst
      · rw [if_pos hn, if_pos (by simp [hn])]
      · rw [if_neg hn, if_neg (by simp [hn, Ne.symm hk]), List.cons_append]

theorem mem_addToGroups {gs : List (Str × List Str)} {n k : Str} {d : Option Str}
    {ts : List Str} (hnd : (gs.map Prod.fst).Nodup)
    (h : (k, ts) ∈ addToGroups gs n d) :
    (k ≠ n ∧ (k, ts) ∈ gs) ∨
    (k = n ∧ n ∉ gs.map Prod.fst ∧ ts = freshVal d) ∨
    (k = n ∧ ∃ old, (n, old) ∈ gs ∧ ts = updVal d old) := by
  induction gs with
  | nil =>
    simp only [addToGroups, List.mem_singleton, Prod.mk.injEq] at h
    exact Or.inr (Or.inl ⟨h.1, by simp, by simp [h.2, freshVal]⟩)
  | cons g rest ih =>
    obtain ⟨k0, v0⟩ := g
    simp only [List.map_cons, List.nodup_cons] at hnd
    simp only [addToGroups] at h
    by_cases hk : k0 = n
    · subst hk
      rw [if_pos rfl] at h
      rcases List.mem_cons.1 h with heq | hmem
      · obtain ⟨rfl, rfl⟩ :=
          show k = k0 ∧ ts = updVal d v0 by
            have := Prod.mk.injEq k ts k0 (updVal d v0) ▸ congrArg id heq
            simp only [Prod.mk.injEq] at heq
            exact ⟨heq.1, by simp [heq.2, updVal]⟩
        exact Or.inr (Or.inr ⟨rfl, v0, List.mem_cons_self _ _, rfl⟩)
      · have hkn : k ≠ k0 := by
          intro hkn
          exact hnd.1 (hkn ▸ (List.mem_map.2 ⟨(k, ts), hmem, rfl⟩))
        exact Or.inl ⟨hkn, List.mem_cons_of_mem _ hmem⟩
    · rw [if_neg hk] at h
      rcases List.mem_cons.1 h with heq | hmem
      · simp only [Prod.mk.injEq] at heq
        exact Or.inl ⟨heq.1 ▸ hk, List.mem_cons.2 (Or.inl (by simp [heq.1, heq.2]))⟩
      · rcases ih hnd.2 hmem with ⟨h1, h2⟩ | ⟨h1, h2, h3⟩ | ⟨h1, old, h2, h3⟩
        · exact Or.inl ⟨h1, List.mem_cons_of_mem _ h2⟩
        · exact Or.inr (Or.inl ⟨h1, by simp [h2, Ne.symm hk], h3⟩)
        · exact Or.inr (Or.inr ⟨h1, old, List.mem_cons_of_mem _ h2, h3⟩)

theorem buildGroups_append (rs : List TimeRecord) (r : TimeRecord) (m : ProjectMap) :
    buildGroups (rs ++ [r]) m =
      addToGroups (buildGroups rs m) (resolveProject m r) (descOfRecord r) := by
  simp [buildGroups, List.foldl_append]

theorem descOfRecord_eq_some {r : TimeRecord} {t : Str}
    (h : descOfRecord r = some t) : r.description = t ∧ trimStr t ≠ [] := by
  unfold descOfRecord at h
  by_cases hc : r.description ≠ [] ∧ trimStr r.description ≠ []
  · rw [if_pos hc] at h
    injection h with h
    exact ⟨h, h ▸ hc.2⟩
  · rw [if_neg hc] at h
    cases h

theorem mem_updVal_of_mem {d : Option Str} {old : List Str} {t : Str}
    (h : t ∈ old) : t ∈ updVal d old := by
  cases d with
  | none => exact h
  | some t' =>
    simp only [updVal]
    by_cases hm : t' ∈ old
    · rw [if_pos hm]; exact h
    · rw [if_neg hm]; exact List.mem_append_left _ h

theorem buildGroups_spec (m : ProjectMap) (rs : List TimeRecord) :
    ((buildGroups rs m).map Prod.fst).Nodup ∧
    (∀ r ∈ rs, resolveProject m r ∈ (buildGroups rs m).map Prod.fst) ∧
    (∀ g ∈ buildGroups rs m,
      (∃ r ∈ rs, resolveProject m r = g.1) ∧ g.2.Nodup ∧
      ∀ t ∈ g.2, ∃ r ∈ rs, resolveProject m r = g.1 ∧ r.description = t ∧
        descOfRecord r = some t) ∧
    (∀ r ∈ rs, ∀ t, descOfRecord r = some t →
      ∀ ts, (resolveProject m r, ts) ∈ buildGroups rs m → t ∈ ts) := by
  induction rs using List.reverseRecOn with
  | nil =>
    refine ⟨by simp [buildGroups], by simp, by simp [buildGroups], by simp [buildGroups]⟩
  | append_singleton rs r0 ih =>
    obtain ⟨ihnd, ihmem, ihprov, ihdesc⟩ := ih
    rw [buildGroups_append]
    set gs := buildGroups rs m with hgs
    set n := resolveProject m r0 with hn
    set d := descOfRecord r0 with hd
    have hkeys := keys_addToGroups gs n d
    refine ⟨?_, ?_, ?_, ?_⟩
    · rw [hkeys]
      by_cases hmem : n ∈ gs.map Prod.fst
      · rw [if_pos hmem]; exact ihnd
      · rw [if_neg hmem]
        exact ((List.perm_append_singleton _ _).nodup_iff).2 (List.nodup_cons.2 ⟨hmem, ihnd⟩)
    · intro r hr
      have hsub : ∀ x, x ∈ gs.map Prod.fst → x ∈ (addToGroups gs n d).map Prod.fst := by
        intro x hx
        rw [hkeys]
        by_cases hmem : n ∈ gs.map Prod.fst
        · rw [if_pos hmem]; exact hx
        · rw [if_neg hmem]; exact List.mem_append_left _ hx
      rcases List.mem_append.1 hr with hr | hr
      · exact hsub _ (ihmem r hr)
      · rw [List.mem_singleton] at hr
        subst hr
        rw [hkeys]
        by_cases hmem : n ∈ gs.map Prod.fst
        · rw [if_pos hmem]; exact hmem
        · rw [if_neg hmem]; exact List.mem_append_right _ (by simp)
    · intro g hg
      obtain ⟨k, ts⟩ := g
      rcases mem_addToGroups ihnd hg with ⟨hkn, hmem⟩ | ⟨hkn, hnot, hts⟩ |
        ⟨hkn, old, hold, hts⟩
      · obtain ⟨hex, hnd2, hprov⟩ := ihprov (k, ts) hmem
        refine ⟨?_, hnd2, ?_⟩
        · obtain ⟨r, hr, hres⟩ := hex
          exact ⟨r, List.mem_append_left _ hr, hres⟩
        · intro t ht
          obtain ⟨r, hr, h1, h2, h3⟩ := hprov t ht
          exact ⟨r, List.mem_append_left _ hr, h1, h2, h3⟩
      · subst hkn hts
        refine ⟨⟨r0, List.mem_append_right _ (by simp), rfl⟩, ?_, ?_⟩
        · cases hdv : d with
          | none => simp [freshVal]
          | some t => simp [freshVal]
        · intro t ht
          cases hdv : d with
          | none => rw [hdv] at ht; simp [freshVal] at ht
          | some t' =>
            rw [hdv] at ht
            simp only [freshVal, List.mem_singleton] at ht
            subst ht
            refine ⟨r0, List.mem_append_right _ (by simp), rfl, ?_, ?_⟩
            · exact (descOfRecord_eq_some (hd ▸ hdv)).1
            · exact hd ▸ hdv
      · subst hkn hts
        obtain ⟨hex, hnd2, hprov⟩ := ihprov (n, old) hold
        refine ⟨⟨r0, List.mem_append_right _ (by simp), rfl⟩, ?_, ?_⟩
        · cases hdv : d with
          | none => simpa [updVal] using hnd2
          | some t' =>
            simp only [updVal]
            by_cases hm : t' ∈ old
            · rw [if_pos hm]; exact hnd2
            · rw [if_neg hm]
              exact ((List.perm_append_singleton _ _).nodup_iff).2
                (List.nodup_cons.2 ⟨hm, hnd2⟩)
        · intro t ht
          have hcases : t ∈ old ∨ d = some t := by
            cases hdv : d with
            | none => rw [hdv] at ht; exact Or.inl (by simpa [updVal] using ht)
            | some t' =>
              rw [hdv] at ht
              simp only [updVal] at ht
              by_cases hm : t' ∈ old
              · rw [if_pos hm] at ht; exact Or.inl ht
              · rw [if_neg hm] at ht
                rcases List.mem_append.1 ht with ht | ht
                · exact Or.inl ht
                · rw [List.mem_singleton] at ht
                  exact Or.inr (by rw [ht])
          rcases hcases with hcase | hcase
          · obtain ⟨r, hr, h1, h2, h3⟩ := hprov t hcase
            exact ⟨r, List.mem_append_left _ hr, h1, h2, h3⟩
          · refine ⟨r0, List.mem_append_right _ (by simp), rfl, ?_, hd ▸ hcase⟩
            exact (descOfRecord_eq_some (hd ▸ hcase)).1
    · intro r hr t hdesc ts hts
      rcases List.mem_append.1 hr with hr | hr
      · rcases mem_addToGroups ihnd hts with ⟨hkn, hmem⟩ | ⟨hkn, hnot, hts'⟩ |
          ⟨hkn, old, hold, hts'⟩
        · exact ihdesc r hr t hdesc ts hmem
        · exact absurd (hkn ▸ ihmem r hr) hnot
        · subst hts'
          exact mem_updVal_of_mem (ihdesc r hr t hdesc old (hkn ▸ hold))
      · rw [List.mem_singleton] at hr
        subst hr
        rcases mem_addToGroups ihnd hts with ⟨hkn, hmem⟩ | ⟨hkn, hnot, hts'⟩ |
          ⟨hkn, old, hold, hts'⟩
        · exact absurd rfl hkn
        · subst hts'
          rw [← hd] at hdesc
          rw [hdesc]
          simp [freshVal]
        · subst hts'
          rw [← hd] at hdesc
          rw [hdesc]
          simp only [updVal]
          by_cases hm : t ∈ old
          · rw [if_pos hm]; exact hm
          · rw [if_neg hm]; exact List.mem_append_right _ (by simp)

theorem strLtB_asymm : ∀ {a b : Str}, strLtB a b = true → strLtB b a = false := by
  intro a
  induction a with
  | nil => intro b h; cases b with
    | nil => simp [strLtB] at h
    | cons c cs => simp [strLtB]
  | cons a0 as ih =>
    intro b h
    cases b with
    | nil => simp [strLtB] at h
    | cons b0 bs =>
      simp only [strLtB] at h ⊢
      by_cases h1 : a0.toNat < b0.toNat
      · rw [if_neg (by omega), if_pos h1]
      · rw [if_neg h1] at h
        by_cases h2 : b0.toNat < a0.toNat
        · rw [if_pos h2] at h; cases h
        · rw [if_neg h2] at h
          rw [if_neg h2, if_neg h1]
          exact ih h

theorem strLeB_total (a b : Str) : strLeB a b = true ∨ strLeB b a = true := by
  unfold strLeB
  by_cases h : strLtB b a = true
  · right
    rw [strLtB_asymm h]
    rfl
  · left
    rw [Bool.not_eq_true] at h
    rw [h]
    rfl

theorem mem_formatGroups {rs : List TimeRecord} {m : ProjectMap} {g : Str × List Str} :
    g ∈ formatGroups rs m ↔ ∃ g0 ∈ buildGroups rs m, g = (g0.1, sortStrs g0.2) := by
  unfold formatGroups sortGroups
  rw [mem_sortBy, List.mem_map]
  constructor
  · rintro ⟨g0, h1, h2⟩; exact ⟨g0, h1, h2.symm⟩
  · rintro ⟨g0, h1, h2⟩; exact ⟨g0, h1, h2.symm⟩

theorem names_formatGroups_perm (rs : List TimeRecord) (m : ProjectMap) :
    ((formatGroups rs m).map Prod.fst).Perm ((buildGroups rs m).map Prod.fst) := by
  unfold formatGroups sortGroups
  refine ((sortBy_perm _ _).map Prod.fst).trans ?_
  rw [List.map_map]
  exact List.Perm.refl _

theorem names_chain_formatGroups (rs : List TimeRecord) (m : ProjectMap) :
    List.Chain' (fun a b => strLeB a b = true) ((formatGroups rs m).map Prod.fst) := by
  unfold formatGroups sortGroups
  rw [List.chain'_map]
  exact chain'_sortBy (fun (a b : Str × List Str) => strLeB_total a.1 b.1) _

/-- C5 and C10 share the description-provenance fact for formatGroups. -/
theorem formatGroups_prov {rs : List TimeRecord} {m : ProjectMap} {g : Str × List Str}
    (hg : g ∈ formatGroups rs m) :
    (∃ r ∈ rs, resolveProject m r = g.1) ∧ g.2.Nodup ∧
    List.Chain' (fun a b => strLeB a b = true) g.2 ∧
    ∀ t ∈ g.2, ∃ r ∈ rs, resolveProject m r = g.1 ∧ r.description = t ∧
      descOfRecord r = some t := by
  rw [mem_formatGroups] at hg
  obtain ⟨g0, hg0, rfl⟩ := hg
  obtain ⟨hex, hnd, hprov⟩ := (buildGroups_spec m rs).2.2.1 g0 hg0
  refine ⟨hex, ?_, ?_, ?_⟩
  · exact ((sortBy_perm _ _).nodup_iff).2 hnd
  · exact chain'_sortBy strLeB_total _
  · intro t ht
    exact hprov t ((mem_sortBy).1 ht)

theorem formatGroups_names_mem {rs : List TimeRecord} {m : ProjectMap} {r : TimeRecord}
    (hr : r ∈ rs) : resolveProject m r ∈ (formatGroups rs m).map Prod.fst := by
  rw [(names_formatGroups_perm rs m).mem_iff]
  exact (buildGroups_spec m rs).2.1 r hr

theorem formatGroups_desc_mem {rs : List TimeRecord} {m : ProjectMap} {r : TimeRecord}
    (hr : r ∈ rs) (hdesc : trimStr r.description ≠ []) :
    ∀ ts, (resolveProject m r, ts) ∈ formatGroups rs m → r.description ∈ ts := by
  intro ts hts
  have hne : r.description ≠ [] := by
    intro h
    apply hdesc
    rw [h]
    rfl
  have hsome : descOfRecord r = some r.description := by
    unfold descOfRecord
    rw [if_pos ⟨hne, hdesc⟩]
  rw [mem_formatGroups] at hts
  obtain ⟨g0, hg0, heq⟩ := hts
  have h1 : g0.1 = resolveProject m r := (congrArg Prod.fst heq).symm
  have h2 : ts = sortStrs g0.2 := congrArg Prod.snd heq
  have := (buildGroups_spec m rs).2.2.2 r hr r.description hsome g0.2
    (by rw [← h1]; exact hg0)
  rw [h2]
  exact mem_sortBy.2 this

/-- C5: formatTimeRecords groups records by resolved project name (records
without a resolvable project id land in the No Project bucket via
resolveProject), collapses repeated identical descriptions within a
project to one item, renders projects and descriptions in lexicographic
order, and on the concrete entries of the claim produces exactly the
projects No Project then Site, Site carrying the single deduplicated
item A. -/
theorem spec_C5 :
    (∀ (rs : List TimeRecord) (m : ProjectMap), rs ≠ [] →
      List.Chain' (fun a b => strLeB a b = true) ((formatGroups rs m).map Prod.fst) ∧
      ((formatGroups rs m).map Prod.fst).Nodup ∧
      (∀ r ∈ rs, resolveProject m r ∈ (formatGroups rs m).map Prod.fst) ∧
      (∀ g ∈ formatGroups rs m,
        List.Chain' (fun a b => strLeB a b = true) g.2 ∧ g.2.Nodup ∧
        ∀ t ∈ g.2, ∃ r ∈ rs, resolveProject m r = g.1 ∧ r.description = t) ∧
      (∀ r ∈ rs, trimStr r.description ≠ [] →
        ∀ ts, (resolveProject m r, ts) ∈ formatGroups rs m → r.description ∈ ts)) ∧
    formatTimeRecords [⟨str "A", some 1⟩, ⟨str "A", some 1⟩, ⟨str "B", none⟩]
      [(1, str "Site")] =
      str "<ul><li>No Project<ul><li>B</li></ul></li><li>Site<ul><li>A</li></ul></li></ul>" := by
  constructor
  · intro rs m _
    refine ⟨names_chain_formatGroups rs m, ?_, ?_, ?_, ?_⟩
    · exact ((names_formatGroups_perm rs m).nodup_iff).2 (buildGroups_spec m rs).1
    · intro r hr
      exact formatGroups_names_mem hr
    · intro g hg
      obtain ⟨_, hnd, hch, hprov⟩ := formatGroups_prov hg
      refine ⟨hch, hnd, ?_⟩
      intro t ht
      obtain ⟨r, hr, h1, h2, _⟩ := hprov t ht
      exact ⟨r, hr, h1, h2⟩
    · intro r hr hd ts hts
      exact formatGroups_desc_mem hr hd ts hts
  · decide

/-- Witness for C5 at the concrete entries of the claim. -/
theorem spec_C5_witness :
    (([⟨str "A", some 1⟩, ⟨str "A", some 1⟩, ⟨str "B", none⟩] : List TimeRecord) ≠ []) ∧
    ((formatGroups [⟨str "A", some 1⟩, ⟨str "A", some 1⟩, ⟨str "B", none⟩]
        [(1, str "Site")]).map Prod.fst).Nodup :=
  ⟨List.cons_ne_nil _ _,
   (spec_C5.1 [⟨str "A", some 1⟩, ⟨str "A", some 1⟩, ⟨str "B", none⟩]
      [(1, str "Site")] (List.cons_ne_nil _ _)).2.1⟩

/-- C10: a record with an empty or whitespace-only description still makes
its resolved project heading appear in the output, but contributes no
description item; a project all of whose records have blank descriptions
has an empty item set and is rendered as a bare list item with no nested
list. -/
theorem spec_C10 :
    (∀ (rs : List TimeRecord) (m : ProjectMap) (r : TimeRecord), r ∈ rs →
      resolveProject m r ∈ (formatGroups rs m).map Prod.fst) ∧
    (∀ (rs : List TimeRecord) (m : ProjectMap) (g : Str × List Str),
      g ∈ formatGroups rs m → ∀ t ∈ g.2, trimStr t ≠ []) ∧
    (∀ (rs : List TimeRecord) (m : ProjectMap) (n : Str),
      (∀ r ∈ rs, resolveProject m r = n → trimStr r.description = []) →
      ∀ ts, (n, ts) ∈ formatGroups rs m → ts = []) ∧
    (∀ g : Str × List Str, g.2 = [] →
      renderGroup g = str "<li>" ++ g.1 ++ str "</li>") := by
  refine ⟨?_, ?_, ?_, ?_⟩
  · intro rs m r hr
    exact formatGroups_names_mem hr
  · intro rs m g hg t ht
    obtain ⟨_, _, _, hprov⟩ := formatGroups_prov hg
    obtain ⟨r, _, _, _, hsome⟩ := hprov t ht
    exact (descOfRecord_eq_some hsome).2
  · intro rs m n hall ts hts
    obtain ⟨_, _, _, hprov⟩ := formatGroups_prov hts
    cases hcase : ts with
    | nil => rfl
    | cons t rest =>
      exfalso
      obtain ⟨r, hr, hres, _, hsome⟩ := hprov t (by rw [hcase]; simp)
      have h1 := hall r hr hres
      have h2 := (descOfRecord_eq_some hsome).1
      have h3 := (descOfRecord_eq_some hsome).2
      rw [h2] at h1
      exact h3 h1
  · intro g hempty
    obtain ⟨n, ts⟩ := g
    simp only at hempty
    subst hempty
    simp [renderGroup]

/-- Witness for C10: a record whose description is two blanks, resolved to
the project Site, yields the Site heading with no items. -/
theorem spec_C10_witness :
    ((⟨str "  ", some 1⟩ : TimeRecord) ∈ ([⟨str "  ", some 1⟩] : List TimeRecord)) ∧
    resolveProject [(1, str "Site")] ⟨str "  ", some 1⟩ ∈
      (formatGroups [⟨str "  ", some 1⟩] [(1, str "Site")]).map Prod.fst ∧
    (∀ r ∈ ([⟨str "  ", some 1⟩] : List TimeRecord),
      resolveProject [(1, str "Site")] r = str "Site" → trimStr r.description = []) ∧
    (∀ ts, (str "Site", ts) ∈ formatGroups [⟨str "  ", some 1⟩] [(1, str "Site")] →
      ts = []) :=
  ⟨by simp,
   spec_C10.1 [⟨str "  ", some 1⟩] [(1, str "Site")] ⟨str "  ", some 1⟩ (by simp),
   by decide,
   spec_C10.2.2.1 [⟨str "  ", some 1⟩] [(1, str "Site")] (str "Site") (by decide)⟩

/-! ## Toggl service (src/services/togglService.ts) -/

/-- The remote calls fetchProjects makes, as oracles: the workspace id the
service was constructed with (the empty string models a missing id, which
is falsy), the outcome of the projects request, and the outcome of the
alternative me request.  Except.error carries a thrown error message. -/
structure ProjOracle where
  workspaceId : Str
  projectsCall : Except Str (List (Nat × Str))
  meCall : Except Str Unit

/-- fetchProjectsAlternative: both the success path and every catch return
a project map (the success path returns an empty one without populating
it); no failure escapes. -/
def fetchProjectsAlternative (o : ProjOracle) : Except Str ProjectMap :=
  match o.meCall with
  | Except.ok _ => Except.ok []
  | Except.error _ => Except.ok []

/-- The body of fetchProjects: missing workspace id returns the empty map;
a successful projects call builds the id-to-name map; a failed projects
call falls back to the alternative fetch. -/
def fetchProjectsBody (o : ProjOracle) : Except Str ProjectMap :=
  if o.workspaceId = [] then Except.ok []
  else
    match o.projectsCall with
    | Except.ok projects => Except.ok (buildPM projects)
    | Except.error _ => fetchProjectsAlternative o

/-- fetchProjects: the outer try/catch of the source rethrows whatever
escapes the body. -/
def fetchProjects (o : ProjOracle) : Except Str ProjectMap :=
  match fetchProjectsBody o with
  | Except.ok v => Except.ok v
  | Except.error e => Except.error e

theorem names_of_const_resolve {m : ProjectMap} {n0 : Str} :
    ∀ rs : List TimeRecord, (∀ r ∈ rs, resolveProject m r = n0) →
      (buildGroups rs m).map Prod.fst = if rs = [] then [] else [n0] := by
  intro rs
  induction rs using List.reverseRecOn with
  | nil => intro _; simp [buildGroups]
  | append_singleton rs r0 ih =>
    intro hall
    rw [buildGroups_append, keys_addToGroups,
      ih (fun r hr => hall r (List.mem_append_left _ hr)),
      hall r0 (List.mem_append_right _ (by simp))]
    by_cases hrs : rs = []
    · subst hrs
      simp
    · rw [if_neg hrs, if_pos (by simp), if_neg (by simp)]

/-- C9: fetchProjects never raises at its interface — missing workspace
id, a failed projects request, or a failed alternative request all
resolve to the empty map — and with the empty map the formatter resolves
every record to No Project, so the only project group is No Project. -/
theorem spec_C9 :
    (∀ o : ProjOracle, ∃ pm, fetchProjects o = Except.ok pm) ∧
    (∀ o : ProjOracle, o.workspaceId = [] → fetchProjects o = Except.ok []) ∧
    (∀ (o : ProjOracle) (e : Str), o.projectsCall = Except.error e →
      fetchProjects o = Except.ok (if o.workspaceId = [] then [] else [])) ∧
    (∀ r : TimeRecord, resolveProject [] r = str "No Project") ∧
    (∀ rs : List TimeRecord, rs ≠ [] →
      (formatGroups rs []).map Prod.fst = [str "No Project"]) := by
  have hbody : ∀ o : ProjOracle, ∃ pm, fetchProjectsBody o = Except.ok pm := by
    intro o
    unfold fetchProjectsBody
    by_cases hw : o.workspaceId = []
    · exact ⟨[], by rw [if_pos hw]⟩
    · rw [if_neg hw]
      cases hp : o.projectsCall with
      | ok projects => exact ⟨buildPM projects, rfl⟩
      | error e =>
        unfold fetchProjectsAlternative
        cases o.meCall with
        | ok _ => exact ⟨[], rfl⟩
        | error _ => exact ⟨[], rfl⟩
  refine ⟨?_, ?_, ?_, ?_, ?_⟩
  · intro o
    obtain ⟨pm, hpm⟩ := hbody o
    exact ⟨pm, by unfold fetchProjects; rw [hpm]⟩
  · intro o hw
    unfold fetchProjects fetchProjectsBody
    rw [if_pos hw]
  · intro o e he
    unfold fetchProjects fetchProjectsBody
    by_cases hw : o.workspaceId = []
    · rw [if_pos hw, if_pos hw]
    · rw [if_neg hw, if_neg hw, he]
      unfold fetchProjectsAlternative
      cases o.meCall with
      | ok _ => rfl
      | error _ => rfl
  · intro r
    cases hrp : r.pid with
    | none => simp [resolveProject, hrp]
    | some p =>
      by_cases hp : p = 0
      · subst hp; simp [resolveProject, hrp]
      · simp [resolveProject, hrp, lookupPM, hp]
  · intro rs hrs
    have hall : ∀ r ∈ rs, resolveProject [] r = str "No Project" := by
      intro r _
      cases hrp : r.pid with
      | none => simp [resolveProject, hrp]
      | some p =>
        by_cases hp : p = 0
        · subst hp; simp [resolveProject, hrp]
        · simp [resolveProject, hrp, lookupPM, hp]
    have hnames := names_of_const_resolve rs hall
    rw [if_neg hrs] at hnames
    have hperm := names_formatGroups_perm rs ([] : ProjectMap)
    rw [hnames] at hperm
    exact List.perm_singleton.1 hperm

/-- Witness for C9: a concrete oracle whose projects call fails resolves
to the empty map, and a one-record list formats to the single No Project
group. -/
theorem spec_C9_witness :
    fetchProjects ⟨str "ws1", Except.error (str "boom"), Except.error (str "alt")⟩ =
      Except.ok [] ∧
    (formatGroups [⟨str "work", some 7⟩] []).map Prod.fst = [str "No Project"] := by
  constructor
  · have h := spec_C9.2.2.1 ⟨str "ws1", Except.error (str "boom"), Except.error (str "alt")⟩
      (str "boom") rfl
    simpa using h
  · exact spec_C9.2.2.2.2 [⟨str "work", some 7⟩] (List.cons_ne_nil _ _)

/-! ## Time-record fetch with boundary discovery (togglService.fetchTimeRecords) -/

/-- Abstract timestamp: dates compare by their numeric value, as the Date
objects of the source do.  The value of an ISO day string is embedded
monotonically as yyyy times 10000 plus mm times 100 plus dd. -/
abbrev TglDate := Nat

def boundaryPhrase : Str := str "start_date must not be earlier than"

/-- A match of the boundary-date regex at the start of s: the literal
word than, a blank, then an ISO yyyy-mm-dd date; returns the monotone
numeric value of the date. -/
def isoAt : Str → Option Nat
  | 't' :: 'h' :: 'a' :: 'n' :: ' ' :: y1 :: y2 :: y3 :: y4 :: '-' :: m1 :: m2 :: '-' :: d1 :: d2 :: _ =>
    if y1.isDigit && y2.isDigit && y3.isDigit && y4.isDigit &&
       m1.isDigit && m2.isDigit && d1.isDigit && d2.isDigit then
      some ((((10 * digitVal y1 + digitVal y2) * 10 + digitVal y3) * 10 + digitVal y4) * 10000 +
        (10 * digitVal m1 + digitVal m2) * 100 + (10 * digitVal d1 + digitVal d2))
    else none
  | _ => none

/-- First match of the boundary-date regex in the message (the capture the
source turns into its earliestAllowedDate). -/
def extractBoundaryDate : Str → Option Nat
  | [] => none
  | c :: cs =>
    match isoAt (c :: cs) with
    | some d => some d
    | none => extractBoundaryDate cs

/-- fetchTimeRecords of the source, with the mutable earliestAllowedDate
field threaded as explicit state and the remote GET as an oracle.  The
source recursion is unbounded (it re-enters itself after adjusting the
start date); the fuel argument bounds the modelled recursion depth and
never runs out in the scenarios of the claims, which need depth at most
two. -/
def fetchTimeRecords (api : TglDate → TglDate → Except Str (List TimeRecord)) :
    Nat → Option TglDate → TglDate → TglDate →
      Except Str (List TimeRecord) × Option TglDate
  | 0, st, _, _ => (Except.error (str "recursion limit"), st)
  | fuel + 1, st, startDate, endDate =>
    let clamped :=
      match st with
      | some d => if startDate < d then d else startDate
      | none => startDate
    match api clamped endDate with
    | Except.ok recs => (Except.ok recs, st)
    | Except.error msg =>
      if occursCS boundaryPhrase msg then
        match extractBoundaryDate msg with
        | some d => fetchTimeRecords api fuel (some d) d endDate
        | none => (Except.error (str "Failed to fetch time records: " ++ msg), st)
      else (Except.error (str "Failed to fetch time records: " ++ msg), st)

/-- C7: against an upstream with a hard boundary X (requests starting
before X fail with the parseable boundary message, requests starting at
or after X succeed), a fetch for a week predating X discovers X, caches
it, retries once with the clamped start and returns the records — and
every later fetch in the run whose start precedes X is clamped before
any request is sent and succeeds immediately (recursion depth one: the
boundary error is not raised again). -/
theorem spec_C7 (api : TglDate → TglDate → Except Str (List TimeRecord))
    (X : TglDate) (msgX : Str) (recs : List TimeRecord)
    (h1 : ∀ s e, s < X → api s e = Except.error msgX)
    (h2 : ∀ s e, ¬ s < X → api s e = Except.ok recs)
    (h3 : occursCS boundaryPhrase msgX = true)
    (h4 : extractBoundaryDate msgX = some X) :
    (∀ s e, s < X → fetchTimeRecords api 2 none s e = (Except.ok recs, some X)) ∧
    (∀ s e, s < X →
      fetchTimeRecords api 1 (some X) s e = (Except.ok recs, some X)) := by
  constructor
  · intro s e hs
    show fetchTimeRecords api (1 + 1) none s e = (Except.ok recs, some X)
    unfold fetchTimeRecords
    simp only [h1 s e hs, h3, if_true, h4]
    show fetchTimeRecords api (0 + 1) (some X) X e = (Except.ok recs, some X)
    unfold fetchTimeRecords
    simp only [lt_self_iff_false, if_false, h2 X e (lt_irrefl X)]
  · intro s e hs
    show fetchTimeRecords api (0 + 1) (some X) s e = (Except.ok recs, some X)
    unfold fetchTimeRecords
    simp only [if_pos hs, h2 X e (lt_irrefl X)]

/-- Witness for C7: a concrete boundary oracle at 2023-01-15. -/
theorem spec_C7_witness :
    fetchTimeRecords
      (fun s _ =>
        if s < 20230115 then
          Except.error (str "start_date must not be earlier than 2023-01-15")
        else Except.ok [])
      2 none 20220101 20220107 = (Except.ok [], some 20230115) := by
  have h := spec_C7
    (fun s _ =>
      if s < 20230115 then
        Except.error (str "start_date must not be earlier than 2023-01-15")
      else Except.ok [])
    20230115 (str "start_date must not be earlier than 2023-01-15") []
    (fun s e hs => by simp [hs])
    (fun s e hs => by simp [hs])
    (by decide) (by decide)
  exact h.1 20220101 20220107 (by decide)

/-! ## Backfill orchestrator (src/index.ts) -/

/-- The outcome of processWeek for one week, as an oracle: success, or a
thrown error carrying its message (the message No time records found for
this period marks the empty-week case). -/
inductive WeekResult where
  | success
  | failure (msg : Str)
deriving DecidableEq, Repr

structure WeekJob where
  label : Str
  result : WeekResult
deriving DecidableEq, Repr

structure RunCounters where
  processed : Nat
  skipped : Nat
  noData : Nat
  errored : Nat
deriving DecidableEq, Repr

def noRecordsPhrase : Str := str "No time records found"

/-- One iteration of the fillInMissingWeeks loop: the pre-check against
the initial snapshot counts skipped; otherwise processWeek runs and
success counts processed; a failure whose message includes the
no-records phrase counts noData, any other failure counts errored, and
the loop continues either way. -/
def stepWeek (displayName existingContent : Str) (c : RunCounters) (j : WeekJob) :
    RunCounters :=
  if hasWeekForUser displayName existingContent j.label then
    RunCounters.mk c.processed (c.skipped + 1) c.noData c.errored
  else
    match j.result with
    | WeekResult.success => RunCounters.mk (c.processed + 1) c.skipped c.noData c.errored
    | WeekResult.failure msg =>
      if occursCS noRecordsPhrase msg then
        RunCounters.mk c.processed c.skipped (c.noData + 1) c.errored
      else
        RunCounters.mk c.processed c.skipped c.noData (c.errored + 1)

/-- The counter loop of fillInMissingWeeks: the year's weeks are walked in
reverse (newest first), starting from zeroed counters. -/
def fillInMissingWeeks (displayName existingContent : Str) (weeks : List WeekJob) :
    RunCounters :=
  weeks.reverse.foldl (stepWeek displayName existingContent) (RunCounters.mk 0 0 0 0)

def isSkippedW (dn ec : Str) (j : WeekJob) : Bool := hasWeekForUser dn ec j.label

def isProcessedW (dn ec : Str) (j : WeekJob) : Bool :=
  match j.result with
  | WeekResult.success => !hasWeekForUser dn ec j.label
  | WeekResult.failure _ => false

def isNoDataW (dn ec : Str) (j : WeekJob) : Bool :=
  match j.result with
  | WeekResult.success => false
  | WeekResult.failure msg => !hasWeekForUser dn ec j.label && occursCS noRecordsPhrase msg

def isErroredW (dn ec : Str) (j : WeekJob) : Bool :=
  match j.result with
  | WeekResult.success => false
  | WeekResult.failure msg => !hasWeekForUser dn ec j.label && !occursCS noRecordsPhrase msg

theorem foldl_stepWeek (dn ec : Str) :
    ∀ (ws : List WeekJob) (c : RunCounters),
      ws.foldl (stepWeek dn ec) c =
        RunCounters.mk (c.processed + ws.countP (isProcessedW dn ec))
          (c.skipped + ws.countP (isSkippedW dn ec))
          (c.noData + ws.countP (isNoDataW dn ec))
          (c.errored + ws.countP (isErroredW dn ec)) := by
  intro ws
  induction ws with
  | nil => intro c; cases c; simp
  | cons j t ih =>
    intro c
    rw [List.foldl_cons, ih]
    by_cases hsk : hasWeekForUser dn ec j.label = true
    · cases hjr : j.result with
      | success =>
        simp [stepWeek, hsk, hjr, List.countP_cons, isProcessedW, isSkippedW,
          isNoDataW, isErroredW, RunCounters.mk.injEq] <;> omega
      | failure msg =>
        simp [stepWeek, hsk, hjr, List.countP_cons, isProcessedW, isSkippedW,
          isNoDataW, isErroredW, RunCounters.mk.injEq] <;> omega
    · rw [Bool.not_eq_true] at hsk
      cases hjr : j.result with
      | success =>
        simp [stepWeek, hsk, hjr, List.countP_cons, isProcessedW, isSkippedW,
          isNoDataW, isErroredW, RunCounters.mk.injEq] <;> omega
      | failure msg =>
        by_cases hnd : occursCS noRecordsPhrase msg = true
        · simp [stepWeek, hsk, hjr, hnd, List.countP_cons, isProcessedW, isSkippedW,
            isNoDataW, isErroredW, RunCounters.mk.injEq] <;> omega
        · rw [Bool.not_eq_true] at hnd
          simp [stepWeek, hsk, hjr, hnd, List.countP_cons, isProcessedW, isSkippedW,
            isNoDataW, isErroredW, RunCounters.mk.injEq] <;> omega

/-- The four categories are exhaustive and exclusive, so their counts sum
to the number of weeks. -/
theorem countP_weeks_sum (dn ec : Str) (ws : List WeekJob) :
    ws.countP (isProcessedW dn ec) + ws.countP (isSkippedW dn ec) +
      ws.countP (isNoDataW dn ec) + ws.countP (isErroredW dn ec) = ws.length := by
  induction ws with
  | nil => simp
  | cons j t ih =>
    simp only [List.countP_cons, List.length_cons]
    have hcase : (if isProcessedW dn ec j then 1 else 0) + (if isSkippedW dn ec j then 1 else 0) +
        (if isNoDataW dn ec j then 1 else 0) + (if isErroredW dn ec j then 1 else 0) = 1 := by
      unfold isProcessedW isSkippedW isNoDataW isErroredW
      by_cases hsk : hasWeekForUser dn ec j.label = true
      · cases j.result with
        | success => simp [hsk]
        | failure msg => simp [hsk]
      · rw [Bool.not_eq_true] at hsk
        cases j.result with
        | success => simp [hsk]
        | failure msg =>
          by_cases hnd : occursCS noRecordsPhrase msg = true
          · simp [hsk, hnd]
          · rw [Bool.not_eq_true] at hnd
            simp [hsk, hnd]
    omega

/-- Counter totals of a full run, shared between the claims about the
orchestrator. -/
theorem fillInMissingWeeks_counts (dn ec : Str) (weeks : List WeekJob) :
    fillInMissingWeeks dn ec weeks =
      RunCounters.mk (weeks.countP (isProcessedW dn ec)) (weeks.countP (isSkippedW dn ec))
        (weeks.countP (isNoDataW dn ec)) (weeks.countP (isErroredW dn ec)) := by
  unfold fillInMissingWeeks
  rw [foldl_stepWeek]
  simp only [Nat.zero_add]
  rw [(List.reverse_perm weeks).countP_eq, (List.reverse_perm weeks).countP_eq,
    (List.reverse_perm weeks).countP_eq, (List.reverse_perm weeks).countP_eq]

/-- C6: a per-week failure increments exactly one of the noData or errored
counters (noData exactly when the message carries the no-records phrase),
every week of the run is consumed and counted exactly once, and the final
counters sum to the total number of weeks. -/
theorem spec_C6 (dn ec : Str) (weeks : List WeekJob) :
    (fillInMissingWeeks dn ec weeks).processed + (fillInMissingWeeks dn ec weeks).skipped +
      (fillInMissingWeeks dn ec weeks).noData + (fillInMissingWeeks dn ec weeks).errored =
      weeks.length ∧
    (fillInMissingWeeks dn ec weeks).processed = weeks.countP (isProcessedW dn ec) ∧
    (fillInMissingWeeks dn ec weeks).skipped = weeks.countP (isSkippedW dn ec) ∧
    (fillInMissingWeeks dn ec weeks).noData = weeks.countP (isNoDataW dn ec) ∧
    (fillInMissingWeeks dn ec weeks).errored = weeks.countP (isErroredW dn ec) := by
  rw [fillInMissingWeeks_counts]
  refine ⟨?_, rfl, rfl, rfl, rfl⟩
  exact countP_weeks_sum dn ec weeks

/-- The required environment credentials main checks before running; the
empty string models an unset variable (both undefined and the empty
string are falsy). -/
structure AppConfig where
  togglApiToken : Str
  togglWorkspaceId : Str
  confluenceUsername : Str
  confluenceApiToken : Str
  confluenceBaseUrl : Str
deriving DecidableEq, Repr

def configComplete (c : AppConfig) : Bool :=
  !c.togglApiToken.isEmpty && !c.togglWorkspaceId.isEmpty &&
  !c.confluenceUsername.isEmpty && !c.confluenceApiToken.isEmpty &&
  !c.confluenceBaseUrl.isEmpty

/-- The remote interactions of one run, as oracles: the upfront
getExistingContent snapshot fetch of fillInMissingWeeks, the per-week
outcomes, and the outcome of the single processWeek call of the regular
mode.  fetchProjects appears in neither: it never throws (see the
fetchProjects theorems). -/
structure RunEnv where
  getExistingContent : Except Str Str
  displayName : Str
  weeks : List WeekJob
  singleWeek : Except Str Unit

/-- fillInMissingWeeks as main sees it: the upfront snapshot fetch happens
before the per-week loop and outside any per-week try, so its failure
escapes to main; afterwards the loop itself never throws. -/
def runBackfill (env : RunEnv) : Except Str RunCounters :=
  match env.getExistingContent with
  | Except.error e => Except.error e
  | Except.ok content =>
    Except.ok (fillInMissingWeeks env.displayName content env.weeks)

/-- The exit status of main: 1 from the configuration pre-flight checks,
1 from the catch around the selected mode, 0 on completion. -/
def mainExit (cfg : AppConfig) (backfill : Bool) (env : RunEnv) : Nat :=
  if !configComplete cfg then 1
  else if backfill then
    match runBackfill env with
    | Except.ok _ => 0
    | Except.error _ => 1
  else
    match env.singleWeek with
    | Except.ok _ => 0
    | Except.error _ => 1

/-- Counterexample for C8: with complete credentials, a backfill run whose
upfront page-content fetch fails exits with status 1, although the claim
says backfill mode always completes its iteration and exits zero. -/
theorem spec_C8_cex :
    configComplete (AppConfig.mk (str "t") (str "w") (str "u") (str "a") (str "b")) = true ∧
    mainExit (AppConfig.mk (str "t") (str "w") (str "u") (str "a") (str "b")) true
      (RunEnv.mk (Except.error (str "network down")) (str "Andres") [] (Except.ok ())) = 1 := by
  constructor
  · rfl
  · rfl

/-- C8 as amended: backfill mode completes its full iteration (every week
counted exactly once) and exits zero provided the upfront content fetch
succeeds; the process exits non-zero exactly when required configuration
is absent, when the single-week path fails, or when the backfill upfront
fetch fails. -/
theorem spec_C8 :
    (∀ (cfg : AppConfig) (env : RunEnv) (b : Bool), configComplete cfg = false →
      mainExit cfg b env = 1) ∧
    (∀ (cfg : AppConfig) (env : RunEnv) (content : Str), configComplete cfg = true →
      env.getExistingContent = Except.ok content →
      mainExit cfg true env = 0 ∧
      (fillInMissingWeeks env.displayName content env.weeks).processed +
        (fillInMissingWeeks env.displayName content env.weeks).skipped +
        (fillInMissingWeeks env.displayName content env.weeks).noData +
        (fillInMissingWeeks env.displayName content env.weeks).errored =
        env.weeks.length) ∧
    (∀ (cfg : AppConfig) (env : RunEnv) (e : Str), configComplete cfg = true →
      env.getExistingContent = Except.error e → mainExit cfg true env = 1) ∧
    (∀ (cfg : AppConfig) (env : RunEnv) (e : Str), configComplete cfg = true →
      env.singleWeek = Except.error e → mainExit cfg false env = 1) ∧
    (∀ (cfg : AppConfig) (env : RunEnv), configComplete cfg = true →
      env.singleWeek = Except.ok () → mainExit cfg false env = 0) := by
  refine ⟨?_, ?_, ?_, ?_, ?_⟩
  · intro cfg env b hc
    unfold mainExit
    rw [hc]
    rfl
  · intro cfg env content hc hg
    constructor
    · unfold mainExit runBackfill
      rw [hc, hg]
      rfl
    · rw [fillInMissingWeeks_counts]
      exact countP_weeks_sum _ _ _
  · intro cfg env e hc hg
    unfold mainExit runBackfill
    rw [hc, hg]
    rfl
  · intro cfg env e hc hs
    unfold mainExit
    rw [hc, hs]
    rfl
  · intro cfg env hc hs
    unfold mainExit
    rw [hc, hs]
    rfl

/-- Witness for C8 as amended: a successful concrete backfill run exits
zero and its counters cover the single week. -/
theorem spec_C8_witness :
    configComplete (AppConfig.mk (str "t") (str "w") (str "u") (str "a") (str "b")) = true ∧
    mainExit (AppConfig.mk (str "t") (str "w") (str "u") (str "a") (str "b")) true
      (RunEnv.mk (Except.ok (str "")) (str "Andres")
        [WeekJob.mk (str "14/03") WeekResult.success] (Except.ok ())) = 0 :=
  ⟨rfl,
   (spec_C8.2.1 (AppConfig.mk (str "t") (str "w") (str "u") (str "a") (str "b"))
      (RunEnv.mk (Except.ok (str "")) (str "Andres")
        [WeekJob.mk (str "14/03") WeekResult.success] (Except.ok ()))
      (str "") rfl rfl).1⟩

/-! ## Infrastructure lemmas for the merge-engine claims -/

theorem breakOnCS_append (pat : Str) : ∀ s : Str, (breakOnCS pat s).1 ++ (breakOnCS pat s).2 = s := by
  intro s
  induction s with
  | nil => rfl
  | cons c cs ih =>
    simp only [breakOnCS]
    by_cases h : startsWithBy chEqCS pat (c :: cs) = true
    · rw [if_pos h]
      rfl
    · rw [if_neg h]
      simp only [List.cons_append, List.cons.injEq, true_and]
      exact ih

theorem takeWhile_decomp (p : Char → Bool) : ∀ t : Str,
    t = t.takeWhile p ++ t.drop (t.takeWhile p).length := by
  intro t
  induction t with
  | nil => rfl
  | cons c cs ih =>
    by_cases h : p c = true
    · simp only [List.takeWhile_cons, h, if_true, List.length_cons, List.drop_succ_cons,
        List.cons_append, List.cons.injEq, true_and]
      exact ih
    · simp [List.takeWhile_cons, h]

theorem takeWhile_idem (p : Char → Bool) (l : Str) :
    (l.takeWhile p).takeWhile p = l.takeWhile p := by
  induction l with
  | nil => rfl
  | cons c cs ih =>
    by_cases h : p c = true
    · simp [List.takeWhile_cons, h, ih]
    · simp [List.takeWhile_cons, h]

theorem monthHeadAt_some {s name rest : Str} (h : monthHeadAt s = some (name, rest)) :
    s = str "<h1>" ++ name ++ str "</h1>" ++ rest ∧ name ≠ [] ∧
      name = name.takeWhile Char.isAlpha := by
  unfold monthHeadAt at h
  by_cases h1 : startsWithBy chEqCS (str "<h1>") s = true
  case neg => rw [if_neg h1] at h; cases h
  rw [if_pos h1] at h
  obtain ⟨t, rfl⟩ := startsWithCS_iff.1 h1
  have e4 : (str "<h1>" ++ t).drop 4 = t := rfl
  rw [e4] at h
  by_cases h2 : t.takeWhile Char.isAlpha = []
  · rw [if_pos h2] at h
    cases h
  · rw [if_neg h2] at h
    by_cases h3 : startsWithBy chEqCS (str "</h1>")
        (t.drop (t.takeWhile Char.isAlpha).length) = true
    · rw [if_pos h3] at h
      simp only [Option.some.injEq, Prod.mk.injEq] at h
      obtain ⟨hn, hr⟩ := h
      obtain ⟨u, hu⟩ := startsWithCS_iff.1 h3
      refine ⟨?_, by rw [← hn]; exact h2, by rw [← hn]; exact (takeWhile_idem _ _).symm⟩
      rw [← hn, ← hr]
      have hdec : t = t.takeWhile Char.isAlpha ++ (str "</h1>" ++ u) := by
        rw [← hu]
        exact takeWhile_decomp _ t
      have hu5 : (t.drop (t.takeWhile Char.isAlpha).length).drop 5 = u := by
        rw [hu]
        rfl
      have hdd : t.drop ((t.takeWhile Char.isAlpha).length + 5) =
          (t.drop (t.takeWhile Char.isAlpha).length).drop 5 := by
        rw [List.drop_drop, Nat.add_comm]
      rw [hdd, hu5]
      calc str "<h1>" ++ t
          = str "<h1>" ++ (t.takeWhile Char.isAlpha ++ (str "</h1>" ++ u)) := by rw [← hdec]
        _ = str "<h1>" ++ t.takeWhile Char.isAlpha ++ str "</h1>" ++ u := by
            simp [List.append_assoc]
    · rw [if_neg h3] at h
      cases h

theorem mem_mapSet_self (m : List (Str × Str)) (k v : Str) : (k, v) ∈ mapSet m k v := by
  induction m with
  | nil => simp [mapSet]
  | cons kv t ih =>
    simp only [mapSet]
    by_cases h : kv.1 = k
    · rw [if_pos h]
      exact List.mem_cons_self _ _
    · rw [if_neg h]
      exact List.mem_cons_of_mem _ ih

theorem mem_mapSet_of_ne {m : List (Str × Str)} {k v k' v' : Str} (hne : k' ≠ k)
    (hm : (k', v') ∈ m) : (k', v') ∈ mapSet m k v := by
  induction m with
  | nil => cases hm
  | cons kv t ih =>
    simp only [mapSet]
    rcases List.mem_cons.1 hm with heq | hmem
    · by_cases h : kv.1 = k
      · exfalso
        apply hne
        have h1 : (k', v').1 = k := by rw [heq]; exact h
        exact h1
      · rw [if_neg h]
        exact List.mem_cons.2 (Or.inl heq)
    · by_cases h : kv.1 = k
      · rw [if_pos h]
        exact List.mem_cons_of_mem _ hmem
      · rw [if_neg h]
        exact List.mem_cons_of_mem _ (ih hmem)

theorem mem_mapSet_cases {m : List (Str × Str)} {k v : Str} {x : Str × Str}
    (h : x ∈ mapSet m k v) : x ∈ m ∨ x = (k, v) := by
  induction m with
  | nil =>
    simp only [mapSet, List.mem_singleton] at h
    exact Or.inr h
  | cons kv t ih =>
    simp only [mapSet] at h
    by_cases hh : kv.1 = k
    · rw [if_pos hh] at h
      rcases List.mem_cons.1 h with heq | hmem
      · exact Or.inr heq
      · exact Or.inl (List.mem_cons_of_mem _ hmem)
    · rw [if_neg hh] at h
      rcases List.mem_cons.1 h with heq | hmem
      · exact Or.inl (List.mem_cons.2 (Or.inl heq))
      · rcases ih hmem with h1 | h1
        · exact Or.inl (List.mem_cons_of_mem _ h1)
        · exact Or.inr h1

theorem extractScan_infix : ∀ {s n sec : Str}, (n, sec) ∈ extractScan s →
    ∃ u w, s = u ++ sec ++ w := by
  intro s
  induction s with
  | nil => intro n sec h; simp [extractScan] at h
  | cons c cs ih =>
    intro n sec h
    cases hma : monthHeadAt (c :: cs) with
    | none =>
      simp only [extractScan, hma] at h
      obtain ⟨u, w, hw⟩ := ih h
      exact ⟨c :: u, w, by simp [hw]⟩
    | some nr =>
      obtain ⟨n0, r0⟩ := nr
      simp only [extractScan, hma] at h
      rcases List.mem_cons.1 h with heq | hmem
      · simp only [Prod.mk.injEq] at heq
        obtain ⟨_, h2⟩ := heq
        obtain ⟨hs, _, _⟩ := monthHeadAt_some hma
        have hbo := breakOnCS_append (str "<h1>") r0
        refine ⟨[], (breakOnCS (str "<h1>") r0).2, ?_⟩
        rw [hs, h2]
        conv_lhs => rw [← hbo]
        simp [List.append_assoc]
      · obtain ⟨u, w, hw⟩ := ih hmem
        exact ⟨c :: u, w, by simp [hw]⟩

theorem mem_foldl_mapSet :
    ∀ (l : List (Str × Str)) (acc : List (Str × Str)) (x : Str × Str),
      x ∈ l.foldl (fun m nr => if nr.1 ∈ monthNames then mapSet m nr.1 nr.2 else m) acc →
      x ∈ acc ∨ (x ∈ l ∧ x.1 ∈ monthNames) := by
  intro l
  induction l with
  | nil => intro acc x h; exact Or.inl h
  | cons a t ih =>
    intro acc x h
    rw [List.foldl_cons] at h
    rcases ih _ x h with h1 | h1
    · by_cases hm : a.1 ∈ monthNames
      · rw [if_pos hm] at h1
        rcases mem_mapSet_cases h1 with h2 | h2
        · exact Or.inl h2
        · right
          refine ⟨?_, by rw [h2]; exact hm⟩
          rw [h2]
          exact List.mem_cons_self _ _
      · rw [if_neg hm] at h1
        exact Or.inl h1
    · exact Or.inr ⟨List.mem_cons_of_mem _ h1.1, h1.2⟩

theorem mem_extractMonthSections {doc n sec : Str}
    (h : (n, sec) ∈ extractMonthSections doc) :
    (n, sec) ∈ extractScan doc ∧ n ∈ monthNames := by
  unfold extractMonthSections at h
  rcases mem_foldl_mapSet _ _ _ h with h1 | h1
  · cases h1
  · exact h1

theorem extractMonthSections_infix {doc n sec : Str}
    (h : (n, sec) ∈ extractMonthSections doc) : ∃ u w, doc = u ++ sec ++ w :=
  extractScan_infix (mem_extractMonthSections h).1

theorem regenerate_contains {sections : List (Str × Str)} {n v : Str}
    (h : (n, v) ∈ sections) :
    ∃ u w, regenerateOrderedContent sections = u ++ v ++ w := by
  unfold regenerateOrderedContent
  have h2 : (n, v) ∈
      sortBy (fun a b => monthIdx b.1 monthNames ≤ monthIdx a.1 monthNames) sections :=
    mem_sortBy.2 h
  have h3 : v ∈ (sortBy (fun a b => monthIdx b.1 monthNames ≤ monthIdx a.1 monthNames)
      sections).map (fun kv => kv.2) :=
    List.mem_map.2 ⟨(n, v), h2, rfl⟩
  obtain ⟨s, t, hst⟩ := List.append_of_mem h3
  refine ⟨s.flatten, t.flatten, ?_⟩
  rw [hst]
  simp [List.append_assoc]

theorem lookupSec_mem {s : List (Str × Str)} {k v : Str}
    (h : lookupSec s k = some v) : (k, v) ∈ s := by
  induction s with
  | nil => cases h
  | cons kv t ih =>
    simp only [lookupSec] at h
    by_cases hh : kv.1 = k
    · rw [if_pos hh] at h
      injection h with h
      rw [← hh, ← h]
      exact List.mem_cons_self _ _
    · rw [if_neg hh] at h
      exact List.mem_cons_of_mem _ (ih h)

/-- The updated document contains, somewhere, the canonical week heading
followed by the canonical user heading: the shape every insertion branch
produces. -/
def hasWU (v a b : Str) : Prop := ∃ x y z, v = x ++ a ++ y ++ b ++ z

theorem hasWU_left {v a b : Str} (p : Str) (h : hasWU v a b) : hasWU (p ++ v) a b := by
  obtain ⟨x, y, z, rfl⟩ := h
  exact ⟨p ++ x, y, z, by simp [List.append_assoc]⟩

theorem hasWU_mid {v a b : Str} (p s : Str) (h : hasWU v a b) : hasWU (p ++ v ++ s) a b := by
  obtain ⟨x, y, z, rfl⟩ := h
  exact ⟨p ++ x, y, z ++ s, by simp [List.append_assoc]⟩

theorem createUserSection_decomp (N B : Str) :
    createUserSection N B = str "\n" ++ userHeading N ++ str "\n" ++ B ++ str "\n\n" := by
  unfold createUserSection userHeading
  rw [show (str "\n<h3>" : Str) = str "\n" ++ str "<h3>" from rfl,
      show (str "</h3>\n" : Str) = str "</h3>" ++ str "\n" from rfl]
  simp [List.append_assoc]

theorem hasWU_createWeekSection (L N B : Str) :
    hasWU (createWeekSection L N B) (weekHeading L) (userHeading N) := by
  refine ⟨str "\n", str "\n", str "\n" ++ B ++ str "\n\n", ?_⟩
  unfold createWeekSection
  rw [createUserSection_decomp]
  simp [List.append_assoc]

theorem spliceUserSection_hasWU (p0 post L N B : Str) :
    hasWU (spliceUserSection p0 post L N B) (weekHeading L) (userHeading N) := by
  unfold spliceUserSection
  cases hsp3 : splitAtHeadTag ['1', '2', '3'] (afterWeekPart L post) with
  | some cd =>
    refine ⟨p0, cd.1 ++ str "\n", str "\n" ++ B ++ str "\n\n" ++ cd.2, ?_⟩
    rw [createUserSection_decomp]
    simp [List.append_assoc]
  | none =>
    refine ⟨p0, afterWeekPart L post ++ str "\n", str "\n" ++ B ++ str "\n\n", ?_⟩
    rw [createUserSection_decomp]
    simp [List.append_assoc]

theorem insertUserIntoWeek_hasWU {mc L : Str} (N B : Str)
    (h : occursCI (weekHeading L) mc = true) :
    ∃ mc', insertUserIntoWeek mc L N B = some mc' ∧
      hasWU mc' (weekHeading L) (userHeading N) := by
  unfold insertUserIntoWeek
  cases hsp : splitFirstBy chEqCI (weekHeading L) mc with
  | none =>
    exfalso
    unfold occursCI at h
    rw [splitFirstBy_none hsp] at h
    cases h
  | some pq =>
    exact ⟨_, rfl, spliceUserSection_hasWU pq.1 pq.2 L N B⟩

theorem addContent_hasWU {sections : List (Str × Str)} {month L N B : Str}
    (hdoc : ∀ mc, (month, mc) ∈ sections →
      matchesSeq mc (weekHeading L) (userHeading N) = false) :
    ∃ v, addContentToMonthSections sections month L N B = mapSet sections month v ∧
      hasWU v (weekHeading L) (userHeading N) := by
  cases hl : lookupSec sections month with
  | none =>
    have hstep : addContentToMonthSections sections month L N B =
        mapSet sections month (createFullSection month L N B) := by
      unfold addContentToMonthSections
      rw [hl]
    rw [hstep]
    refine ⟨createFullSection month L N B, rfl, ?_⟩
    unfold createFullSection
    exact hasWU_left _ (hasWU_createWeekSection L N B)
  | some mc =>
    have hmem := lookupSec_mem hl
    have hstep : addContentToMonthSections sections month L N B =
        addContentExisting sections month mc L N B := by
      unfold addContentToMonthSections
      rw [hl]
    rw [hstep]
    unfold addContentExisting
    rw [if_neg (by simp [hdoc mc hmem])]
    by_cases hweek : occursCI (weekHeading L) mc = true
    · rw [if_pos hweek]
      obtain ⟨mc', hins, hwu⟩ := insertUserIntoWeek_hasWU N B hweek
      rw [hins]
      exact ⟨mc', rfl, hwu⟩
    · rw [if_neg hweek]
      refine ⟨insertWeekIntoMonth mc L N B, rfl, ?_⟩
      unfold insertWeekIntoMonth
      exact hasWU_mid _ _ (hasWU_createWeekSection L N B)

theorem merge_eq_of_matches {doc : Str} {r : ReportRequest}
    (h : matchesSeq doc (weekHeading r.weekEndingLabel) (userHeading r.displayName) = true) :
    merge doc r = (doc, Outcome.alreadyExists) := by
  unfold merge prepareUpdatedContent
  rw [if_pos h]

theorem merge_eq_of_not_matches {doc : Str} {r : ReportRequest}
    (h : matchesSeq doc (weekHeading r.weekEndingLabel) (userHeading r.displayName) = false) :
    merge doc r =
      (regenerateOrderedContent (addContentToMonthSections (extractMonthSections doc)
        r.month r.weekEndingLabel r.displayName r.body),
       if occursCI (weekHeading r.weekEndingLabel) doc then Outcome.addedUserToWeek
       else if occursCI (monthHeading r.month) doc then Outcome.addedWeekToMonth
       else Outcome.addedNewMonth) := by
  unfold merge prepareUpdatedContent
  rw [if_neg (by simp [h])]

/-- C1: merging the same request twice is a no-op: the second merge
reports AlreadyExists and returns the document of the first merge
byte-for-byte. -/
theorem spec_C1 (doc : Str) (r : ReportRequest) :
    (merge (merge doc r).1 r).2 = Outcome.alreadyExists ∧
    (merge (merge doc r).1 r).1 = (merge doc r).1 := by
  by_cases h : matchesSeq doc (weekHeading r.weekEndingLabel)
      (userHeading r.displayName) = true
  · rw [merge_eq_of_matches h]
    rw [merge_eq_of_matches h]
    exact ⟨rfl, rfl⟩
  · rw [Bool.not_eq_true] at h
    have hdoc : ∀ mc, (r.month, mc) ∈ extractMonthSections doc →
        matchesSeq mc (weekHeading r.weekEndingLabel) (userHeading r.displayName) = false := by
      intro mc hmc
      by_contra hc
      rw [Bool.not_eq_false] at hc
      obtain ⟨u, w, huw⟩ := extractMonthSections_infix hmc
      have h2 := matchesSeq_of_mid u w hc
      rw [← huw] at h2
      rw [h2] at h
      cases h
    obtain ⟨v, hadd, hwu⟩ := addContent_hasWU (B := r.body) hdoc
    rw [merge_eq_of_not_matches h]
    simp only [hadd]
    have hv : (r.month, v) ∈ mapSet (extractMonthSections doc) r.month v :=
      mem_mapSet_self _ _ _
    obtain ⟨u, w, huw⟩ := regenerate_contains hv
    have hU : matchesSeq
        (regenerateOrderedContent (mapSet (extractMonthSections doc) r.month v))
        (weekHeading r.weekEndingLabel) (userHeading r.displayName) = true := by
      rw [huw]
      obtain ⟨x, y, z, hxyz⟩ := hwu
      rw [hxyz]
      refine matchesSeq_iff.2 ⟨u ++ x, y, z ++ w, by simp [List.append_assoc]⟩
    rw [merge_eq_of_matches hU]
    exact ⟨rfl, rfl⟩

/-- The prefix of s before the first week-or-month heading open tag.
Part of the specification-side predicate for the existence check. -/
def beforeNextHeading : Str → Str
  | [] => []
  | c :: cs =>
    if startsWithBy chEqCS (str "<h1>") (c :: cs) ||
       startsWithBy chEqCS (str "<h2>") (c :: cs) then []
    else c :: beforeNextHeading cs

def specHasUserScan (weekH userH : Str) : Str → Bool
  | [] => false
  | c :: cs =>
    (startsWithBy chEqCS weekH (c :: cs) &&
      occursCS userH (beforeNextHeading ((c :: cs).drop weekH.length))) ||
    specHasUserScan weekH userH cs

/-- Modelled from the spec (section 4.1): hasUser is true iff a week
heading for the label is followed, before the next week or month heading,
by a user heading for the display name.  This is the predicate the claim
asserts hasWeekForUser to compute; the source computes something weaker. -/
def specHasUser (content weekLabel name : Str) : Bool :=
  specHasUserScan (weekHeading weekLabel) (userHeading name) content

/-- Counterexample for C2: in a document whose only Alice heading sits
under the later week ending 07/03, the hasWeekForUser regex still reports
Alice as present for the week ending 14/03, because its lazy dot-star
runs across the intervening week heading; the claim requires false
here. -/
theorem spec_C2_cex :
    hasWeekForUser (str "Alice")
      (str "<h2>w/e 14/03</h2><h2>w/e 07/03</h2><h3>Alice</h3>") (str "14/03") = true ∧
    specHasUser (str "<h2>w/e 14/03</h2><h2>w/e 07/03</h2><h3>Alice</h3>")
      (str "14/03") (str "Alice") = false := by
  constructor
  · rfl
  · decide

/-- C2 as amended: hasWeekForUser is true iff a week heading for the
label is followed anywhere later in the document by a user heading for
the display name — intervening week or month headings do not bound the
search. -/
theorem spec_C2 (displayName content weekEndDate : Str) :
    hasWeekForUser displayName content weekEndDate = true ↔
      ∃ x y z, content =
        x ++ weekHeading weekEndDate ++ y ++ userHeading displayName ++ z := by
  unfold hasWeekForUser
  exact matchesSeq_iff

theorem addContent_keeps {sections : List (Str × Str)} {month L N B n sec : Str}
    (hne : n ≠ month) (hmem : (n, sec) ∈ sections) :
    (n, sec) ∈ addContentToMonthSections sections month L N B := by
  cases hl : lookupSec sections month with
  | none =>
    have hstep : addContentToMonthSections sections month L N B =
        mapSet sections month (createFullSection month L N B) := by
      unfold addContentToMonthSections
      rw [hl]
    rw [hstep]
    exact mem_mapSet_of_ne hne hmem
  | some mc =>
    have hstep : addContentToMonthSections sections month L N B =
        addContentExisting sections month mc L N B := by
      unfold addContentToMonthSections
      rw [hl]
    rw [hstep]
    unfold addContentExisting
    by_cases h1 : matchesSeq mc (weekHeading L) (userHeading N) = true
    · rw [if_pos h1]
      exact hmem
    · rw [if_neg h1]
      by_cases h2 : occursCI (weekHeading L) mc = true
      · rw [if_pos h2]
        cases hins : insertUserIntoWeek mc L N B with
        | some mc' => exact mem_mapSet_of_ne hne hmem
        | none => exact hmem
      · rw [if_neg h2]
        exact mem_mapSet_of_ne hne hmem

/-- Counterexample for C3: merging into the document hello — text that
precedes any month heading — produces a fresh March section and drops
hello entirely: it does not appear anywhere in the updated document,
although the outcome is not AlreadyExists. -/
theorem spec_C3_cex :
    (merge (str "hello")
      (ReportRequest.mk (str "March") (str "14/03") (str "Alice") (str "B"))).2 ≠
      Outcome.alreadyExists ∧
    occursCS (str "hello")
      (merge (str "hello")
        (ReportRequest.mk (str "March") (str "14/03") (str "Alice") (str "B"))).1 = false := by
  constructor
  · decide
  · decide

/-- C3 as amended: when the outcome is not AlreadyExists, every extracted
month section of the original document other than the one addressed by
the request appears byte-for-byte (as a contiguous block) in the updated
document; text outside recognized month sections — the preamble before
the first month heading and sections with unrecognized level-1 headings —
is dropped by the full rewrite. -/
theorem spec_C3 (doc : Str) (r : ReportRequest) (n sec : Str)
    (hoc : (merge doc r).2 ≠ Outcome.alreadyExists)
    (hmem : (n, sec) ∈ extractMonthSections doc) (hne : n ≠ r.month) :
    ∃ u w, (merge doc r).1 = u ++ sec ++ w := by
  by_cases h : matchesSeq doc (weekHeading r.weekEndingLabel)
      (userHeading r.displayName) = true
  · rw [merge_eq_of_matches h] at hoc
    exact absurd rfl hoc
  · rw [Bool.not_eq_true] at h
    rw [merge_eq_of_not_matches h]
    exact regenerate_contains (addContent_keeps hne hmem)

/-- Witness for C3: merging a March report into a document holding March
and February sections leaves the February section intact in the result. -/
theorem spec_C3_witness :
    (merge (str "<h1>March</h1>A<h1>February</h1>B")
      (ReportRequest.mk (str "March") (str "14/03") (str "Alice") (str "BODY"))).2 ≠
      Outcome.alreadyExists ∧
    (str "February", str "<h1>February</h1>B") ∈
      extractMonthSections (str "<h1>March</h1>A<h1>February</h1>B") ∧
    (str "February" : Str) ≠ str "March" ∧
    ∃ u w, (merge (str "<h1>March</h1>A<h1>February</h1>B")
      (ReportRequest.mk (str "March") (str "14/03") (str "Alice") (str "BODY"))).1 =
      u ++ str "<h1>February</h1>B" ++ w :=
  ⟨by decide, by decide, by decide,
   spec_C3 (str "<h1>March</h1>A<h1>February</h1>B")
     (ReportRequest.mk (str "March") (str "14/03") (str "Alice") (str "BODY"))
     (str "February") (str "<h1>February</h1>B") (by decide) (by decide) (by decide)⟩

/-! ## The ordering observables for the merge invariant -/

def chainB (rel : α → α → Bool) : List α → Bool
  | [] => true
  | [_] => true
  | a :: b :: t => rel a b && chainB rel (b :: t)

/-- Month sections of the document in strictly descending calendar
order. -/
def monthsDescB (doc : Str) : Bool :=
  chainB (fun a b => decide (monthIdx b monthNames < monthIdx a monthNames))
    ((extractMonthSections doc).map Prod.fst)

/-- Week headings of one month section in strictly descending
week-ending-date order. -/
def weeksDescB (sec : Str) : Bool :=
  chainB (fun a b => keyLt b.1 a.1) (scanWeeks sec)

/-- Counterexample for C4: one merge from the empty document whose body
carries a December heading yields a document whose extracted month
sections are March then December — ascending, not descending, calendar
order. -/
theorem spec_C4_cex :
    (extractMonthSections (mergeSeq (str "")
      [ReportRequest.mk (str "March") (str "14/03") (str "Alice")
        (str "<h1>December</h1>")])).map Prod.fst = [str "March", str "December"] ∧
    monthsDescB (mergeSeq (str "")
      [ReportRequest.mk (str "March") (str "14/03") (str "Alice")
        (str "<h1>December</h1>")]) = false := by
  constructor
  · decide
  · decide

/-! ## Toolkit for the ordering-invariant proof -/

theorem chEqCI_symm {a b : Char} (h : chEqCI a b = true) : chEqCI b a = true := by
  unfold chEqCI at h ⊢
  rw [beq_iff_eq] at h
  rw [h]
  exact beq_self_eq_true _

theorem chEqCI_refl (a : Char) : chEqCI a a = true := by
  unfold chEqCI
  exact beq_self_eq_true _

theorem chEqCS_to_CI {a b : Char} (h : chEqCS a b = true) : chEqCI a b = true := by
  unfold chEqCS at h
  rw [beq_iff_eq] at h
  rw [h]
  exact chEqCI_refl b

theorem isDigit_toNat {c : Char} (h : c.isDigit = true) :
    48 ≤ c.toNat ∧ c.toNat ≤ 57 := by
  simp only [Char.isDigit, Bool.and_eq_true, decide_eq_true_eq] at h
  obtain ⟨h1, h2⟩ := h
  have h1' : (48 : UInt32).toBitVec.toNat ≤ c.val.toBitVec.toNat :=
    BitVec.le_def.1 (UInt32.le_def.1 h1)
  have h2' : c.val.toBitVec.toNat ≤ (57 : UInt32).toBitVec.toNat :=
    BitVec.le_def.1 (UInt32.le_def.1 h2)
  exact ⟨h1', h2'⟩

theorem toNat_eq_of_eq {c d : Char} (h : c = d) : c.toNat = d.toNat := by rw [h]

theorem char_ne_of_toNat_ne {c d : Char} (h : c.toNat ≠ d.toNat) : c ≠ d :=
  fun he => h (toNat_eq_of_eq he)

theorem digit_toLower {c : Char} (h : c.isDigit = true) : c.toLower = c := by
  have hb := isDigit_toNat h
  unfold Char.toLower
  rw [if_neg (by omega)]

/-- A concrete character whose lower case is not a digit is never
case-insensitively equal to a digit. -/
theorem chEqCI_digit_false {c : Char} (p : Char) (h : c.isDigit = true)
    (hp : p.toLower.isDigit = false) : chEqCI p c = false := by
  unfold chEqCI
  rw [digit_toLower h]
  by_contra hb
  rw [Bool.not_eq_false, beq_iff_eq] at hb
  rw [hb, h] at hp
  cases hp

theorem digit_ne_lt {c : Char} (h : c.isDigit = true) : c ≠ '<' := by
  have hb := isDigit_toNat h
  apply char_ne_of_toNat_ne
  have : Char.toNat '<' = 60 := rfl
  omega

theorem chEqCI_digits {a b : Char} (ha : a.isDigit = true) (hb : b.isDigit = true)
    (h : chEqCI a b = true) : a = b := by
  unfold chEqCI at h
  rw [digit_toLower ha, digit_toLower hb, beq_iff_eq] at h
  exact h

/-- A fragment p is match-free for a position test when the test fails at
every position strictly inside p of the string p followed by rest (the
start of rest itself is not constrained). -/
def NoMatchAt (test : Str → Bool) (p rest : Str) : Prop :=
  ∀ u v, p = u ++ v → v ≠ [] → test (v ++ rest) = false

theorem noMatchAt_nil {test : Str → Bool} {rest : Str} : NoMatchAt test [] rest := by
  intro u v huv hvne
  cases u with
  | nil => exact absurd huv.symm hvne
  | cons a as => cases huv

theorem noMatchAt_cons {test : Str → Bool} {c : Char} {w rest : Str}
    (hc : test (c :: (w ++ rest)) = false) (hw : NoMatchAt test w rest) :
    NoMatchAt test (c :: w) rest := by
  intro u v huv hvne
  cases u with
  | nil =>
    simp only [List.nil_append] at huv
    subst huv
    simpa using hc
  | cons a as =>
    simp only [List.cons_append, List.cons.injEq] at huv
    exact hw as v huv.2 hvne

theorem noMatchAt_append {test : Str → Bool} {p q rest : Str}
    (h1 : NoMatchAt test p (q ++ rest)) (h2 : NoMatchAt test q rest) :
    NoMatchAt test (p ++ q) rest := by
  intro u v huv hvne
  rw [List.append_eq_append_iff] at huv
  rcases huv with ⟨a, ha, hq⟩ | ⟨c, hp, hv⟩
  · exact h2 a v hq hvne
  · cases c with
    | nil =>
      simp only [List.nil_append] at hv
      exact h2 [] v (by simp [hv]) hvne
    | cons c0 cs =>
      have := h1 u (c0 :: cs) hp (by simp)
      rw [hv]
      simpa using this

theorem occursBy_of_startsWith {eq : Char → Char → Bool} {pat s : Str}
    (h : startsWithBy eq pat s = true) : occursBy eq pat s = true := by
  cases s with
  | nil => simpa [occursBy] using h
  | cons c cs => simp [occursBy, h]

theorem occursBy_append_right {eq : Char → Char → Bool} {pat : Str} (u : Str) {v : Str}
    (h : occursBy eq pat v = true) : occursBy eq pat (u ++ v) = true := by
  induction u with
  | nil => simpa
  | cons c cs ih => simp [occursBy, ih]

theorem occursBy_append_left {eq : Char → Char → Bool} {pat : Str} {u : Str} (v : Str)
    (h : occursBy eq pat u = true) : occursBy eq pat (u ++ v) = true := by
  rw [occursBy_iff] at h ⊢
  obtain ⟨x, m, y, rfl, hm⟩ := h
  exact ⟨x, m, y ++ v, by simp, hm⟩

/-- A fragment is clean when neither an h1 nor an h2 open tag occurs in it,
case-insensitively.  All heading patterns of the merge engine must match
one of these two three-character prefixes at a match position, except the
h3 case of the user-section splice, which is treated separately. -/
def cleanFrag (s : Str) : Bool :=
  !(occursCI (str "<h1") s || occursCI (str "<h2") s)

/-- The continuation after a fragment starts with an open angle bracket or
a newline (or is empty): enough to rule out heading matches straddling the
boundary. -/
def headOk : Str → Bool
  | [] => true
  | c :: _ => c == '<' || c == '\n'

theorem startsWith_headOk_false {p0 : Char} {ps rest : Str} (hrest : headOk rest = true)
    (hlt : chEqCI p0 '<' = false) (hnl : chEqCI p0 '\n' = false) :
    startsWithBy chEqCI (p0 :: ps) rest = false := by
  cases rest with
  | nil => rfl
  | cons c cs =>
    unfold headOk at hrest
    rw [Bool.or_eq_true] at hrest
    simp only [startsWithBy]
    rcases hrest with h | h
    · rw [beq_iff_eq] at h
      subst h
      rw [hlt]
      rfl
    · rw [beq_iff_eq] at h
      subst h
      rw [hnl]
      rfl

theorem noMatch3_clean {v u p rest : Str} {a b c : Char}
    (hocc : occursCI [a, b, c] p = false)
    (hr1 : startsWithBy chEqCI [b, c] rest = false)
    (hr2 : startsWithBy chEqCI [c] rest = false)
    (huv : p = u ++ v) (hvne : v ≠ [])
    (hsw : startsWithBy chEqCI [a, b, c] (v ++ rest) = true) : False := by
  rcases v with _ | ⟨x, _ | ⟨y, _ | ⟨z, t⟩⟩⟩
  · exact hvne rfl
  · simp only [List.cons_append, List.nil_append, startsWithBy, Bool.and_eq_true] at hsw
    have hb : startsWithBy chEqCI [b, c] rest = true := by simpa using hsw.2
    rw [hb] at hr1
    cases hr1
  · simp only [List.cons_append, List.nil_append, startsWithBy, Bool.and_eq_true] at hsw
    have hb : startsWithBy chEqCI [c] rest = true := by simpa using hsw.2.2
    rw [hb] at hr2
    cases hr2
  · simp only [List.cons_append, startsWithBy, Bool.and_eq_true] at hsw
    have hv : startsWithBy chEqCI [a, b, c] (x :: y :: z :: t) = true := by
      simp [startsWithBy, hsw.1, hsw.2.1, hsw.2.2.1]
    have : occursCI [a, b, c] p = true := by
      rw [huv]
      exact occursBy_append_right u (occursBy_of_startsWith hv)
    rw [this] at hocc
    cases hocc

/-- Master straddle lemma: any position test that can only fire where a
case-insensitive h1 or h2 open tag starts never fires inside a clean
fragment whose continuation starts with an angle bracket or newline. -/
theorem noMatchAt_clean {test : Str → Bool} {p rest : Str}
    (hhead3 : ∀ x, test x = true →
      startsWithBy chEqCI (str "<h1") x = true ∨ startsWithBy chEqCI (str "<h2") x = true)
    (hclean : cleanFrag p = true) (hrest : headOk rest = true) :
    NoMatchAt test p rest := by
  intro u v huv hvne
  by_contra hbt
  rw [Bool.not_eq_false] at hbt
  have hcl : occursCI (str "<h1") p = false ∧ occursCI (str "<h2") p = false := by
    unfold cleanFrag at hclean
    rw [Bool.not_eq_eq_eq_not, Bool.not_true, Bool.or_eq_false_iff] at hclean
    exact hclean
  rcases hhead3 _ hbt with hsw | hsw
  · exact noMatch3_clean hcl.1
      (startsWith_headOk_false hrest (by decide) (by decide))
      (startsWith_headOk_false hrest (by decide) (by decide)) huv hvne hsw
  · exact noMatch3_clean hcl.2
      (startsWith_headOk_false hrest (by decide) (by decide))
      (startsWith_headOk_false hrest (by decide) (by decide)) huv hvne hsw

theorem startsWithBy_patInit {eq : Char → Char → Bool} {x y s : Str}
    (h : startsWithBy eq (x ++ y) s = true) : startsWithBy eq x s = true := by
  induction x generalizing s with
  | nil => rfl
  | cons a as ih =>
    cases s with
    | nil => simp [startsWithBy] at h
    | cons c cs =>
      simp only [List.cons_append, startsWithBy, Bool.and_eq_true] at h ⊢
      exact ⟨h.1, ih h.2⟩

theorem startsWithBy_weakenEq {eq1 eq2 : Char → Char → Bool}
    (hw : ∀ a b, eq1 a b = true → eq2 a b = true) :
    ∀ {p s : Str}, startsWithBy eq1 p s = true → startsWithBy eq2 p s = true := by
  intro p
  induction p with
  | nil => intro s _; rfl
  | cons a as ih =>
    intro s h
    cases s with
    | nil => simp [startsWithBy] at h
    | cons c cs =>
      simp only [startsWithBy, Bool.and_eq_true] at h ⊢
      exact ⟨hw _ _ h.1, ih h.2⟩

theorem startsWithBy_append_pat {eq : Char → Char → Bool} {x y s : Str}
    (h : startsWithBy eq (x ++ y) s = true) :
    eqSB eq x (s.take x.length) = true ∧ startsWithBy eq y (s.drop x.length) = true := by
  induction x generalizing s with
  | nil => simpa [eqSB] using h
  | cons a as ih =>
    cases s with
    | nil => simp [startsWithBy] at h
    | cons c cs =>
      simp only [List.cons_append, startsWithBy, Bool.and_eq_true] at h
      have := ih h.2
      simp only [List.length_cons, List.take_succ_cons, List.drop_succ_cons, eqSB,
        Bool.and_eq_true]
      exact ⟨⟨h.1, this.1⟩, this.2⟩

theorem startsWithBy_append_left {eq : Char → Char → Bool} {pat : Str} :
    ∀ {a : Str} (b : Str), startsWithBy eq pat (a ++ b) = true →
      pat.length ≤ a.length → startsWithBy eq pat a = true := by
  induction pat with
  | nil => intro a b _ _; rfl
  | cons p ps ih =>
    intro a b h hlen
    cases a with
    | nil => simp at hlen
    | cons c cs =>
      simp only [List.cons_append, startsWithBy, Bool.and_eq_true] at h ⊢
      simp only [List.length_cons, Nat.succ_le_succ_iff] at hlen
      exact ⟨h.1, ih b h.2 hlen⟩

/-- A match in a concatenation lies in the left part, in the right part,
or straddles the boundary: it starts at a position of the left part whose
remaining suffix is shorter than the pattern. -/
theorem occursBy_append_cases {eq : Char → Char → Bool} {pat a b : Str}
    (h : occursBy eq pat (a ++ b) = true) :
    occursBy eq pat a = true ∨ occursBy eq pat b = true ∨
      ∃ u v, a = u ++ v ∧ v ≠ [] ∧ v.length < pat.length ∧
        startsWithBy eq pat (v ++ b) = true := by
  induction a with
  | nil => exact Or.inr (Or.inl (by simpa using h))
  | cons c cs ih =>
    simp only [List.cons_append, occursBy, Bool.or_eq_true] at h
    rcases h with h | h
    · by_cases hlen : pat.length ≤ (c :: cs).length
      · exact Or.inl (occursBy_of_startsWith
          (startsWithBy_append_left b (by simpa using h) hlen))
      · refine Or.inr (Or.inr ⟨[], c :: cs, rfl, by simp, by omega, by simpa using h⟩)
    · rcases ih h with h1 | h1 | ⟨u, v, huv, hvne, hvlen, hsw⟩
      · exact Or.inl (by simp [occursBy, h1])
      · exact Or.inr (Or.inl h1)
      · exact Or.inr (Or.inr ⟨c :: u, v, by simp [huv], hvne, hvlen, hsw⟩)

theorem occursBy_mid {eq : Char → Char → Bool} {pat m : Str} (u v : Str)
    (h : occursBy eq pat m = true) : occursBy eq pat (u ++ m ++ v) = true := by
  rw [List.append_assoc]
  exact occursBy_append_right u (occursBy_append_left v h)

theorem occursCI_mid {pat m : Str} (u v : Str)
    (h : occursCI pat m = true) : occursCI pat (u ++ m ++ v) = true := by
  unfold occursCI at h ⊢
  exact occursBy_mid u v h

theorem cleanFrag_iff {s : Str} : cleanFrag s = true ↔
    occursCI (str "<h1") s = false ∧ occursCI (str "<h2") s = false := by
  unfold cleanFrag
  rw [Bool.not_eq_eq_eq_not, Bool.not_true, Bool.or_eq_false_iff]

theorem cleanFrag_mid {s u v : Str} (h : cleanFrag (u ++ s ++ v) = true) :
    cleanFrag s = true := by
  rw [cleanFrag_iff] at h ⊢
  constructor
  · by_contra hb
    rw [Bool.not_eq_false] at hb
    rw [occursCI_mid u v hb] at h
    exact absurd h.1 (by simp)
  · by_contra hb
    rw [Bool.not_eq_false] at hb
    rw [occursCI_mid u v hb] at h
    exact absurd h.2 (by simp)

theorem cleanFrag_left {s v : Str} (h : cleanFrag (s ++ v) = true) : cleanFrag s = true :=
  cleanFrag_mid (u := []) (by simpa using h)

theorem cleanFrag_right {s u : Str} (h : cleanFrag (u ++ s) = true) : cleanFrag s = true :=
  cleanFrag_mid (v := []) (by simpa using h)

/-- Appending clean fragments stays clean provided no pattern straddles the
boundary; the straddle obligations are the two- and one-character suffixes
of the left part against the head of the right part. -/
theorem cleanFrag_append {a b : Str} (ha : cleanFrag a = true) (hb : cleanFrag b = true)
    (hstrad : ∀ u v, a = u ++ v → v ≠ [] → v.length < 3 →
      startsWithBy chEqCI (str "<h1") (v ++ b) = false ∧
      startsWithBy chEqCI (str "<h2") (v ++ b) = false) :
    cleanFrag (a ++ b) = true := by
  rw [cleanFrag_iff] at ha hb ⊢
  constructor
  · by_contra hocc
    rw [Bool.not_eq_false] at hocc
    rcases occursBy_append_cases hocc with h1 | h1 | ⟨u, v, huv, hvne, hvlen, hsw⟩
    · exact absurd h1 (by simpa [occursCI] using ha.1)
    · exact absurd h1 (by simpa [occursCI] using hb.1)
    · rw [(hstrad u v huv hvne (by simpa using hvlen)).1] at hsw
      cases hsw
  · by_contra hocc
    rw [Bool.not_eq_false] at hocc
    rcases occursBy_append_cases hocc with h1 | h1 | ⟨u, v, huv, hvne, hvlen, hsw⟩
    · exact absurd h1 (by simpa [occursCI] using ha.2)
    · exact absurd h1 (by simpa [occursCI] using hb.2)
    · rw [(hstrad u v huv hvne (by simpa using hvlen)).2] at hsw
      cases hsw

/-- Boundary-safe append: the right part starts with an angle bracket or a
newline (or ends the string), so no heading pattern straddles. -/
theorem cleanFrag_append_headOk {a b : Str} (ha : cleanFrag a = true)
    (hb : cleanFrag b = true) (hok : headOk b = true) : cleanFrag (a ++ b) = true := by
  refine cleanFrag_append ha hb ?_
  intro u v huv hvne hvlen
  rcases v with _ | ⟨x, _ | ⟨y, _ | ⟨z, t⟩⟩⟩
  · exact absurd rfl hvne
  · constructor
    · cases hsw : startsWithBy chEqCI (str "<h1") ([x] ++ b) with
      | false => rfl
      | true =>
        simp only [List.cons_append, List.nil_append, startsWithBy, Bool.and_eq_true] at hsw
        have : startsWithBy chEqCI ['h', '1'] b = true := by simpa using hsw.2
        rw [startsWith_headOk_false hok (by decide) (by decide)] at this
        cases this
    · cases hsw : startsWithBy chEqCI (str "<h2") ([x] ++ b) with
      | false => rfl
      | true =>
        simp only [List.cons_append, List.nil_append, startsWithBy, Bool.and_eq_true] at hsw
        have : startsWithBy chEqCI ['h', '2'] b = true := by simpa using hsw.2
        rw [startsWith_headOk_false hok (by decide) (by decide)] at this
        cases this
  · constructor
    · cases hsw : startsWithBy chEqCI (str "<h1") ([x, y] ++ b) with
      | false => rfl
      | true =>
        simp only [List.cons_append, List.nil_append, startsWithBy, Bool.and_eq_true] at hsw
        have : startsWithBy chEqCI ['1'] b = true := by simpa using hsw.2.2
        rw [startsWith_headOk_false hok (by decide) (by decide)] at this
        cases this
    · cases hsw : startsWithBy chEqCI (str "<h2") ([x, y] ++ b) with
      | false => rfl
      | true =>
        simp only [List.cons_append, List.nil_append, startsWithBy, Bool.and_eq_true] at hsw
        have : startsWithBy chEqCI ['2'] b = true := by simpa using hsw.2.2
        rw [startsWith_headOk_false hok (by decide) (by decide)] at this
        cases this
  · simp only [List.length_cons] at hvlen
    omega

theorem suffix_determined {a u v : Str} (h : a = u ++ v) :
    v = a.drop (a.length - v.length) := by
  subst h
  rw [List.length_append]
  have : u.length + v.length - v.length = u.length := by omega
  rw [this, List.drop_left]

/-- Boundary-safe append on the left side: the left part ends in two
newlines, on which no heading pattern can start. -/
theorem cleanFrag_append_tailNl {a0 a b : Str} (hae : a = a0 ++ str "\n\n")
    (ha : cleanFrag a = true) (hb : cleanFrag b = true) : cleanFrag (a ++ b) = true := by
  refine cleanFrag_append ha hb ?_
  intro u v huv hvne hvlen
  have hv := suffix_determined huv
  rw [hae, List.length_append] at hv
  have hlen : v.length = 1 ∨ v.length = 2 := by
    cases v with
    | nil => exact absurd rfl hvne
    | cons x t =>
      simp only [List.length_cons] at hvlen ⊢
      omega
  have hv2 : (str "\n\n" : Str).length = 2 := rfl
  rcases hlen with h1 | h1
  · have : v = (a0 ++ str "\n\n").drop (a0.length + 1) := by
      rw [hv, h1, hv2]
      have : a0.length + 2 - 1 = a0.length + 1 := by omega
      rw [this]
    have hvval : v = ['\n'] := by
      rw [this]
      have : a0.length + 1 = a0.length + 1 := rfl
      rw [List.drop_append_eq_append_drop]
      rw [List.drop_eq_nil_of_le (by omega)]
      rw [show List.length a0 + 1 - List.length a0 = 1 from by omega]
      rfl
    rw [hvval]
    constructor
    · rfl
    · rfl
  · have hvval : v = ['\n', '\n'] := by
      rw [hv, h1, hv2]
      have : a0.length + 2 - 2 = a0.length := by omega
      rw [this, List.drop_left]
      rfl
    rw [hvval]
    constructor
    · rfl
    · rfl

/-- Base straddle lemma for fragments without any character that could
open a tag: a test that can only fire on an open-angle-bracket head never
fires inside such a fragment. -/
theorem noMatchAt_of_heads {test : Str → Bool} {p rest : Str}
    (hhead : ∀ c t, test (c :: t) = true → chEqCI '<' c = true)
    (hp : ∀ c ∈ p, chEqCI '<' c = false) : NoMatchAt test p rest := by
  intro u v huv hvne
  cases v with
  | nil => exact absurd rfl hvne
  | cons d vs =>
    by_contra hbt
    rw [Bool.not_eq_false] at hbt
    have hd := hhead _ _ hbt
    have hmem : d ∈ p := by
      rw [huv]
      exact List.mem_append.2 (Or.inr (List.mem_cons_self _ _))
    rw [hp d hmem] at hd
    cases hd

/-! ### Scanner skip lemmas over match-free fragments -/

theorem splitFirstBy_cons_neg {eq : Char → Char → Bool} {pat : Str} {c : Char} {cs : Str}
    (hc : startsWithBy eq pat (c :: cs) = false) :
    splitFirstBy eq pat (c :: cs) = (splitFirstBy eq pat cs).map fun pq => (c :: pq.1, pq.2) := by
  simp only [splitFirstBy]
  rw [if_neg (by simp [hc])]

theorem breakOnCS_cons_neg {pat : Str} {c : Char} {cs : Str}
    (hc : startsWithBy chEqCS pat (c :: cs) = false) :
    breakOnCS pat (c :: cs) = (c :: (breakOnCS pat cs).1, (breakOnCS pat cs).2) := by
  simp only [breakOnCS]
  rw [if_neg (by simp [hc])]

theorem splitAtHeadTag_cons_neg {ds : List Char} {c : Char} {cs : Str}
    (hc : headTagAt ds (c :: cs) = false) :
    splitAtHeadTag ds (c :: cs) = (splitAtHeadTag ds cs).map fun pq => (c :: pq.1, pq.2) := by
  simp only [splitAtHeadTag]
  rw [if_neg (by simp [hc])]

theorem extractScan_cons_none {c : Char} {cs : Str}
    (hc : monthHeadAt (c :: cs) = none) : extractScan (c :: cs) = extractScan cs := by
  simp only [extractScan, hc]

theorem scanWeeksFrom_cons_none {c : Char} {cs : Str} {i : Nat}
    (hc : weekAtP (c :: cs) = none) : scanWeeksFrom i (c :: cs) = scanWeeksFrom (i + 1) cs := by
  simp only [scanWeeksFrom, hc]

theorem splitFirstBy_skip {eq : Char → Char → Bool} {pat p rest : Str}
    (h : NoMatchAt (startsWithBy eq pat) p rest) :
    splitFirstBy eq pat (p ++ rest) =
      (splitFirstBy eq pat rest).map fun pq => (p ++ pq.1, pq.2) := by
  induction p with
  | nil =>
    simp only [List.nil_append]
    cases hsp : splitFirstBy eq pat rest with
    | none => rfl
    | some pq => rfl
  | cons c cs ih =>
    have hc : startsWithBy eq pat ((c :: cs) ++ rest) = false :=
      h [] (c :: cs) rfl (by simp)
    rw [List.cons_append] at hc ⊢
    rw [splitFirstBy_cons_neg hc]
    rw [ih (fun u v huv hvne => h (c :: u) v (by rw [huv]; rfl) hvne)]
    cases hsp : splitFirstBy eq pat rest with
    | none => rfl
    | some pq => rfl

theorem breakOnCS_skip {pat p rest : Str}
    (h : NoMatchAt (startsWithBy chEqCS pat) p rest) :
    breakOnCS pat (p ++ rest) = (p ++ (breakOnCS pat rest).1, (breakOnCS pat rest).2) := by
  induction p with
  | nil => simp
  | cons c cs ih =>
    have hc : startsWithBy chEqCS pat ((c :: cs) ++ rest) = false :=
      h [] (c :: cs) rfl (by simp)
    rw [List.cons_append] at hc ⊢
    rw [breakOnCS_cons_neg hc]
    rw [ih (fun u v huv hvne => h (c :: u) v (by rw [huv]; rfl) hvne)]
    rfl

theorem splitAtHeadTag_skip {ds : List Char} {p rest : Str}
    (h : NoMatchAt (headTagAt ds) p rest) :
    splitAtHeadTag ds (p ++ rest) =
      (splitAtHeadTag ds rest).map fun pq => (p ++ pq.1, pq.2) := by
  induction p with
  | nil =>
    cases hsp : splitAtHeadTag ds rest with
    | none => simp [hsp]
    | some pq => simp [hsp]
  | cons c cs ih =>
    have hc : headTagAt ds ((c :: cs) ++ rest) = false :=
      h [] (c :: cs) rfl (by simp)
    rw [List.cons_append] at hc ⊢
    rw [splitAtHeadTag_cons_neg hc]
    rw [ih (fun u v huv hvne => h (c :: u) v (by rw [huv]; rfl) hvne)]
    cases hsp : splitAtHeadTag ds rest with
    | none => rfl
    | some pq => rfl

theorem splitAtHeadTag_none_of_noMatch {ds : List Char} {p : Str}
    (h : NoMatchAt (headTagAt ds) p []) : splitAtHeadTag ds p = none := by
  have := splitAtHeadTag_skip h
  simpa [splitAtHeadTag] using this

theorem extractScan_skip {p rest : Str}
    (h : NoMatchAt (fun s => (monthHeadAt s).isSome) p rest) :
    extractScan (p ++ rest) = extractScan rest := by
  induction p with
  | nil => rfl
  | cons c cs ih =>
    have hc : (monthHeadAt ((c :: cs) ++ rest)).isSome = false :=
      h [] (c :: cs) rfl (by simp)
    rw [List.cons_append] at hc
    have hnone : monthHeadAt (c :: (cs ++ rest)) = none :=
      Option.not_isSome_iff_eq_none.1 (by simp [hc])
    rw [List.cons_append]
    rw [extractScan_cons_none hnone]
    exact ih (fun u v huv hvne => h (c :: u) v (by rw [huv]; rfl) hvne)

theorem scanWeeksFrom_skip {p rest : Str}
    (h : NoMatchAt (fun s => (weekAtP s).isSome) p rest) :
    ∀ i, scanWeeksFrom i (p ++ rest) = scanWeeksFrom (i + p.length) rest := by
  induction p with
  | nil => intro i; simp
  | cons c cs ih =>
    intro i
    have hc : (weekAtP ((c :: cs) ++ rest)).isSome = false :=
      h [] (c :: cs) rfl (by simp)
    rw [List.cons_append] at hc
    have hnone : weekAtP (c :: (cs ++ rest)) = none :=
      Option.not_isSome_iff_eq_none.1 (by simp [hc])
    rw [List.cons_append]
    rw [scanWeeksFrom_cons_none hnone]
    rw [ih (fun u v huv hvne => h (c :: u) v (by rw [huv]; rfl) hvne) (i + 1)]
    congr 1
    simp only [List.length_cons]
    omega

/-! ### Head and prefix facts for the four scanner tests -/

theorem weekAtP_some {s : Str} {k : Nat × Nat} (h : weekAtP s = some k) :
    ∃ d1 d2 m1 m2 t, s = str "<h2>w/e " ++ ([d1, d2, '/', m1, m2] ++ (str "</h2>" ++ t)) ∧
      d1.isDigit = true ∧ d2.isDigit = true ∧ m1.isDigit = true ∧ m2.isDigit = true ∧
      k = (10 * digitVal m1 + digitVal m2, 10 * digitVal d1 + digitVal d2) := by
  unfold weekAtP at h
  split at h
  next a b c d e f g h8 d1 d2 sl m1 m2 c1 c2 c3 c4 c5 t =>
    split at h
    next hcond =>
      obtain ⟨h1, h2, h3, h4⟩ := hcond
      refine ⟨d1, d2, m1, m2, t, ?_, h4.1, h4.2.1, h4.2.2.1, h4.2.2.2, (Option.some.inj h).symm⟩
      simp only [str] at h1 h3
      injection h1 with e1 h1; injection h1 with e2 h1; injection h1 with e3 h1
      injection h1 with e4 h1; injection h1 with e5 h1; injection h1 with e6 h1
      injection h1 with e7 h1; injection h1 with e8 h1
      injection h3 with f1 h3; injection h3 with f2 h3; injection h3 with f3 h3
      injection h3 with f4 h3; injection h3 with f5 h3
      subst e1 e2 e3 e4 e5 e6 e7 e8 f1 f2 f3 f4 f5 h2
      rfl
    next => cases h
  next => cases h

theorem weekAtP_isSome {s : Str} (h : (weekAtP s).isSome = true) :
    ∃ d1 d2 m1 m2 t, s = str "<h2>w/e " ++ ([d1, d2, '/', m1, m2] ++ (str "</h2>" ++ t)) ∧
      d1.isDigit = true ∧ d2.isDigit = true ∧ m1.isDigit = true ∧ m2.isDigit = true := by
  rw [Option.isSome_iff_exists] at h
  obtain ⟨k, hk⟩ := h
  obtain ⟨d1, d2, m1, m2, t, hs, hd1, hd2, hm1, hm2, _⟩ := weekAtP_some hk
  exact ⟨d1, d2, m1, m2, t, hs, hd1, hd2, hm1, hm2⟩

theorem weekAtB_head : ∀ c t, (weekAtP (c :: t)).isSome = true → chEqCI '<' c = true := by
  intro c t h
  obtain ⟨d1, d2, m1, m2, r, hs, _⟩ := weekAtP_isSome h
  have hc : c = '<' := by
    have h2 : c :: t = '<' :: (str "h2>w/e " ++ ([d1, d2, '/', m1, m2] ++ (str "</h2>" ++ r))) := hs
    exact (List.cons.inj h2).1
  rw [hc]
  exact chEqCI_refl '<'

theorem weekAtB_h3 : ∀ x, (weekAtP x).isSome = true →
    startsWithBy chEqCI (str "<h1") x = true ∨ startsWithBy chEqCI (str "<h2") x = true := by
  intro x h
  obtain ⟨d1, d2, m1, m2, r, hs, _⟩ := weekAtP_isSome h
  right
  rw [hs]
  rfl

theorem monthHeadB_starts {s : Str} (h : (monthHeadAt s).isSome = true) :
    startsWithBy chEqCS (str "<h1>") s = true := by
  cases hsw : startsWithBy chEqCS (str "<h1>") s with
  | true => rfl
  | false =>
    unfold monthHeadAt at h
    rw [hsw] at h
    simp at h

theorem monthHeadB_head : ∀ c t, (monthHeadAt (c :: t)).isSome = true → chEqCI '<' c = true := by
  intro c t h
  have hsw := monthHeadB_starts h
  have e : (str "<h1>" : Str) = '<' :: ['h', '1', '>'] := rfl
  rw [e] at hsw
  simp only [startsWithBy, Bool.and_eq_true] at hsw
  have : c = '<' := by
    have := hsw.1
    unfold chEqCS at this
    rw [beq_iff_eq] at this
    rw [this]
  rw [this]
  exact chEqCI_refl '<'

theorem monthHeadB_h3 : ∀ x, (monthHeadAt x).isSome = true →
    startsWithBy chEqCI (str "<h1") x = true ∨ startsWithBy chEqCI (str "<h2") x = true := by
  intro x h
  left
  have hsw := monthHeadB_starts h
  have e : (str "<h1>" : Str) = str "<h1" ++ ['>'] := rfl
  rw [e] at hsw
  exact startsWithBy_weakenEq (fun a b => chEqCS_to_CI) (startsWithBy_patInit hsw)

theorem whStartB_head (L : Str) : ∀ c t,
    startsWithBy chEqCI (weekHeading L) (c :: t) = true → chEqCI '<' c = true := by
  intro c t h
  have e : weekHeading L = '<' :: (['h', '2', '>', 'w', '/', 'e', ' '] ++ (L ++ str "</h2>")) := rfl
  rw [e] at h
  simp only [startsWithBy, Bool.and_eq_true] at h
  exact h.1

theorem whStartB_h3 (L : Str) : ∀ x, startsWithBy chEqCI (weekHeading L) x = true →
    startsWithBy chEqCI (str "<h1") x = true ∨ startsWithBy chEqCI (str "<h2") x = true := by
  intro x h
  right
  have e : weekHeading L = str "<h2" ++ ((['>', 'w', '/', 'e', ' '] ++ L) ++ str "</h2>") := by
    unfold weekHeading
    simp [str]
  rw [e] at h
  exact startsWithBy_patInit h

theorem headTagAt_shape {ds : List Char} {s : Str} (h : headTagAt ds s = true) :
    ∃ a b c r, s = a :: b :: c :: r ∧ a = '<' ∧ chEqCI b 'h' = true ∧
      c ∈ ds ∧ r.contains '>' = true := by
  unfold headTagAt at h
  split at h
  next a b c r =>
    simp only [Bool.and_eq_true, beq_iff_eq] at h
    exact ⟨a, b, c, r, rfl, h.1.1.1, h.1.1.2, by simpa using h.1.2, h.2⟩
  next => cases h

theorem headTagB_head (ds : List Char) : ∀ c t, headTagAt ds (c :: t) = true →
    chEqCI '<' c = true := by
  intro c t h
  obtain ⟨a, b, c', r, hs, ha, _⟩ := headTagAt_shape h
  have : c = a := (List.cons.inj hs).1
  rw [this, ha]
  exact chEqCI_refl '<'

theorem headTag12_h3 : ∀ x, headTagAt ['1', '2'] x = true →
    startsWithBy chEqCI (str "<h1") x = true ∨ startsWithBy chEqCI (str "<h2") x = true := by
  intro x h
  obtain ⟨a, b, c, r, hs, ha, hb, hc, _⟩ := headTagAt_shape h
  have hbh := chEqCI_symm hb
  rcases (by simpa using hc : c = '1' ∨ c = '2') with rfl | rfl
  · left
    rw [hs, ha]
    have e : (str "<h1" : Str) = ['<', 'h', '1'] := rfl
    rw [e]
    simp [startsWithBy, hbh, chEqCI_refl]
  · right
    rw [hs, ha]
    have e : (str "<h2" : Str) = ['<', 'h', '2'] := rfl
    rw [e]
    simp [startsWithBy, hbh, chEqCI_refl]

theorem h1OpenB_head : ∀ c t, startsWithBy chEqCS (str "<h1>") (c :: t) = true →
    chEqCI '<' c = true := by
  intro c t h
  have e : (str "<h1>" : Str) = '<' :: ['h', '1', '>'] := rfl
  rw [e] at h
  simp only [startsWithBy, Bool.and_eq_true] at h
  have : c = '<' := by
    have := h.1
    unfold chEqCS at this
    rw [beq_iff_eq] at this
    rw [this]
  rw [this]
  exact chEqCI_refl '<'

theorem h1OpenB_h3 : ∀ x, startsWithBy chEqCS (str "<h1>") x = true →
    startsWithBy chEqCI (str "<h1") x = true ∨ startsWithBy chEqCI (str "<h2") x = true := by
  intro x h
  left
  have e : (str "<h1>" : Str) = str "<h1" ++ ['>'] := rfl
  rw [e] at h
  exact startsWithBy_weakenEq (fun a b => chEqCS_to_CI) (startsWithBy_patInit h)

/-! ## Structural model of a well-formed document

A document produced by the merge engine is a list of month sections; each
month section is an h1 heading, a clean preamble and a nonempty list of
week blocks; each week block is a canonical week heading for a two-digit
DD/MM label followed by a clean chunk (the user sections of that week).
The render functions map this structure back to the flat text the engine
actually manipulates. -/

structure WeekB where
  label : Str
  chunk : Str
deriving DecidableEq, Repr

structure MonthB where
  name : Str
  pre : Str
  weeks : List WeekB
deriving DecidableEq, Repr

structure DocB where
  lead : Str
  months : List MonthB
deriving DecidableEq, Repr

def renderWeek (w : WeekB) : Str := weekHeading w.label ++ w.chunk

def renderWeeks (ws : List WeekB) : Str := (ws.map renderWeek).flatten

def renderMonth (m : MonthB) : Str :=
  str "<h1>" ++ m.name ++ str "</h1>" ++ (m.pre ++ renderWeeks m.weeks)

def renderDoc (d : DocB) : Str := d.lead ++ (d.months.map renderMonth).flatten

/-- A well-formed week-ending label: exactly two digits, a slash, two
digits. -/
def wfLabel (L : Str) : Bool :=
  match L with
  | [d1, d2, sl, m1, m2] =>
    d1.isDigit && d2.isDigit && (sl == '/') && m1.isDigit && m2.isDigit
  | _ => false

/-- The (month, day) comparison key of a well-formed label. -/
def labelKey (L : Str) : Nat × Nat :=
  match L with
  | [d1, d2, _, m1, m2] => (10 * digitVal m1 + digitVal m2, 10 * digitVal d1 + digitVal d2)
  | _ => (0, 0)

def wfWeek (w : WeekB) : Bool :=
  wfLabel w.label && cleanFrag w.chunk && decide (2 ≤ w.chunk.length)

def weeksOrdered (ws : List WeekB) : Bool :=
  chainB (fun a b => keyLt (labelKey b.label) (labelKey a.label)) ws

def wfMonth (m : MonthB) : Bool :=
  decide (m.name ∈ monthNames) && cleanFrag m.pre && !m.weeks.isEmpty &&
    m.weeks.all wfWeek && weeksOrdered m.weeks

def monthsOrdered (ms : List MonthB) : Bool :=
  chainB (fun a b => decide (monthIdx b.name monthNames < monthIdx a.name monthNames)) ms

def wfDoc (d : DocB) : Bool :=
  cleanFrag d.lead && d.months.all wfMonth && monthsOrdered d.months

/-- A clean merge request: a recognized month name, a well-formed label,
and a display name and body free of h1/h2 open tags. -/
def cleanReq (r : ReportRequest) : Bool :=
  decide (r.month ∈ monthNames) && wfLabel r.weekEndingLabel &&
    cleanFrag r.displayName && cleanFrag r.body

/-- The positions at which the week-heading scan fires inside a rendered
week list whose first heading starts at index i. -/
def weekPositions (i : Nat) : List WeekB → List ((Nat × Nat) × Nat)
  | [] => []
  | w :: ws => (labelKey w.label, i) :: weekPositions (i + 18 + w.chunk.length) ws

/-- Append a trailing fragment to the chunk of the last week block. -/
def absorbW : List WeekB → Str → List WeekB
  | [], _ => []
  | [w], s => [⟨w.label, w.chunk ++ s⟩]
  | w :: ws, s => w :: absorbW ws s

def absorbM (m : MonthB) (s : Str) : MonthB := ⟨m.name, m.pre, absorbW m.weeks s⟩

/-- Reassemble a document from separator-prefixed month structures: the
first separator becomes the lead, every later separator is absorbed into
the tail of the preceding month. -/
def assembleMs : List (Str × MonthB) → List MonthB
  | [] => []
  | [(_, m)] => [m]
  | (_, m) :: (s2, m2) :: t => absorbM m s2 :: assembleMs ((s2, m2) :: t)

def assembleDoc (l : List (Str × MonthB)) : DocB :=
  ⟨((l.head?).map Prod.fst).getD [], assembleMs l⟩

theorem wfLabel_parts {L : Str} (h : wfLabel L = true) :
    ∃ d1 d2 m1 m2, L = [d1, d2, '/', m1, m2] ∧ d1.isDigit = true ∧ d2.isDigit = true ∧
      m1.isDigit = true ∧ m2.isDigit = true := by
  unfold wfLabel at h
  split at h
  next d1 d2 sl m1 m2 =>
    simp only [Bool.and_eq_true, beq_iff_eq] at h
    refine ⟨d1, d2, m1, m2, ?_, h.1.1.1.1, h.1.1.1.2, h.1.2, h.2⟩
    rw [h.1.1.2]
  next => cases h

theorem renderWeeks_cons (w : WeekB) (ws : List WeekB) :
    renderWeeks (w :: ws) = (weekHeading w.label ++ w.chunk) ++ renderWeeks ws := by
  simp [renderWeeks, renderWeek]

theorem headOk_renderWeeks (ws : List WeekB) : headOk (renderWeeks ws) = true := by
  cases ws with
  | nil => rfl
  | cons w t =>
    rw [renderWeeks_cons]
    have e : weekHeading w.label ++ w.chunk ++ renderWeeks t =
        '<' :: (('h' :: '2' :: '>' :: 'w' :: '/' :: 'e' :: ' ' :: w.label ++ str "</h2>") ++
          (w.chunk ++ renderWeeks t)) := by
      unfold weekHeading
      simp [str]
    rw [e]
    rfl

theorem weekHeading_len {L : Str} (h : wfLabel L = true) :
    (weekHeading L).length = 18 := by
  obtain ⟨d1, d2, m1, m2, rfl, _⟩ := wfLabel_parts h
  rfl

theorem weekAtP_at_heading {L : Str} (h : wfLabel L = true) (t : Str) :
    weekAtP (weekHeading L ++ t) = some (labelKey L) := by
  obtain ⟨d1, d2, m1, m2, rfl, hd1, hd2, hm1, hm2⟩ := wfLabel_parts h
  show weekAtP ('<' :: 'h' :: '2' :: '>' :: 'w' :: '/' :: 'e' :: ' ' :: d1 :: d2 :: '/' ::
    m1 :: m2 :: '<' :: '/' :: 'h' :: '2' :: '>' :: t) = some (labelKey [d1, d2, '/', m1, m2])
  simp only [weekAtP]
  rw [if_pos (by exact ⟨rfl, trivial, rfl, hd1, hd2, hm1, hm2⟩)]
  rfl

theorem wfWeek_parts {w : WeekB} (h : wfWeek w = true) :
    wfLabel w.label = true ∧ cleanFrag w.chunk = true ∧ 2 ≤ w.chunk.length := by
  unfold wfWeek at h
  simp only [Bool.and_eq_true, decide_eq_true_eq] at h
  exact ⟨h.1.1, h.1.2, h.2⟩

theorem weekAtB_slash (t : Str) : (weekAtP ('<' :: '/' :: t)).isSome = false := by
  by_contra hb
  rw [Bool.not_eq_false] at hb
  obtain ⟨d1, d2, m1, m2, r, hs, _⟩ := weekAtP_isSome hb
  simp [str] at hs

theorem weekAtB_h1 (t : Str) : (weekAtP ('<' :: 'h' :: '1' :: t)).isSome = false := by
  by_contra hb
  rw [Bool.not_eq_false] at hb
  obtain ⟨d1, d2, m1, m2, r, hs, _⟩ := weekAtP_isSome hb
  simp [str] at hs

theorem monthNames_noLt : ∀ n ∈ monthNames, ∀ c ∈ n, chEqCI '<' c = false := by decide

theorem scanWeeksFrom_cons_some {c : Char} {cs : Str} {k : Nat × Nat} {i : Nat}
    (hc : weekAtP (c :: cs) = some k) :
    scanWeeksFrom i (c :: cs) = (k, i) :: scanWeeksFrom (i + 1) cs := by
  simp only [scanWeeksFrom, hc]

theorem digits_noLt {d1 d2 m1 m2 : Char} (hd1 : d1.isDigit = true) (hd2 : d2.isDigit = true)
    (hm1 : m1.isDigit = true) (hm2 : m2.isDigit = true) :
    ∀ c ∈ [d1, d2, '/', m1, m2], chEqCI '<' c = false := by
  intro c hc
  have hlt : ('<' : Char).toLower.isDigit = false := by decide
  simp only [List.mem_cons] at hc
  rcases hc with rfl | rfl | rfl | rfl | rfl | h
  · exact chEqCI_digit_false '<' hd1 hlt
  · exact chEqCI_digit_false '<' hd2 hlt
  · decide
  · exact chEqCI_digit_false '<' hm1 hlt
  · exact chEqCI_digit_false '<' hm2 hlt
  · exact absurd h (List.not_mem_nil c)

/-- The week-heading scanner fires nowhere strictly inside a week heading
together with a clean chunk: only at the heading start. -/
theorem noMatch_wh_interior {L : Str} (hL : wfLabel L = true) (rest : Str) :
    NoMatchAt (fun s => (weekAtP s).isSome)
      (['h', '2', '>', 'w', '/', 'e', ' '] ++ (L ++ str "</h2>")) rest := by
  obtain ⟨d1, d2, m1, m2, rfl, hd1, hd2, hm1, hm2⟩ := wfLabel_parts hL
  apply noMatchAt_append
  · exact noMatchAt_of_heads weekAtB_head (by decide)
  · apply noMatchAt_append
    · exact noMatchAt_of_heads weekAtB_head (digits_noLt hd1 hd2 hm1 hm2)
    · apply noMatchAt_cons
      · exact (by simpa using weekAtB_slash (str "h2>" ++ rest))
      · exact noMatchAt_of_heads weekAtB_head (by decide)

theorem scanWeeksFrom_renderWeeks {ws : List WeekB} (hwf : ∀ w ∈ ws, wfWeek w = true) :
    ∀ i, scanWeeksFrom i (renderWeeks ws) = weekPositions i ws := by
  induction ws with
  | nil => intro i; rfl
  | cons w t ih =>
    intro i
    obtain ⟨hL, hcl, _⟩ := wfWeek_parts (hwf w (List.mem_cons_self _ _))
    rw [renderWeeks_cons, List.append_assoc]
    have e : weekHeading w.label ++ (w.chunk ++ renderWeeks t) =
        '<' :: ((['h', '2', '>', 'w', '/', 'e', ' '] ++ (w.label ++ str "</h2>")) ++
          (w.chunk ++ renderWeeks t)) := by
      unfold weekHeading
      simp [str]
    have hmatch : weekAtP (weekHeading w.label ++ (w.chunk ++ renderWeeks t)) =
        some (labelKey w.label) := weekAtP_at_heading hL _
    rw [e] at hmatch
    rw [e, scanWeeksFrom_cons_some hmatch]
    rw [scanWeeksFrom_skip (noMatch_wh_interior hL _)]
    have hlen : (['h', '2', '>', 'w', '/', 'e', ' '] ++ (w.label ++ str "</h2>")).length = 17 := by
      obtain ⟨d1, d2, m1, m2, hlab, _⟩ := wfLabel_parts hL
      rw [hlab]
      rfl
    rw [hlen]
    rw [scanWeeksFrom_skip (noMatchAt_clean weekAtB_h3 hcl (headOk_renderWeeks t))]
    rw [ih (fun x hx => hwf x (List.mem_cons_of_mem _ hx))]
    show ((labelKey w.label, i) :: weekPositions (i + 1 + 17 + w.chunk.length) t) =
      weekPositions i (w :: t)
    have : i + 1 + 17 + w.chunk.length = i + 18 + w.chunk.length := by omega
    rw [this]
    rfl

theorem wfMonth_parts {m : MonthB} (h : wfMonth m = true) :
    m.name ∈ monthNames ∧ cleanFrag m.pre = true ∧ m.weeks ≠ [] ∧
      (∀ w ∈ m.weeks, wfWeek w = true) ∧ weeksOrdered m.weeks = true := by
  unfold wfMonth at h
  simp only [Bool.and_eq_true, decide_eq_true_eq, List.all_eq_true] at h
  refine ⟨h.1.1.1.1, h.1.1.1.2, ?_, h.1.2, h.2⟩
  have hne := h.1.1.2
  intro hcon
  rw [hcon] at hne
  simp at hne

/-- The week scanner never fires inside the h1 heading of a month
section. -/
theorem noMatch_h1_weekAt {n : Str} (hn : n ∈ monthNames) (rest : Str) :
    NoMatchAt (fun s => (weekAtP s).isSome) (str "<h1>" ++ (n ++ str "</h1>")) rest := by
  apply noMatchAt_append
  · have e : (str "<h1>" : Str) = '<' :: ['h', '1', '>'] := rfl
    rw [e]
    apply noMatchAt_cons
    · simpa using weekAtB_h1 (['>'] ++ ((n ++ str "</h1>") ++ rest))
    · exact noMatchAt_of_heads weekAtB_head (by decide)
  · apply noMatchAt_append
    · exact noMatchAt_of_heads weekAtB_head (monthNames_noLt n hn)
    · have e : (str "</h1>" : Str) = '<' :: ['/', 'h', '1', '>'] := rfl
      rw [e]
      apply noMatchAt_cons
      · simpa using weekAtB_slash (['h', '1', '>'] ++ rest)
      · exact noMatchAt_of_heads weekAtB_head (by decide)

theorem scanWeeks_renderMonth {m : MonthB} (hm : wfMonth m = true) :
    scanWeeks (renderMonth m) = weekPositions (9 + m.name.length + m.pre.length) m.weeks := by
  obtain ⟨hname, hpre, _, hwf, _⟩ := wfMonth_parts hm
  unfold scanWeeks renderMonth
  have e : str "<h1>" ++ m.name ++ str "</h1>" ++ (m.pre ++ renderWeeks m.weeks) =
      (str "<h1>" ++ (m.name ++ str "</h1>")) ++ (m.pre ++ renderWeeks m.weeks) := by
    simp [List.append_assoc]
  rw [e]
  rw [scanWeeksFrom_skip (noMatch_h1_weekAt hname _) 0]
  rw [scanWeeksFrom_skip (noMatchAt_clean weekAtB_h3 hpre (headOk_renderWeeks m.weeks))]
  rw [scanWeeksFrom_renderWeeks hwf]
  have l1 : (str "<h1>" ++ (m.name ++ str "</h1>")).length = 9 + m.name.length := by
    simp only [List.length_append]
    have : (str "<h1>" : Str).length = 4 := rfl
    rw [this]
    have : (str "</h1>" : Str).length = 5 := rfl
    rw [this]
    omega
  rw [l1]
  have : 0 + (9 + m.name.length) + m.pre.length = 9 + m.name.length + m.pre.length := by omega
  rw [this]

theorem headOk_renderWeeks_append {t : List WeekB} {rest : Str} (hrest : headOk rest = true) :
    headOk (renderWeeks t ++ rest) = true := by
  cases t with
  | nil => simpa [renderWeeks] using hrest
  | cons w u =>
    rw [renderWeeks_cons]
    have e : weekHeading w.label ++ w.chunk ++ renderWeeks u ++ rest =
        '<' :: (((['h', '2', '>', 'w', '/', 'e', ' '] ++ w.label ++ str "</h2>") ++ w.chunk ++
          renderWeeks u) ++ rest) := by
      unfold weekHeading
      simp [str]
    rw [e]
    rfl

/-- Generic no-match fact over a rendered week list, for any scanner test
that fires only on open angle brackets, only where a case-insensitive h1
or h2 tag starts, never on a week heading of the list, and never on a
closing tag. -/
theorem noMatch_weeks_generic {test : Str → Bool} {ws : List WeekB}
    (hwf : ∀ w ∈ ws, wfWeek w = true)
    (hhead : ∀ c t, test (c :: t) = true → chEqCI '<' c = true)
    (hh3 : ∀ x, test x = true →
      startsWithBy chEqCI (str "<h1") x = true ∨ startsWithBy chEqCI (str "<h2") x = true)
    (hwh : ∀ L r, wfLabel L = true → L ∈ ws.map WeekB.label → test (weekHeading L ++ r) = false)
    (hslash : ∀ r, test ('<' :: '/' :: r) = false)
    {rest : Str} (hrest : headOk rest = true) :
    NoMatchAt test (renderWeeks ws) rest := by
  induction ws with
  | nil => exact noMatchAt_nil
  | cons w t ih =>
    obtain ⟨hL, hcl, _⟩ := wfWeek_parts (hwf w (List.mem_cons_self _ _))
    rw [renderWeeks_cons, List.append_assoc]
    apply noMatchAt_append
    · obtain ⟨d1, d2, m1, m2, hlab, hd1, hd2, hm1, hm2⟩ := wfLabel_parts hL
      have e : weekHeading w.label =
          '<' :: ((['h', '2', '>', 'w', '/', 'e', ' '] ++ w.label) ++ str "</h2>") := by
        unfold weekHeading
        simp [str]
      rw [e]
      apply noMatchAt_cons
      · have hfull := hwh w.label (w.chunk ++ renderWeeks t ++ rest) hL
          (by simp)
        rw [e] at hfull
        simpa [List.append_assoc] using hfull
      · apply noMatchAt_append
        · apply noMatchAt_append
          · exact noMatchAt_of_heads hhead (by decide)
          · rw [hlab]
            exact noMatchAt_of_heads hhead (digits_noLt hd1 hd2 hm1 hm2)
        · have e2 : (str "</h2>" : Str) = '<' :: ['/', 'h', '2', '>'] := rfl
          rw [e2]
          apply noMatchAt_cons
          · simpa using hslash (['h', '2', '>'] ++ ((w.chunk ++ renderWeeks t) ++ rest))
          · exact noMatchAt_of_heads hhead (by decide)
    · apply noMatchAt_append
      · exact noMatchAt_clean hh3 hcl (headOk_renderWeeks_append hrest)
      · exact ih (fun x hx => hwf x (List.mem_cons_of_mem _ hx))
          (fun L r hLw hmem => hwh L r hLw
            (by simp only [List.map_cons, List.mem_cons]; exact Or.inr (by simpa using hmem)))

theorem monthHeadB_wh_false {L : Str} (hL : wfLabel L = true) (r : Str) :
    (monthHeadAt (weekHeading L ++ r)).isSome = false := by
  obtain ⟨d1, d2, m1, m2, hlab, _⟩ := wfLabel_parts hL
  unfold weekHeading
  rw [hlab]
  rfl

theorem monthHeadB_slash (r : Str) : (monthHeadAt ('<' :: '/' :: r)).isSome = false := rfl

theorem h1OpenB_wh_false {L : Str} (hL : wfLabel L = true) (r : Str) :
    startsWithBy chEqCS (str "<h1>") (weekHeading L ++ r) = false := by
  obtain ⟨d1, d2, m1, m2, hlab, _⟩ := wfLabel_parts hL
  unfold weekHeading
  rw [hlab]
  rfl

theorem h1OpenB_slash (r : Str) :
    startsWithBy chEqCS (str "<h1>") ('<' :: '/' :: r) = false := rfl

theorem noMatch_weeks_monthHead {ws : List WeekB} (hwf : ∀ w ∈ ws, wfWeek w = true)
    {rest : Str} (hrest : headOk rest = true) :
    NoMatchAt (fun s => (monthHeadAt s).isSome) (renderWeeks ws) rest :=
  noMatch_weeks_generic hwf monthHeadB_head monthHeadB_h3
    (fun L r hL _ => monthHeadB_wh_false hL r) (fun r => monthHeadB_slash r) hrest

theorem noMatch_weeks_h1Open {ws : List WeekB} (hwf : ∀ w ∈ ws, wfWeek w = true)
    {rest : Str} (hrest : headOk rest = true) :
    NoMatchAt (startsWithBy chEqCS (str "<h1>")) (renderWeeks ws) rest :=
  noMatch_weeks_generic hwf h1OpenB_head h1OpenB_h3
    (fun L r hL _ => h1OpenB_wh_false hL r) (fun r => h1OpenB_slash r) hrest

theorem takeWhile_append_all {p : Char → Bool} {l t : Str} (hl : ∀ c ∈ l, p c = true)
    (ht : ∀ c, t.head? = some c → p c = false) : (l ++ t).takeWhile p = l := by
  induction l with
  | nil =>
    cases t with
    | nil => rfl
    | cons c cs => simp [List.takeWhile_cons, ht c rfl]
  | cons a as ih =>
    simp only [List.cons_append, List.takeWhile_cons, hl a (List.mem_cons_self _ _), if_true]
    rw [ih (fun c hc => hl c (List.mem_cons_of_mem _ hc))]

theorem monthNames_alpha : ∀ n ∈ monthNames, (∀ c ∈ n, c.isAlpha = true) ∧ n ≠ [] := by decide

/-- The extraction head pattern matches at the start of a rendered month
section, capturing the month name and the text after the closing tag. -/
theorem monthHeadAt_render {m : MonthB} (hname : m.name ∈ monthNames) (rest : Str) :
    monthHeadAt (renderMonth m ++ rest) =
      some (m.name, (m.pre ++ renderWeeks m.weeks) ++ rest) := by
  have e : renderMonth m ++ rest =
      str "<h1>" ++ (m.name ++ (str "</h1>" ++ ((m.pre ++ renderWeeks m.weeks) ++ rest))) := by
    unfold renderMonth
    simp [List.append_assoc]
  rw [e]
  unfold monthHeadAt
  have hd4 : (str "<h1>" ++ (m.name ++ (str "</h1>" ++ ((m.pre ++ renderWeeks m.weeks) ++ rest)))).drop 4 =
      m.name ++ (str "</h1>" ++ ((m.pre ++ renderWeeks m.weeks) ++ rest)) := by
    have e2 : (str "<h1>" : Str) = ['<', 'h', '1', '>'] := rfl
    rw [e2]
    rfl
  rw [hd4]
  have hc1 : startsWithBy chEqCS (str "<h1>")
      (str "<h1>" ++ (m.name ++ (str "</h1>" ++ ((m.pre ++ renderWeeks m.weeks) ++ rest)))) = true :=
    startsWithCS_iff.2 ⟨_, rfl⟩
  rw [if_pos hc1]
  have htake : (m.name ++ (str "</h1>" ++ ((m.pre ++ renderWeeks m.weeks) ++ rest))).takeWhile
      Char.isAlpha = m.name := by
    apply takeWhile_append_all (monthNames_alpha m.name hname).1
    intro c hc
    have e3 : (str "</h1>" ++ ((m.pre ++ renderWeeks m.weeks) ++ rest)) =
        '<' :: ('/' :: 'h' :: '1' :: '>' :: ((m.pre ++ renderWeeks m.weeks) ++ rest)) := rfl
    rw [e3] at hc
    injection hc with hc
    rw [← hc]
    rfl
  rw [htake]
  rw [if_neg (by simpa using (monthNames_alpha m.name hname).2)]
  have hdropn : (m.name ++ (str "</h1>" ++ ((m.pre ++ renderWeeks m.weeks) ++ rest))).drop
      m.name.length = str "</h1>" ++ ((m.pre ++ renderWeeks m.weeks) ++ rest) :=
    List.drop_left _ _
  rw [hdropn]
  rw [if_pos (startsWithCS_iff.2 ⟨_, rfl⟩)]
  have hdropf : (m.name ++ (str "</h1>" ++ ((m.pre ++ renderWeeks m.weeks) ++ rest))).drop
      (m.name.length + 5) = (m.pre ++ renderWeeks m.weeks) ++ rest := by
    have e4 : m.name ++ (str "</h1>" ++ ((m.pre ++ renderWeeks m.weeks) ++ rest)) =
        (m.name ++ str "</h1>") ++ ((m.pre ++ renderWeeks m.weeks) ++ rest) := by
      simp [List.append_assoc]
    rw [e4]
    have hlen : (m.name ++ str "</h1>").length = m.name.length + 5 := by
      simp only [List.length_append]
      rfl
    rw [← hlen, List.drop_left]
  rw [hdropf]

theorem breakOnCS_pos {pat s : Str} (hne : pat ≠ [])
    (h : startsWithBy chEqCS pat s = true) : breakOnCS pat s = ([], s) := by
  cases s with
  | nil =>
    cases pat with
    | nil => exact absurd rfl hne
    | cons p ps => simp [startsWithBy] at h
  | cons c cs => simp [breakOnCS, h]

theorem extractScan_cons_some {c : Char} {cs : Str} {n r : Str}
    (hc : monthHeadAt (c :: cs) = some (n, r)) :
    extractScan (c :: cs) =
      (n, str "<h1>" ++ n ++ str "</h1>" ++ (breakOnCS (str "<h1>") r).1) :: extractScan cs := by
  simp only [extractScan, hc]

theorem headOk_flattenMonths (t : List MonthB) : headOk (t.map renderMonth).flatten = true := by
  cases t with
  | nil => rfl
  | cons m u =>
    simp only [List.map_cons, List.flatten_cons]
    have e : renderMonth m ++ (u.map renderMonth).flatten =
        '<' :: ((['h', '1', '>'] ++ m.name ++ str "</h1>" ++ (m.pre ++ renderWeeks m.weeks)) ++
          (u.map renderMonth).flatten) := by
      unfold renderMonth
      simp [str]
    rw [e]
    rfl

/-- The extraction scanner never fires strictly inside a rendered month
section (after its leading character) when followed by further month
sections or the end of the document. -/
theorem noMatch_monthTail {m : MonthB} (hm : wfMonth m = true) {rest : Str}
    (hrest : headOk rest = true) :
    NoMatchAt (fun s => (monthHeadAt s).isSome)
      (['h', '1', '>'] ++ (m.name ++ (str "</h1>" ++ (m.pre ++ renderWeeks m.weeks)))) rest := by
  obtain ⟨hname, hpre, _, hwweeks, _⟩ := wfMonth_parts hm
  apply noMatchAt_append
  · exact noMatchAt_of_heads monthHeadB_head (by decide)
  · apply noMatchAt_append
    · exact noMatchAt_of_heads monthHeadB_head (monthNames_noLt m.name hname)
    · apply noMatchAt_append
      · have e : (str "</h1>" : Str) = '<' :: ['/', 'h', '1', '>'] := rfl
        rw [e]
        apply noMatchAt_cons
        · simpa using monthHeadB_slash (['h', '1', '>'] ++ ((m.pre ++ renderWeeks m.weeks) ++ rest))
        · exact noMatchAt_of_heads monthHeadB_head (by decide)
      · apply noMatchAt_append
        · exact noMatchAt_clean monthHeadB_h3 hpre (headOk_renderWeeks_append hrest)
        · exact noMatch_weeks_monthHead hwweeks hrest

theorem extractScan_renderMonths {ms : List MonthB} (hwf : ∀ m ∈ ms, wfMonth m = true) :
    extractScan (ms.map renderMonth).flatten = ms.map (fun m => (m.name, renderMonth m)) := by
  induction ms with
  | nil => rfl
  | cons m t ih =>
    simp only [List.map_cons, List.flatten_cons]
    obtain ⟨hname, hpre, hwne, hwweeks, _⟩ := wfMonth_parts (hwf m (List.mem_cons_self _ _))
    have e : renderMonth m ++ (t.map renderMonth).flatten =
        '<' :: ((['h', '1', '>'] ++ (m.name ++ (str "</h1>" ++ (m.pre ++ renderWeeks m.weeks)))) ++
          (t.map renderMonth).flatten) := by
      unfold renderMonth
      simp [str]
    have hma := monthHeadAt_render hname (t.map renderMonth).flatten
    rw [e] at hma
    rw [e, extractScan_cons_some hma]
    have hbrk : (breakOnCS (str "<h1>") ((m.pre ++ renderWeeks m.weeks) ++
        (t.map renderMonth).flatten)).1 = m.pre ++ renderWeeks m.weeks := by
      have hnm : NoMatchAt (startsWithBy chEqCS (str "<h1>")) (m.pre ++ renderWeeks m.weeks)
          (t.map renderMonth).flatten := by
        apply noMatchAt_append
        · exact noMatchAt_clean h1OpenB_h3 hpre
            (headOk_renderWeeks_append (headOk_flattenMonths t))
        · exact noMatch_weeks_h1Open hwweeks (headOk_flattenMonths t)
      rw [breakOnCS_skip hnm]
      cases t with
      | nil => simp [breakOnCS]
      | cons m2 u =>
        have hsw : startsWithBy chEqCS (str "<h1>") ((m2 :: u).map renderMonth).flatten = true := by
          apply startsWithCS_iff.2
          refine ⟨m2.name ++ str "</h1>" ++ (m2.pre ++ renderWeeks m2.weeks) ++
            (u.map renderMonth).flatten, ?_⟩
          simp [renderMonth, List.append_assoc]
        rw [breakOnCS_pos (by simp [str]) hsw]
        simp
    rw [hbrk]
    rw [extractScan_skip (noMatch_monthTail (hwf m (List.mem_cons_self _ _))
      (headOk_flattenMonths t))]
    rw [ih (fun x hx => hwf x (List.mem_cons_of_mem _ hx))]
    have ev : str "<h1>" ++ m.name ++ str "</h1>" ++ (m.pre ++ renderWeeks m.weeks) =
        renderMonth m := rfl
    rw [ev]

theorem wfDoc_parts {d : DocB} (h : wfDoc d = true) :
    cleanFrag d.lead = true ∧ (∀ m ∈ d.months, wfMonth m = true) ∧
      monthsOrdered d.months = true := by
  unfold wfDoc at h
  simp only [Bool.and_eq_true, List.all_eq_true] at h
  exact ⟨h.1.1, h.1.2, h.2⟩

theorem extractScan_renderDoc {d : DocB} (hd : wfDoc d = true) :
    extractScan (renderDoc d) = d.months.map (fun m => (m.name, renderMonth m)) := by
  obtain ⟨hlead, hms, _⟩ := wfDoc_parts hd
  unfold renderDoc
  rw [extractScan_skip (noMatchAt_clean monthHeadB_h3 hlead (headOk_flattenMonths d.months))]
  exact extractScan_renderMonths hms

theorem mapSet_append_fresh {l : List (Str × Str)} {k : Str} {v : Str}
    (h : k ∉ l.map Prod.fst) : mapSet l k v = l ++ [(k, v)] := by
  induction l with
  | nil => rfl
  | cons p t ih =>
    simp only [List.map_cons, List.mem_cons] at h
    push_neg at h
    simp only [mapSet]
    rw [if_neg (fun he => h.1 he.symm)]
    rw [ih h.2]
    rfl

theorem foldl_extract_fresh {pairs : List (Str × Str)}
    (hnames : ∀ p ∈ pairs, p.1 ∈ monthNames)
    (hnodup : (pairs.map Prod.fst).Nodup) :
    ∀ acc, (∀ k ∈ acc.map Prod.fst, k ∉ pairs.map Prod.fst) →
      pairs.foldl (fun m nr => if nr.1 ∈ monthNames then mapSet m nr.1 nr.2 else m) acc =
        acc ++ pairs := by
  induction pairs with
  | nil => intro acc _; simp
  | cons p t ih =>
    intro acc hacc
    simp only [List.foldl_cons]
    rw [if_pos (hnames p (List.mem_cons_self _ _))]
    have hfresh : p.1 ∉ acc.map Prod.fst := by
      intro hmem
      exact hacc p.1 hmem (by simp)
    rw [mapSet_append_fresh hfresh]
    rw [ih (fun q hq => hnames q (List.mem_cons_of_mem _ hq))
      (by simpa using (List.nodup_cons.1 (by simpa using hnodup)).2)
      (acc ++ [(p.1, p.2)]) ?_]
    · simp
    · intro k hk
      simp only [List.map_append, List.mem_append] at hk
      rcases hk with hk | hk
      · intro hmem
        exact hacc k hk (by simp [hmem])
      · simp only [List.map_cons, List.mem_singleton] at hk
        have hp1 : k = p.1 := by simpa using hk
        subst hp1
        exact (List.nodup_cons.1 (by simpa using hnodup)).1

theorem chainB_to_pairwise {r : α → α → Bool}
    (htrans : ∀ a b c, r a b = true → r b c = true → r a c = true) :
    ∀ {l : List α}, chainB r l = true → List.Pairwise (fun a b => r a b = true) l := by
  intro l
  induction l with
  | nil => intro _; exact List.Pairwise.nil
  | cons a t ih =>
    intro h
    cases t with
    | nil => exact List.pairwise_singleton _ _
    | cons b u =>
      have hstep : r a b = true ∧ chainB r (b :: u) = true := by
        simpa [chainB, Bool.and_eq_true] using h
      have hpb := ih hstep.2
      refine List.Pairwise.cons ?_ hpb
      intro x hx
      rcases List.mem_cons.1 hx with rfl | hx
      · exact hstep.1
      · have hbx : r b x = true := (List.pairwise_cons.1 hpb).1 x hx
        exact htrans a b x hstep.1 hbx

theorem monthsOrdered_nodup {ms : List MonthB} (h : monthsOrdered ms = true) :
    (ms.map (fun m => m.name)).Nodup := by
  have hp := chainB_to_pairwise
    (r := fun a b : MonthB => decide (monthIdx b.name monthNames < monthIdx a.name monthNames))
    (fun a b c hab hbc => by
      simp only [decide_eq_true_eq] at hab hbc ⊢
      omega) h
  rw [List.Nodup, List.pairwise_map]
  refine hp.imp ?_
  intro a b hab
  simp only [decide_eq_true_eq] at hab
  intro he
  rw [he] at hab
  omega

theorem extractMonthSections_renderDoc {d : DocB} (hd : wfDoc d = true) :
    extractMonthSections (renderDoc d) = d.months.map (fun m => (m.name, renderMonth m)) := by
  unfold extractMonthSections
  rw [extractScan_renderDoc hd]
  have hnames : ∀ p ∈ d.months.map (fun m => (m.name, renderMonth m)), p.1 ∈ monthNames := by
    intro p hp
    simp only [List.mem_map] at hp
    obtain ⟨m, hm, rfl⟩ := hp
    exact (wfMonth_parts ((wfDoc_parts hd).2.1 m hm)).1
  have hnodup : ((d.months.map (fun m => (m.name, renderMonth m))).map Prod.fst).Nodup := by
    have : (d.months.map (fun m => (m.name, renderMonth m))).map Prod.fst =
        d.months.map (fun m => m.name) := by
      simp [List.map_map]
    rw [this]
    exact monthsOrdered_nodup (wfDoc_parts hd).2.2
  have := foldl_extract_fresh hnames hnodup [] (by simp)
  simpa using this

theorem chainB_map {r : β → β → Bool} (f : α → β) :
    ∀ l : List α, chainB r (l.map f) = chainB (fun a b => r (f a) (f b)) l := by
  intro l
  induction l with
  | nil => rfl
  | cons a t ih =>
    cases t with
    | nil => rfl
    | cons b u =>
      simp only [List.map_cons, chainB]
      rw [← List.map_cons f b u, ih]

theorem monthsDescB_renderDoc {d : DocB} (hd : wfDoc d = true) :
    monthsDescB (renderDoc d) = true := by
  unfold monthsDescB
  rw [extractMonthSections_renderDoc hd]
  have e : (d.months.map fun m => (m.name, renderMonth m)).map Prod.fst =
      d.months.map (fun m => m.name) := by
    simp [List.map_map]
  rw [e, chainB_map]
  exact (wfDoc_parts hd).2.2

theorem chainB_weekPositions {ws : List WeekB} (h : weeksOrdered ws = true) :
    ∀ i, chainB (fun a b => keyLt b.1 a.1) (weekPositions i ws) = true := by
  induction ws with
  | nil => intro i; rfl
  | cons w t ih =>
    intro i
    cases t with
    | nil => rfl
    | cons w2 u =>
      have hstep : keyLt (labelKey w2.label) (labelKey w.label) = true ∧
          weeksOrdered (w2 :: u) = true := by
        simpa [weeksOrdered, chainB, Bool.and_eq_true] using h
      simp only [weekPositions, chainB, Bool.and_eq_true]
      exact ⟨hstep.1, by simpa [weekPositions] using ih hstep.2 (i + 18 + w.chunk.length)⟩

theorem weeksDescB_renderMonth {m : MonthB} (hm : wfMonth m = true) :
    weeksDescB (renderMonth m) = true := by
  unfold weeksDescB
  rw [scanWeeks_renderMonth hm]
  exact chainB_weekPositions (wfMonth_parts hm).2.2.2.2 _

theorem keyLt_asymm {a b : Nat × Nat} (h : keyLt a b = true) : keyLt b a = false := by
  unfold keyLt at h ⊢
  simp only [Bool.or_eq_true, Bool.and_eq_true, decide_eq_true_eq, beq_iff_eq] at h
  simp only [Bool.or_eq_false_iff, Bool.and_eq_false_iff]
  rcases h with h | ⟨he, hd⟩
  · constructor
    · simp only [decide_eq_false_iff_not]
      omega
    · left
      simp only [beq_eq_false_iff_ne, ne_eq]
      omega
  · constructor
    · simp only [decide_eq_false_iff_not]
      omega
    · right
      simp only [decide_eq_false_iff_not]
      omega

theorem keyLt_trichotomy (a b : Nat × Nat) :
    keyLt a b = true ∨ keyLt b a = true ∨ a = b := by
  unfold keyLt
  simp only [Bool.or_eq_true, Bool.and_eq_true, decide_eq_true_eq, beq_iff_eq]
  obtain ⟨a1, a2⟩ := a
  obtain ⟨b1, b2⟩ := b
  simp only [Prod.mk.injEq]
  omega

theorem chainB_cons_parts {rel : α → α → Bool} {a b : α} {t : List α}
    (h : chainB rel (a :: b :: t) = true) :
    rel a b = true ∧ chainB rel (b :: t) = true := by
  simpa [chainB, Bool.and_eq_true] using h

theorem chainB_tail {rel : α → α → Bool} {a : α} {t : List α}
    (h : chainB rel (a :: t) = true) : chainB rel t = true := by
  cases t with
  | nil => rfl
  | cons b u => exact (chainB_cons_parts h).2

theorem chainB_append_cons {rel : α → α → Bool} :
    ∀ {l1 : List α} {x : α} {v : List α}, chainB rel (l1 ++ [x]) = true →
      chainB rel (x :: v) = true → chainB rel (l1 ++ x :: v) = true := by
  intro l1
  induction l1 with
  | nil => intro x l2 _ h2; exact h2
  | cons a t ih =>
    intro x l2 h1 h2
    cases t with
    | nil =>
      have := chainB_cons_parts (by simpa using h1)
      simpa [chainB, Bool.and_eq_true] using ⟨this.1, h2⟩
    | cons b u =>
      have hp := chainB_cons_parts (by simpa using h1)
      have := ih (x := x) (v := l2) (by simpa using hp.2) h2
      simpa [chainB, Bool.and_eq_true] using ⟨hp.1, this⟩

theorem eqSB_refl_CI (p : Str) : eqSB chEqCI p p = true := by
  induction p with
  | nil => rfl
  | cons a t ih => simp [eqSB, chEqCI_refl, ih]

theorem startsWithBy_refl_CI (p t : Str) : startsWithBy chEqCI p (p ++ t) = true := by
  induction p with
  | nil => rfl
  | cons a u ih => simp [startsWithBy, chEqCI_refl, ih]

theorem splitFirstBy_pos {eq : Char → Char → Bool} {pat s : Str} (hne : pat ≠ [])
    (h : startsWithBy eq pat s = true) :
    splitFirstBy eq pat s = some ([], s.drop pat.length) := by
  cases s with
  | nil =>
    cases pat with
    | nil => exact absurd rfl hne
    | cons p ps => simp [startsWithBy] at h
  | cons c cs => simp [splitFirstBy, h]

theorem splitFirstBy_eq_none_of_not_occurs {eq : Char → Char → Bool} {pat s : Str}
    (h : occursBy eq pat s = false) : splitFirstBy eq pat s = none := by
  cases hsp : splitFirstBy eq pat s with
  | none => rfl
  | some pq =>
    obtain ⟨u, v⟩ := pq
    obtain ⟨m, hm, hme⟩ := splitFirstBy_some hsp
    have : occursBy eq pat s = true := by
      rw [occursBy_iff]
      exact ⟨u, m, v, hm, hme⟩
    rw [this] at h
    cases h

theorem occursBy_false_of_noMatch {eq : Char → Char → Bool} {pat p : Str} (hpat : pat ≠ [])
    (h : NoMatchAt (startsWithBy eq pat) p []) : occursBy eq pat p = false := by
  induction p with
  | nil =>
    cases pat with
    | nil => exact absurd rfl hpat
    | cons a t => rfl
  | cons c cs ih =>
    have hc : startsWithBy eq pat (c :: cs) = false := by
      have := h [] (c :: cs) rfl (by simp)
      simpa using this
    simp only [occursBy, hc, Bool.false_or]
    exact ih (fun u v huv hvne => h (c :: u) v (by rw [huv]; rfl) hvne)

theorem char_toNat_inj {c d : Char} (h : c.toNat = d.toNat) : c = d := by
  apply Char.ext
  exact UInt32.ext_iff.2 h

theorem digitVal_inj {c d : Char} (hc : c.isDigit = true) (hd : d.isDigit = true)
    (h : digitVal c = digitVal d) : c = d := by
  have hcb := isDigit_toNat hc
  have hdb := isDigit_toNat hd
  unfold digitVal at h
  apply char_toNat_inj
  omega

theorem digitVal_le {c : Char} (hc : c.isDigit = true) : digitVal c ≤ 9 := by
  have := isDigit_toNat hc
  unfold digitVal
  omega

theorem labelKey_inj {L1 L2 : Str} (h1 : wfLabel L1 = true) (h2 : wfLabel L2 = true)
    (h : labelKey L1 = labelKey L2) : L1 = L2 := by
  obtain ⟨a1, a2, b1, b2, e1, ha1, ha2, hb1, hb2⟩ := wfLabel_parts h1
  obtain ⟨c1, c2, d1, d2, e2, hc1, hc2, hd1, hd2⟩ := wfLabel_parts h2
  rw [e1, e2] at h ⊢
  unfold labelKey at h
  simp only [Prod.mk.injEq] at h
  have hq1 := digitVal_le ha1
  have hq2 := digitVal_le ha2
  have hq3 := digitVal_le hb1
  have hq4 := digitVal_le hb2
  have hq5 := digitVal_le hc1
  have hq6 := digitVal_le hc2
  have hq7 := digitVal_le hd1
  have hq8 := digitVal_le hd2
  have k1 : digitVal b1 = digitVal d1 ∧ digitVal b2 = digitVal d2 := by omega
  have k2 : digitVal a1 = digitVal c1 ∧ digitVal a2 = digitVal c2 := by omega
  rw [digitVal_inj ha1 hc1 k2.1, digitVal_inj ha2 hc2 k2.2,
    digitVal_inj hb1 hd1 k1.1, digitVal_inj hb2 hd2 k1.2]

theorem monthIdx_inj : ∀ n1 ∈ monthNames, ∀ n2 ∈ monthNames,
    monthIdx n1 monthNames = monthIdx n2 monthNames → n1 = n2 := by decide

theorem wfLabel_len {L : Str} (h : wfLabel L = true) : L.length = 5 := by
  obtain ⟨d1, d2, m1, m2, e, _⟩ := wfLabel_parts h
  rw [e]
  rfl

/-- Two different well-formed labels never match case-insensitively, so a
week-heading pattern for one label fails at the heading of another. -/
theorem wh_mismatch {L L' : Str} (hL : wfLabel L = true) (hL' : wfLabel L' = true)
    (hne : L ≠ L') (t : Str) :
    startsWithBy chEqCI (weekHeading L) (weekHeading L' ++ t) = false := by
  by_contra hb
  rw [Bool.not_eq_false] at hb
  have e1 : weekHeading L = str "<h2>w/e " ++ (L ++ str "</h2>") := by
    unfold weekHeading
    simp [List.append_assoc]
  have e2 : weekHeading L' ++ t = str "<h2>w/e " ++ (L' ++ (str "</h2>" ++ t)) := by
    unfold weekHeading
    simp [List.append_assoc]
  rw [e1, e2] at hb
  have h1 := (startsWithBy_append_pat hb).2
  have hd8 : (str "<h2>w/e " ++ (L' ++ (str "</h2>" ++ t))).drop (str "<h2>w/e ").length =
      L' ++ (str "</h2>" ++ t) := List.drop_left _ _
  rw [hd8] at h1
  have h2 := (startsWithBy_append_pat h1).1
  have ht5 : (L' ++ (str "</h2>" ++ t)).take L.length = L' := by
    rw [wfLabel_len hL, ← wfLabel_len hL']
    exact List.take_left _ _
  rw [ht5] at h2
  apply hne
  obtain ⟨a1, a2, b1, b2, ea, ha1, ha2, hb1, hb2⟩ := wfLabel_parts hL
  obtain ⟨c1, c2, d1, d2, ec, hc1, hc2, hd1, hd2⟩ := wfLabel_parts hL'
  rw [ea, ec] at h2
  simp only [eqSB, Bool.and_eq_true] at h2
  rw [ea, ec, chEqCI_digits ha1 hc1 h2.1, chEqCI_digits ha2 hc2 h2.2.1,
    chEqCI_digits hb1 hd1 h2.2.2.2.1, chEqCI_digits hb2 hd2 h2.2.2.2.2.1]

theorem renderWeeks_append (a b : List WeekB) :
    renderWeeks (a ++ b) = renderWeeks a ++ renderWeeks b := by
  simp [renderWeeks]

theorem weekPositions_append (a b : List WeekB) :
    ∀ i, (∀ w ∈ a, wfWeek w = true) → weekPositions i (a ++ b) =
      weekPositions i a ++ weekPositions (i + (renderWeeks a).length) b := by
  induction a with
  | nil => intro i _; simp [weekPositions, renderWeeks]
  | cons w t ih =>
    intro i hwf
    simp only [List.cons_append, weekPositions]
    have ea : t.append b = t ++ b := rfl
    rw [ea]
    rw [ih (i + 18 + w.chunk.length) (fun x hx => hwf x (List.mem_cons_of_mem _ hx))]
    have hlen : (renderWeeks (w :: t)).length = 18 + w.chunk.length + (renderWeeks t).length := by
      rw [renderWeeks_cons]
      simp only [List.length_append]
      rw [weekHeading_len (wfWeek_parts (hwf w (List.mem_cons_self _ _))).1]
    rw [hlen]
    have e2 : i + 18 + w.chunk.length + (renderWeeks t).length =
        i + (18 + w.chunk.length + (renderWeeks t).length) := by omega
    rw [e2]

theorem absorbW_labels (s : Str) : ∀ ws : List WeekB,
    (absorbW ws s).map WeekB.label = ws.map WeekB.label := by
  intro ws
  induction ws with
  | nil => rfl
  | cons w t ih =>
    cases t with
    | nil => rfl
    | cons w2 u =>
      show (w :: absorbW (w2 :: u) s).map WeekB.label = _
      simp only [List.map_cons]
      rw [show (absorbW (w2 :: u) s).map WeekB.label = (w2 :: u).map WeekB.label from ih]
      rfl

theorem renderWeeks_absorbW {ws : List WeekB} (hne : ws ≠ []) (s : Str) :
    renderWeeks (absorbW ws s) = renderWeeks ws ++ s := by
  induction ws with
  | nil => exact absurd rfl hne
  | cons w t ih =>
    cases t with
    | nil =>
      show renderWeeks [⟨w.label, w.chunk ++ s⟩] = _
      simp [renderWeeks, renderWeek]
    | cons w2 u =>
      show renderWeeks (w :: absorbW (w2 :: u) s) = _
      rw [renderWeeks_cons, renderWeeks_cons, ih (by simp)]
      simp [List.append_assoc]

theorem weeksOrdered_of_labels_eq {u v : List WeekB}
    (h : u.map WeekB.label = v.map WeekB.label) :
    weeksOrdered u = weeksOrdered v := by
  unfold weeksOrdered
  have e1 := chainB_map (r := fun a b : Str => keyLt (labelKey b) (labelKey a)) WeekB.label u
  have e2 := chainB_map (r := fun a b : Str => keyLt (labelKey b) (labelKey a)) WeekB.label v
  rw [← e1, ← e2, h]

theorem absorbW_all_wf {ws : List WeekB} {s : Str} (hwf : ∀ w ∈ ws, wfWeek w = true)
    (hs : cleanFrag s = true) (hok : headOk s = true) :
    ∀ w ∈ absorbW ws s, wfWeek w = true := by
  induction ws with
  | nil => intro w hw; cases hw
  | cons w1 t ih =>
    cases t with
    | nil =>
      intro w hw
      have hv : w = ⟨w1.label, w1.chunk ++ s⟩ := by simpa [absorbW] using hw
      obtain ⟨hL, hcl, hlen⟩ := wfWeek_parts (hwf w1 (List.mem_cons_self _ _))
      rw [hv]
      unfold wfWeek
      simp only [Bool.and_eq_true, decide_eq_true_eq]
      refine ⟨⟨hL, cleanFrag_append_headOk hcl hs hok⟩, ?_⟩
      simp only [List.length_append]
      omega
    | cons w2 u =>
      intro w hw
      rcases (by simpa [absorbW] using hw : w = w1 ∨ w ∈ absorbW (w2 :: u) s) with rfl | hmem
      · exact hwf w (List.mem_cons_self _ _)
      · exact ih (fun x hx => hwf x (List.mem_cons_of_mem _ hx)) w hmem

theorem wfMonth_absorbM {m : MonthB} (hm : wfMonth m = true) {s : Str}
    (hs : cleanFrag s = true) (hok : headOk s = true) :
    wfMonth (absorbM m s) = true := by
  obtain ⟨hname, hpre, hne, hwf, hord⟩ := wfMonth_parts hm
  unfold wfMonth
  simp only [absorbM, Bool.and_eq_true, decide_eq_true_eq, List.all_eq_true]
  refine ⟨⟨⟨⟨hname, hpre⟩, ?_⟩, fun w hw => absorbW_all_wf hwf hs hok w hw⟩, ?_⟩
  · rcases hws : m.weeks with _ | ⟨w, _ | ⟨w2, u⟩⟩
    · exact absurd hws hne
    · simp [absorbW]
    · simp [absorbW]
  · show weeksOrdered (absorbW m.weeks s) = true
    rw [weeksOrdered_of_labels_eq (absorbW_labels s m.weeks)]
    exact hord

theorem chainB_iff_chain' {rel : α → α → Bool} :
    ∀ {l : List α}, chainB rel l = true ↔ List.Chain' (fun a b => rel a b = true) l := by
  intro l
  induction l with
  | nil => simp [chainB]
  | cons a t ih =>
    cases t with
    | nil => simp [chainB]
    | cons b u =>
      rw [List.chain'_cons]
      constructor
      · intro h
        have hp := chainB_cons_parts h
        exact ⟨hp.1, ih.1 hp.2⟩
      · rintro ⟨h1, h2⟩
        simpa [chainB, Bool.and_eq_true] using ⟨h1, ih.2 h2⟩

theorem sortBy_eq_self_of_chain {bef : α → α → Bool} :
    ∀ {l : List α}, List.Chain' (fun a b => bef a b = true) l → sortBy bef l = l := by
  intro l
  induction l with
  | nil => intro _; rfl
  | cons a t ih =>
    intro h
    have ht := (List.chain'_cons'.1 h).2
    show insBy bef a (sortBy bef t) = a :: t
    rw [ih ht]
    cases t with
    | nil => rfl
    | cons b u =>
      have hab : bef a b = true := (List.chain'_cons.1 h).1
      simp [insBy, hab]

/-- Inserting a fresh-keyed element into a strictly descending list with
the non-strict merge comparator splits the list at the key. -/
theorem insBy_key_split {K : α → Int} :
    ∀ {l : List α} {x : α},
      List.Chain' (fun a b => K b < K a) l → (∀ a ∈ l, K a ≠ K x) →
      ∃ l1 l2, l = l1 ++ l2 ∧
        insBy (fun a b => decide (K b ≤ K a)) x l = l1 ++ x :: l2 ∧
        (∀ a ∈ l1, K x < K a) ∧ (∀ a ∈ l2, K a < K x) := by
  intro l
  induction l with
  | nil =>
    intro x _ _
    exact ⟨[], [], rfl, rfl, by simp, by simp⟩
  | cons a t ih =>
    intro x hch hne
    by_cases hax : K a ≤ K x
    · have hlt : K a < K x := lt_of_le_of_ne hax (hne a (List.mem_cons_self _ _))
      refine ⟨[], a :: t, rfl, ?_, by simp, ?_⟩
      · simp [insBy, hax]
      · intro b hb
        rcases List.mem_cons.1 hb with rfl | hb
        · exact hlt
        · have hpw := chainB_to_pairwise (r := fun p q => decide (K q < K p))
            (fun p q r hpq hqr => by
              simp only [decide_eq_true_eq] at hpq hqr ⊢
              omega)
            (chainB_iff_chain'.2 (hch.imp (fun hx => by simpa using hx)))
          have := (List.pairwise_cons.1 hpw).1 b hb
          simp only [decide_eq_true_eq] at this
          omega
    · have hxa : K x < K a := by omega
      obtain ⟨l1, l2, he, hi, h1, h2⟩ := ih (List.chain'_cons'.1 hch).2
        (fun b hb => hne b (List.mem_cons_of_mem _ hb))
      refine ⟨a :: l1, l2, by rw [he]; rfl, ?_, ?_, h2⟩
      · show insBy (fun p q => decide (K q ≤ K p)) x (a :: t) = a :: l1 ++ x :: l2
        simp only [insBy]
        rw [if_neg (by simpa using hax), hi]
        rfl
      · intro b hb
        rcases List.mem_cons.1 hb with rfl | hb
        · exact hxa
        · exact h1 b hb

/-- Sorting a strictly descending list with one fresh element appended
equals inserting that element. -/
theorem sortBy_append_singleton_key {K : α → Int} :
    ∀ {l : List α} {x : α},
      List.Chain' (fun a b => K b < K a) l → (∀ a ∈ l, K a ≠ K x) →
      sortBy (fun a b => decide (K b ≤ K a)) (l ++ [x]) =
        insBy (fun a b => decide (K b ≤ K a)) x l := by
  intro l
  induction l with
  | nil => intro x _ _; rfl
  | cons a t ih =>
    intro x hch hne
    show insBy (fun p q => decide (K q ≤ K p)) a
      (sortBy (fun p q => decide (K q ≤ K p)) (t ++ [x])) = _
    rw [ih (List.chain'_cons'.1 hch).2 (fun b hb => hne b (List.mem_cons_of_mem _ hb))]
    by_cases hax : K a ≤ K x
    · have hlt : K a < K x := lt_of_le_of_ne hax (hne a (List.mem_cons_self _ _))
      have hxt : insBy (fun p q => decide (K q ≤ K p)) x t = x :: t := by
        cases t with
        | nil => rfl
        | cons b u =>
          have hba : K b < K a := (List.chain'_cons.1 hch).1
          simp only [insBy]
          rw [if_pos (by simp only [decide_eq_true_eq]; omega)]
      rw [hxt]
      simp only [insBy]
      rw [if_neg (by simp only [decide_eq_true_eq]; omega)]
      rw [if_pos (by simp only [decide_eq_true_eq]; omega)]
      cases t with
      | nil => rfl
      | cons b u =>
        have hba : K b < K a := (List.chain'_cons.1 hch).1
        simp only [insBy]
        rw [if_pos (by simp only [decide_eq_true_eq]; omega)]
    · have hxa : K x < K a := by omega
      cases t with
      | nil =>
        simp only [insBy]
        rw [if_pos (by simp only [decide_eq_true_eq]; omega),
          if_neg (by simp only [decide_eq_true_eq]; omega)]
      | cons b u =>
        have hba : K b < K a := (List.chain'_cons.1 hch).1
        simp only [insBy]
        by_cases hxb : K b ≤ K x
        · rw [if_pos (by simp only [decide_eq_true_eq]; exact hxb)]
          simp only [insBy]
          rw [if_pos (by simp only [decide_eq_true_eq]; omega)]
          rw [if_neg (by simp only [decide_eq_true_eq]; omega)]
        · rw [if_neg (by simp only [decide_eq_true_eq]; exact hxb)]
          simp only [insBy]
          rw [if_pos (by simp only [decide_eq_true_eq]; omega)]
          rw [if_neg (by simp only [decide_eq_true_eq]; omega)]

theorem strad_h3close {b : Str} : ∀ u v, (str "</h3>\n" : Str) = u ++ v → v ≠ [] →
    v.length < 3 → startsWithBy chEqCI (str "<h1") (v ++ b) = false ∧
      startsWithBy chEqCI (str "<h2") (v ++ b) = false := by
  intro u v huv hvne hvlen
  have hv := suffix_determined huv
  have hl6 : (str "</h3>\n" : Str).length = 6 := rfl
  rw [hl6] at hv
  have hl : v.length = 1 ∨ v.length = 2 := by
    cases v with
    | nil => exact absurd rfl hvne
    | cons c t =>
      simp only [List.length_cons] at hvlen ⊢
      omega
  rcases hl with h1 | h1
  · rw [h1] at hv
    have hvv : v = ['\n'] := by rw [hv]; rfl
    rw [hvv]
    exact ⟨rfl, rfl⟩
  · rw [h1] at hv
    have hvv : v = ['>', '\n'] := by rw [hv]; rfl
    rw [hvv]
    exact ⟨rfl, rfl⟩

theorem strad_h3open {b : Str} : ∀ u v, (str "\n<h3>" : Str) = u ++ v → v ≠ [] →
    v.length < 3 → startsWithBy chEqCI (str "<h1") (v ++ b) = false ∧
      startsWithBy chEqCI (str "<h2") (v ++ b) = false := by
  intro u v huv hvne hvlen
  have hv := suffix_determined huv
  have hl5 : (str "\n<h3>" : Str).length = 5 := rfl
  rw [hl5] at hv
  have hl : v.length = 1 ∨ v.length = 2 := by
    cases v with
    | nil => exact absurd rfl hvne
    | cons c t =>
      simp only [List.length_cons] at hvlen ⊢
      omega
  rcases hl with h1 | h1
  · rw [h1] at hv
    have hvv : v = ['>'] := by rw [hv]; rfl
    rw [hvv]
    exact ⟨rfl, rfl⟩
  · rw [h1] at hv
    have hvv : v = ['3', '>'] := by rw [hv]; rfl
    rw [hvv]
    exact ⟨rfl, rfl⟩

theorem cleanFrag_createUserSection {N B : Str} (hN : cleanFrag N = true)
    (hB : cleanFrag B = true) : cleanFrag (createUserSection N B) = true := by
  have e : createUserSection N B =
      str "\n<h3>" ++ (N ++ (str "</h3>\n" ++ (B ++ str "\n\n"))) := by
    unfold createUserSection
    simp [List.append_assoc]
  rw [e]
  have h3 : cleanFrag (B ++ str "\n\n") = true :=
    cleanFrag_append_headOk hB (by decide) (by decide)
  have h2 : cleanFrag (str "</h3>\n" ++ (B ++ str "\n\n")) = true :=
    cleanFrag_append (by decide) h3 strad_h3close
  have h1 : cleanFrag (N ++ (str "</h3>\n" ++ (B ++ str "\n\n"))) = true :=
    cleanFrag_append_headOk hN h2 (by rfl)
  exact cleanFrag_append (by decide) h1 strad_h3open

theorem headOk_createUserSection (N B : Str) : headOk (createUserSection N B) = true := by
  have e : createUserSection N B =
      '\n' :: (['<', 'h', '3', '>'] ++ N ++ str "</h3>\n" ++ B ++ str "\n\n") := by
    unfold createUserSection
    simp [str]
  rw [e]
  rfl

theorem createUserSection_len (N B : Str) :
    (createUserSection N B).length = 13 + N.length + B.length := by
  unfold createUserSection
  simp only [List.length_append]
  have e1 : (str "\n<h3>" : Str).length = 5 := rfl
  have e2 : (str "</h3>\n" : Str).length = 6 := rfl
  have e3 : (str "\n\n" : Str).length = 2 := rfl
  rw [e1, e2, e3]
  omega

theorem createUserSection_tailNl (N B : Str) :
    createUserSection N B =
      (str "\n<h3>" ++ N ++ str "</h3>\n" ++ B) ++ str "\n\n" := rfl

theorem digit_beq_slash {c : Char} (h : c.isDigit = true) : (c == '/') = false := by
  have hb := isDigit_toNat h
  rw [beq_eq_false_iff_ne]
  apply char_ne_of_toNat_ne
  have : Char.toNat '/' = 47 := rfl
  omega

theorem parseLabelKey_wf {L : Str} (h : wfLabel L = true) :
    parseLabelKey L = some (labelKey L) := by
  obtain ⟨d1, d2, m1, m2, e, hd1, hd2, hm1, hm2⟩ := wfLabel_parts h
  rw [e]
  have hsp : splitOnChar '/' [d1, d2, '/', m1, m2] = [[d1, d2], [m1, m2]] := by
    simp [splitOnChar, digit_beq_slash hd1, digit_beq_slash hd2, digit_beq_slash hm1,
      digit_beq_slash hm2]
  unfold parseLabelKey
  rw [hsp]
  have hnum1 : numOfFrag [d1, d2] = some (10 * digitVal d1 + digitVal d2) := by
    unfold numOfFrag
    rw [if_pos ⟨by simp, by simp [List.all_cons, hd1, hd2]⟩]
    congr 1
    simp only [List.foldl]
    omega
  have hnum2 : numOfFrag [m1, m2] = some (10 * digitVal m1 + digitVal m2) := by
    unfold numOfFrag
    rw [if_pos ⟨by simp, by simp [List.all_cons, hm1, hm2]⟩]
    congr 1
    simp only [List.foldl]
    omega
  show (match numOfFrag [d1, d2], numOfFrag [m1, m2] with
    | some dv, some mv => some (mv, dv)
    | _, _ => none) = some (labelKey [d1, d2, '/', m1, m2])
  rw [hnum1, hnum2]
  rfl

/-- The insertion-position loop on a strictly descending heading list with
a fresh key: either it stops at the first strictly older heading, or it
falls through to the append position of the last heading. -/
theorem findInsertPos_split {c : Str} {k : Nat × Nat} :
    ∀ {hs : List ((Nat × Nat) × Nat)} {f : Nat}, hs ≠ [] →
      (∀ h ∈ hs, h.1 ≠ k) →
      chainB (fun a b => keyLt b.1 a.1) hs = true →
      (∃ hs1 h hs2, hs = hs1 ++ h :: hs2 ∧ (∀ g ∈ hs1, keyLt k g.1 = true) ∧
        keyLt h.1 k = true ∧ findInsertPos c (some k) hs f = h.2) ∨
      ((∀ h ∈ hs, keyLt k h.1 = true) ∧ ∃ hs1 hl, hs = hs1 ++ [hl] ∧
        findInsertPos c (some k) hs f = appendPos c hl.2) := by
  intro hs
  induction hs with
  | nil => intro f hne _ _; exact absurd rfl hne
  | cons h t ih =>
    intro f _ hnk hch
    cases t with
    | nil =>
      by_cases ho : keyLt h.1 k = true
      · left
        exact ⟨[], h, [], rfl, by simp, ho, by simp [findInsertPos, headOlder, ho]⟩
      · right
        have hlt : keyLt k h.1 = true := by
          rcases keyLt_trichotomy h.1 k with hx | hx | hx
          · exact absurd hx ho
          · exact hx
          · exact absurd hx (hnk h (List.mem_cons_self _ _))
        refine ⟨?_, [], h, rfl, ?_⟩
        · intro g hg
          rcases List.mem_cons.1 hg with rfl | hg
          · exact hlt
          · cases hg
        · simp [findInsertPos, headOlder, ho]
    | cons g u =>
      by_cases ho : keyLt h.1 k = true
      · left
        exact ⟨[], h, g :: u, rfl, by simp, ho, by simp [findInsertPos, headOlder, ho]⟩
      · have hlt : keyLt k h.1 = true := by
          rcases keyLt_trichotomy h.1 k with hx | hx | hx
          · exact absurd hx ho
          · exact hx
          · exact absurd hx (hnk h (List.mem_cons_self _ _))
        have hstep : findInsertPos c (some k) (h :: g :: u) f =
            findInsertPos c (some k) (g :: u) f := by
          simp [findInsertPos, headOlder, ho]
        rcases ih (f := f) (by simp) (fun x hx => hnk x (List.mem_cons_of_mem _ hx))
            (chainB_tail hch) with
          ⟨hs1, h', hs2, he, hall, hlt', hpos⟩ | ⟨hall, hs1, hl, hlast, hpos⟩
        · left
          refine ⟨h :: hs1, h', hs2, by rw [he]; rfl, ?_, hlt', by rw [hstep, hpos]⟩
          intro x hx
          rcases List.mem_cons.1 hx with rfl | hx
          · exact hlt
          · exact hall x hx
        · right
          refine ⟨?_, h :: hs1, hl, by rw [hlast]; rfl, by rw [hstep, hpos]⟩
          intro x hx
          rcases List.mem_cons.1 hx with rfl | hx
          · exact hlt
          · exact hall x hx

theorem weekPositions_split {ws : List WeekB} :
    ∀ {i : Nat} {hs1 : List ((Nat × Nat) × Nat)} {h : (Nat × Nat) × Nat}
      {hs2 : List ((Nat × Nat) × Nat)}, (∀ w ∈ ws, wfWeek w = true) →
      weekPositions i ws = hs1 ++ h :: hs2 →
      ∃ ws1 w ws2, ws = ws1 ++ w :: ws2 ∧ hs1 = weekPositions i ws1 ∧
        h = (labelKey w.label, i + (renderWeeks ws1).length) ∧
        hs2 = weekPositions (i + (renderWeeks ws1).length + 18 + w.chunk.length) ws2 := by
  induction ws with
  | nil =>
    intro i hs1 h hs2 _ he
    cases hs1 with
    | nil => cases he
    | cons p ps => cases he
  | cons w t ih =>
    intro i hs1 h hs2 hwf he
    simp only [weekPositions] at he
    cases hs1 with
    | nil =>
      simp only [List.nil_append] at he
      have h1 : h = (labelKey w.label, i) := ((List.cons.inj he).1).symm
      have h2 : hs2 = weekPositions (i + 18 + w.chunk.length) t := ((List.cons.inj he).2).symm
      refine ⟨[], w, t, rfl, rfl, ?_, ?_⟩
      · rw [h1]
        simp [renderWeeks]
      · rw [h2]
        congr 1
    | cons p ps =>
      simp only [List.cons_append] at he
      have hp : p = (labelKey w.label, i) := ((List.cons.inj he).1).symm
      have ht : weekPositions (i + 18 + w.chunk.length) t = ps ++ h :: hs2 :=
        (List.cons.inj he).2
      obtain ⟨ws1, w', ws2, hws, hhs1, hh, hhs2⟩ :=
        ih (fun x hx => hwf x (List.mem_cons_of_mem _ hx)) ht
      have hlen : i + 18 + w.chunk.length + (renderWeeks ws1).length =
          i + (renderWeeks (w :: ws1)).length := by
        rw [renderWeeks_cons]
        simp only [List.length_append]
        rw [weekHeading_len (wfWeek_parts (hwf w (List.mem_cons_self _ _))).1]
        omega
      refine ⟨w :: ws1, w', ws2, by rw [hws]; rfl, ?_, ?_, ?_⟩
      · rw [hp, hhs1]
        simp only [weekPositions]
      · rw [hh, hlen]
      · rw [hhs2]
        congr 1
        omega

theorem weekPositions_keys_mem {ws : List WeekB} :
    ∀ {i : Nat} {h : (Nat × Nat) × Nat}, h ∈ weekPositions i ws →
      ∃ w, w ∈ ws ∧ h.1 = labelKey w.label := by
  induction ws with
  | nil => intro i h hh; cases hh
  | cons w t ih =>
    intro i h hh
    rcases List.mem_cons.1 hh with rfl | hh
    · exact ⟨w, List.mem_cons_self _ _, rfl⟩
    · obtain ⟨w', hw', he⟩ := ih hh
      exact ⟨w', List.mem_cons_of_mem _ hw', he⟩

theorem weekPositions_mem_keys {ws : List WeekB} :
    ∀ {i : Nat} {w : WeekB}, w ∈ ws →
      ∃ p, (labelKey w.label, p) ∈ weekPositions i ws := by
  induction ws with
  | nil => intro i w hw; cases hw
  | cons w0 t ih =>
    intro i w hw
    rcases List.mem_cons.1 hw with rfl | hw
    · exact ⟨i, List.mem_cons_self _ _⟩
    · obtain ⟨p, hp⟩ := ih (i := i + 18 + w0.chunk.length) hw
      exact ⟨p, List.mem_cons_of_mem _ hp⟩

theorem weekPositions_ne_nil {ws : List WeekB} (h : ws ≠ []) (i : Nat) :
    weekPositions i ws ≠ [] := by
  cases ws with
  | nil => exact absurd rfl h
  | cons w t => simp [weekPositions]

theorem weekPositions_eq_nil {ws : List WeekB} {i : Nat}
    (h : weekPositions i ws = []) : ws = [] := by
  cases ws with
  | nil => rfl
  | cons w t => cases h

theorem chainB_split {r : α → α → Bool} :
    ∀ {u v : List α}, chainB r (u ++ v) = true →
      chainB r u = true ∧ chainB r v = true := by
  intro l1
  induction l1 with
  | nil => intro l2 h; exact ⟨rfl, h⟩
  | cons a t ih =>
    intro l2 h
    cases t with
    | nil =>
      cases l2 with
      | nil => exact ⟨rfl, rfl⟩
      | cons b u => exact ⟨rfl, (chainB_cons_parts (by simpa using h)).2⟩
    | cons b u =>
      have hp := chainB_cons_parts (by simpa using h)
      obtain ⟨h1, h2⟩ := ih hp.2
      refine ⟨?_, h2⟩
      simpa [chainB, Bool.and_eq_true] using ⟨hp.1, h1⟩

theorem chainB_append_singleton {rel : α → α → Bool} {x : α} :
    ∀ {l : List α}, chainB rel l = true → (∀ a ∈ l, rel a x = true) →
      chainB rel (l ++ [x]) = true := by
  intro l
  induction l with
  | nil => intro _ _; rfl
  | cons a t ih =>
    intro h hall
    cases t with
    | nil =>
      simpa [chainB, Bool.and_eq_true] using hall a (List.mem_cons_self _ _)
    | cons b u =>
      have hp := chainB_cons_parts h
      have := ih hp.2 (fun c hc => hall c (List.mem_cons_of_mem _ hc))
      simpa [chainB, Bool.and_eq_true] using ⟨hp.1, this⟩

theorem month_pre_len (m : MonthB) :
    (str "<h1>" ++ m.name ++ str "</h1>" ++ m.pre).length =
      9 + m.name.length + m.pre.length := by
  simp only [List.length_append]
  have e1 : (str "<h1>" : Str).length = 4 := rfl
  have e2 : (str "</h1>" : Str).length = 5 := rfl
  rw [e1, e2]
  omega

theorem renderMonth_decomp (m : MonthB) :
    renderMonth m = (str "<h1>" ++ m.name ++ str "</h1>" ++ m.pre) ++ renderWeeks m.weeks := by
  unfold renderMonth
  simp [List.append_assoc]

/-- The week-absent insertion rewritten with the computed heading list and
parsed key. -/
theorem insertWeek_eq {m : MonthB} (hm : wfMonth m = true) {L : Str} (hL : wfLabel L = true)
    (N B : Str) :
    insertWeekIntoMonth (renderMonth m) L N B =
      (renderMonth m).take (findInsertPos (renderMonth m) (some (labelKey L))
          (weekPositions (9 + m.name.length + m.pre.length) m.weeks)
          (h1EndIndex (renderMonth m))) ++
        createWeekSection L N B ++
        (renderMonth m).drop (findInsertPos (renderMonth m) (some (labelKey L))
          (weekPositions (9 + m.name.length + m.pre.length) m.weeks)
          (h1EndIndex (renderMonth m))) := by
  have hord := (wfMonth_parts hm).2.2.2.2
  have hsorted : sortBy (fun a b => !keyLt a.1 b.1) (scanWeeks (renderMonth m)) =
      weekPositions (9 + m.name.length + m.pre.length) m.weeks := by
    rw [scanWeeks_renderMonth hm]
    apply sortBy_eq_self_of_chain
    have hc := chainB_iff_chain'.1
      (chainB_weekPositions hord (9 + m.name.length + m.pre.length))
    refine hc.imp ?_
    intro a b hab
    rw [keyLt_asymm hab]
    rfl
  simp only [insertWeekIntoMonth]
  rw [hsorted, parseLabelKey_wf hL]

/-- The week-absent branch: inserting a fresh week into a rendered month
yields the render of a structurally well-formed month with the same name. -/
theorem insertWeek_structural {m : MonthB} (hm : wfMonth m = true) {L N B : Str}
    (hL : wfLabel L = true) (hN : cleanFrag N = true) (hB : cleanFrag B = true)
    (hnotin : ∀ w ∈ m.weeks, labelKey w.label ≠ labelKey L) :
    ∃ m' : MonthB, insertWeekIntoMonth (renderMonth m) L N B = renderMonth m' ∧
      wfMonth m' = true ∧ m'.name = m.name := by
  obtain ⟨hname, hpre, hwne, hwf, hord⟩ := wfMonth_parts hm
  have hCU := cleanFrag_createUserSection hN hB
  have hCUlen : 2 ≤ (createUserSection N B).length := by
    rw [createUserSection_len]
    omega
  have hnwwf : wfWeek ⟨L, createUserSection N B⟩ = true := by
    unfold wfWeek
    simp only [Bool.and_eq_true, decide_eq_true_eq]
    exact ⟨⟨hL, hCU⟩, hCUlen⟩
  have hkeys : ∀ h ∈ weekPositions (9 + m.name.length + m.pre.length) m.weeks,
      h.1 ≠ labelKey L := by
    intro h hh
    obtain ⟨w, hw, he⟩ := weekPositions_keys_mem hh
    rw [he]
    exact hnotin w hw
  rw [insertWeek_eq hm hL N B]
  rcases findInsertPos_split (c := renderMonth m) (k := labelKey L)
      (f := h1EndIndex (renderMonth m))
      (weekPositions_ne_nil hwne _) hkeys (chainB_weekPositions hord _) with
    ⟨hs1, hp, hs2, he, hall, hlt, hposval⟩ | ⟨hall, hs1, hl, hlast, hposval⟩
  · -- insert before an older heading
    obtain ⟨ws1, w, ws2, hws, hhs1, hh, hhs2⟩ := weekPositions_split hwf he
    rw [hposval, hh]
    have hmdec : renderMonth m = ((str "<h1>" ++ m.name ++ str "</h1>" ++ m.pre) ++
        renderWeeks ws1) ++ renderWeeks (w :: ws2) := by
      rw [renderMonth_decomp m, hws, renderWeeks_append]
      simp [List.append_assoc]
    have hplen : (((str "<h1>" ++ m.name ++ str "</h1>" ++ m.pre) ++
        renderWeeks ws1)).length =
        9 + m.name.length + m.pre.length + (renderWeeks ws1).length := by
      rw [List.length_append, month_pre_len m]
    have htake : (renderMonth m).take (9 + m.name.length + m.pre.length +
        (renderWeeks ws1).length) =
        (str "<h1>" ++ m.name ++ str "</h1>" ++ m.pre) ++ renderWeeks ws1 := by
      rw [hmdec, ← hplen, List.take_left]
    have hdrop : (renderMonth m).drop (9 + m.name.length + m.pre.length +
        (renderWeeks ws1).length) = renderWeeks (w :: ws2) := by
      rw [hmdec, ← hplen, List.drop_left]
    rw [htake, hdrop]
    have hwall : ∀ a ∈ ws1, keyLt (labelKey L) (labelKey a.label) = true := by
      intro a ha
      obtain ⟨p, hp2⟩ := weekPositions_mem_keys
        (i := 9 + m.name.length + m.pre.length) ha
      rw [← hhs1] at hp2
      exact hall _ hp2
    have hchains := chainB_split (u := ws1) (v := w :: ws2)
      (by rw [← hws]; exact hord)
    have hrel : keyLt (labelKey w.label) (labelKey L) = true := by
      have := hlt
      rw [hh] at this
      exact this
    have hstep : weeksOrdered (⟨L, createUserSection N B⟩ :: w :: ws2) = true := by
      show (keyLt (labelKey w.label) (labelKey L) &&
        chainB (fun a b => keyLt (labelKey b.label) (labelKey a.label)) (w :: ws2)) = true
      rw [hrel, hchains.2]
      rfl
    have hordnew : weeksOrdered (ws1 ++ ⟨L, createUserSection N B⟩ :: w :: ws2) = true := by
      apply chainB_append_cons
      · exact chainB_append_singleton hchains.1 (fun a ha => hwall a ha)
      · exact hstep
    cases hws1e : ws1 with
    | nil =>
      subst hws1e
      refine ⟨⟨m.name, m.pre ++ str "\n", ⟨L, createUserSection N B⟩ :: w :: ws2⟩, ?_, ?_, rfl⟩
      · rw [renderMonth_decomp]
        show _ = (str "<h1>" ++ m.name ++ str "</h1>" ++ (m.pre ++ str "\n")) ++ _
        unfold createWeekSection
        simp [List.append_assoc, renderWeeks_cons, renderWeeks, renderWeek]
      · unfold wfMonth
        simp only [Bool.and_eq_true, decide_eq_true_eq, List.all_eq_true]
        refine ⟨⟨⟨⟨hname, ?_⟩, by simp⟩, ?_⟩, ?_⟩
        · exact cleanFrag_append_headOk hpre (by decide) (by decide)
        · intro x hx
          rcases List.mem_cons.1 hx with rfl | hx
          · exact hnwwf
          · exact hwf x (by rw [hws]; simpa using hx)
        · show weeksOrdered (⟨L, createUserSection N B⟩ :: w :: ws2) = true
          exact hstep
    | cons w1 t1 =>
      subst hws1e
      refine ⟨⟨m.name, m.pre,
        absorbW (w1 :: t1) (str "\n") ++ ⟨L, createUserSection N B⟩ :: w :: ws2⟩, ?_, ?_, rfl⟩
      · rw [renderMonth_decomp]
        show _ = (str "<h1>" ++ m.name ++ str "</h1>" ++ m.pre) ++ _
        rw [renderWeeks_append, renderWeeks_absorbW (by simp) (str "\n")]
        unfold createWeekSection
        simp [List.append_assoc, renderWeeks_cons, renderWeeks, renderWeek]
      · unfold wfMonth
        simp only [Bool.and_eq_true, decide_eq_true_eq, List.all_eq_true]
        refine ⟨⟨⟨⟨hname, hpre⟩, ?_⟩, ?_⟩, ?_⟩
        · cases t1 with
          | nil => simp [absorbW]
          | cons a b => simp [absorbW]
        · intro x hx
          rcases List.mem_append.1 hx with hx | hx
          · exact absorbW_all_wf (fun y hy => hwf y (by rw [hws]; exact List.mem_append.2 (Or.inl hy)))
              (by decide) (by decide) x hx
          · rcases List.mem_cons.1 hx with rfl | hx
            · exact hnwwf
            · exact hwf x (by rw [hws]; exact List.mem_append.2 (Or.inr hx))
        · show weeksOrdered (absorbW (w1 :: t1) (str "\n") ++ _) = true
          rw [weeksOrdered_of_labels_eq
            (v := (w1 :: t1) ++ ⟨L, createUserSection N B⟩ :: w :: ws2)
            (by simp [absorbW_labels])]
          exact hordnew
  · -- append after the last (oldest) heading
    obtain ⟨ws1, wl, ws2, hws, hhs1, hh, hhs2⟩ := weekPositions_split hwf hlast
    have hws2nil : ws2 = [] := weekPositions_eq_nil hhs2.symm
    rw [hposval, hh]
    obtain ⟨hLl, hcll, hlenl⟩ := wfWeek_parts (hwf wl (by rw [hws]; simp))
    have hmdec : renderMonth m = (((str "<h1>" ++ m.name ++ str "</h1>" ++ m.pre) ++
        renderWeeks ws1) ++ weekHeading wl.label) ++ wl.chunk := by
      rw [renderMonth_decomp m, hws, hws2nil, renderWeeks_append]
      simp [renderWeeks_cons, renderWeeks, renderWeek, List.append_assoc]
    have hplen : ((((str "<h1>" ++ m.name ++ str "</h1>" ++ m.pre) ++
        renderWeeks ws1) ++ weekHeading wl.label)).length =
        9 + m.name.length + m.pre.length + (renderWeeks ws1).length + 18 := by
      rw [List.length_append, List.length_append, month_pre_len m, weekHeading_len hLl]
    have hdrop20 : (renderMonth m).drop (9 + m.name.length + m.pre.length +
        (renderWeeks ws1).length + 20) = wl.chunk.drop 2 := by
      rw [hmdec]
      have e20 : 9 + m.name.length + m.pre.length + (renderWeeks ws1).length + 20 =
          ((((str "<h1>" ++ m.name ++ str "</h1>" ++ m.pre) ++
            renderWeeks ws1) ++ weekHeading wl.label)).length + 2 := by
        rw [hplen]
      rw [e20, List.drop_append]
    have happos : appendPos (renderMonth m)
        (9 + m.name.length + m.pre.length + (renderWeeks ws1).length) =
        (renderMonth m).length := by
      unfold appendPos
      rw [hdrop20]
      rw [splitAtHeadTag_none_of_noMatch (noMatchAt_clean headTag12_h3 ?_ (by rfl))]
      have hsp : wl.chunk = wl.chunk.take 2 ++ wl.chunk.drop 2 :=
        (List.take_append_drop 2 wl.chunk).symm
      exact cleanFrag_right (by rw [← hsp]; exact hcll)
    rw [happos, List.take_length, List.drop_length]
    refine ⟨⟨m.name, m.pre,
      absorbW m.weeks (str "\n") ++ [⟨L, createUserSection N B⟩]⟩, ?_, ?_, rfl⟩
    · rw [renderMonth_decomp, renderMonth_decomp]
      show _ = (str "<h1>" ++ m.name ++ str "</h1>" ++ m.pre) ++ _
      rw [renderWeeks_append, renderWeeks_absorbW hwne (str "\n")]
      unfold createWeekSection
      simp [List.append_assoc, renderWeeks, renderWeek]
    · unfold wfMonth
      simp only [Bool.and_eq_true, decide_eq_true_eq, List.all_eq_true]
      refine ⟨⟨⟨⟨hname, hpre⟩, ?_⟩, ?_⟩, ?_⟩
      · cases hwe : m.weeks with
        | nil => exact absurd hwe hwne
        | cons a b =>
          cases b with
          | nil => simp [absorbW]
          | cons c dd => simp [absorbW]
      · intro x hx
        rcases List.mem_append.1 hx with hx | hx
        · exact absorbW_all_wf hwf (by decide) (by decide) x hx
        · rcases List.mem_cons.1 hx with rfl | hx
          · exact hnwwf
          · cases hx
      · show weeksOrdered _ = true
        rw [weeksOrdered_of_labels_eq (v := m.weeks ++ [⟨L, createUserSection N B⟩])
          (by simp [absorbW_labels])]
        apply chainB_append_singleton hord
        intro a ha
        obtain ⟨p, hp2⟩ := weekPositions_mem_keys
          (i := 9 + m.name.length + m.pre.length) ha
        exact hall _ hp2

theorem keyLt_irrefl (a : Nat × Nat) : keyLt a a = false := by
  unfold keyLt
  simp

theorem keyLt_trans {a b c : Nat × Nat} (h1 : keyLt a b = true) (h2 : keyLt b c = true) :
    keyLt a c = true := by
  unfold keyLt at h1 h2 ⊢
  simp only [Bool.or_eq_true, Bool.and_eq_true, decide_eq_true_eq, beq_iff_eq] at h1 h2 ⊢
  omega

theorem weeksOrdered_pairwise {ws : List WeekB} (h : weeksOrdered ws = true) :
    List.Pairwise
      (fun a b : WeekB => keyLt (labelKey b.label) (labelKey a.label) = true) ws :=
  chainB_to_pairwise
    (r := fun a b : WeekB => keyLt (labelKey b.label) (labelKey a.label))
    (fun _ _ _ hab hbc => keyLt_trans hbc hab) h

/-- Splitting at the first h1/h2/h3 tag inside a chunk followed by the
rendered remaining weeks: the split point stays inside the chunk (with the
suffix opening on an angle bracket), or exactly at the following week
heading, or there is no match at all and nothing follows. -/
theorem splitAtHeadTag_chunk {ds : List Char} :
    ∀ {c w : Str}, (w = [] ∨ headTagAt ds w = true) →
      (∃ e f, c = e ++ f ∧ (f = [] ∨ ∃ fh ft, f = fh :: ft ∧ fh = '<') ∧
        splitAtHeadTag ds (c ++ w) = some (e, f ++ w)) ∨
      (splitAtHeadTag ds (c ++ w) = none ∧ w = []) := by
  intro chunk
  induction chunk with
  | nil =>
    intro restW hR
    rcases hR with rfl | hR
    · right
      exact ⟨rfl, rfl⟩
    · left
      cases restW with
      | nil => cases hR
      | cons c cs =>
        refine ⟨[], [], rfl, Or.inl rfl, ?_⟩
        simp [splitAtHeadTag, hR]
  | cons c cs ih =>
    intro restW hR
    by_cases hc : headTagAt ds ((c :: cs) ++ restW) = true
    · left
      have hlt : c = '<' := by
        obtain ⟨a, b, c', r, hs, ha, _⟩ := headTagAt_shape hc
        have : c = a := (List.cons.inj hs).1
        rw [this, ha]
      refine ⟨[], c :: cs, rfl, Or.inr ⟨c, cs, rfl, hlt⟩, ?_⟩
      rw [List.cons_append] at hc ⊢
      simp [splitAtHeadTag, hc]
    · rcases ih (w := restW) hR with ⟨e, f, hef, hfh, hsp⟩ | ⟨hsp, hre⟩
      · left
        refine ⟨c :: e, f, by rw [hef]; rfl, hfh, ?_⟩
        rw [List.cons_append] at hc ⊢
        rw [splitAtHeadTag_cons_neg (by simpa using hc), hsp]
        rfl
      · right
        refine ⟨?_, hre⟩
        rw [List.cons_append] at hc ⊢
        rw [splitAtHeadTag_cons_neg (by simpa using hc), hsp]
        rfl

theorem headTag123_renderWeeks {w : WeekB} (t : List WeekB) :
    headTagAt ['1', '2', '3'] (renderWeeks (w :: t)) = true := by
  have e : renderWeeks (w :: t) = '<' :: 'h' :: '2' :: ('>' ::
      (('w' :: '/' :: 'e' :: ' ' :: (w.label ++ str "</h2>")) ++
        (w.chunk ++ renderWeeks t))) := by
    rw [renderWeeks_cons]
    unfold weekHeading
    simp [str]
  rw [e]
  rfl

theorem renderWeeks_eq_nil {ws : List WeekB} (h : renderWeeks ws = []) : ws = [] := by
  cases ws with
  | nil => rfl
  | cons w t =>
    rw [renderWeeks_cons] at h
    have e : weekHeading w.label ++ w.chunk ++ renderWeeks t =
        '<' :: (('h' :: '2' :: '>' :: 'w' :: '/' :: 'e' :: ' ' :: (w.label ++ str "</h2>")) ++
          (w.chunk ++ renderWeeks t)) := by
      unfold weekHeading
      simp [str]
    rw [e] at h
    cases h

theorem whStart_at_h1 (L r : Str) :
    startsWithBy chEqCI (weekHeading L) (str "<h1>" ++ r) = false := rfl

theorem whStart_slash (L r : Str) :
    startsWithBy chEqCI (weekHeading L) ('<' :: '/' :: r) = false := rfl

theorem noMatch_wh_head (L : Str) {n : Str} (hn : n ∈ monthNames)
    {pre : Str} (hpre : cleanFrag pre = true) {rest : Str} (hrest : headOk rest = true) :
    NoMatchAt (startsWithBy chEqCI (weekHeading L))
      (str "<h1>" ++ (n ++ (str "</h1>" ++ pre))) rest := by
  apply noMatchAt_append
  · have e2 : (str "<h1>" : Str) = '<' :: ['h', '1', '>'] := rfl
    rw [e2]
    apply noMatchAt_cons
    · simpa using whStart_at_h1 L (((n ++ (str "</h1>" ++ pre))) ++ rest)
    · exact noMatchAt_of_heads (whStartB_head L) (by decide)
  · apply noMatchAt_append
    · exact noMatchAt_of_heads (whStartB_head L) (monthNames_noLt n hn)
    · apply noMatchAt_append
      · have e3 : (str "</h1>" : Str) = '<' :: ['/', 'h', '1', '>'] := rfl
        rw [e3]
        apply noMatchAt_cons
        · simpa using whStart_slash L (['h', '1', '>'] ++ (pre ++ rest))
        · exact noMatchAt_of_heads (whStartB_head L) (by decide)
      · exact noMatchAt_clean (whStartB_h3 L) hpre hrest

theorem noMatch_wh_weeks {L : Str} (hL : wfLabel L = true) {ws : List WeekB}
    (hwf : ∀ w ∈ ws, wfWeek w = true) (hlabs : ∀ w ∈ ws, w.label ≠ L)
    {rest : Str} (hrest : headOk rest = true) :
    NoMatchAt (startsWithBy chEqCI (weekHeading L)) (renderWeeks ws) rest := by
  apply noMatch_weeks_generic hwf (whStartB_head L) (whStartB_h3 L) ?_
    (fun r => whStart_slash L r) hrest
  intro L' r hL' hmem
  simp only [List.mem_map] at hmem
  obtain ⟨w, hw, hwl⟩ := hmem
  have hne : L ≠ L' := by
    rw [← hwl]
    exact fun he => hlabs w hw he.symm
  exact wh_mismatch hL hL' hne r

theorem renderMonth_grouped (m : MonthB) :
    renderMonth m = (str "<h1>" ++ (m.name ++ (str "</h1>" ++ m.pre))) ++
      renderWeeks m.weeks := by
  unfold renderMonth
  simp [List.append_assoc]

theorem occursCI_wh_of_mem {m : MonthB} {L : Str} {w : WeekB} (hw : w ∈ m.weeks)
    (hwl : w.label = L) : occursCI (weekHeading L) (renderMonth m) = true := by
  obtain ⟨ws1, ws2, hws⟩ := List.append_of_mem hw
  rw [renderMonth_decomp m, hws, renderWeeks_append, renderWeeks_cons, hwl]
  unfold occursCI
  rw [occursBy_iff]
  exact ⟨(str "<h1>" ++ m.name ++ str "</h1>" ++ m.pre) ++ renderWeeks ws1, weekHeading L,
    w.chunk ++ renderWeeks ws2, by simp [List.append_assoc], eqSB_refl_CI _⟩

theorem weekHeading_ne_nil (L : Str) : weekHeading L ≠ [] := by
  have e : weekHeading L = '<' :: (('h' :: '2' :: '>' :: 'w' :: '/' :: 'e' :: ' ' ::
      (L ++ str "</h2>"))) := by
    unfold weekHeading
    simp [str]
  rw [e]
  simp

theorem occursCI_wh_none {m : MonthB} (hm : wfMonth m = true) {L : Str}
    (hL : wfLabel L = true) (hlabs : ∀ w ∈ m.weeks, w.label ≠ L) :
    occursCI (weekHeading L) (renderMonth m) = false := by
  obtain ⟨hname, hpre, hwne, hwf, hord⟩ := wfMonth_parts hm
  unfold occursCI
  apply occursBy_false_of_noMatch (weekHeading_ne_nil L)
  rw [renderMonth_grouped m]
  apply noMatchAt_append
  · exact noMatch_wh_head L hname hpre (headOk_renderWeeks_append (by rfl))
  · exact noMatch_wh_weeks hL hwf hlabs (by rfl)

theorem labels_of_not_occurs {m : MonthB} (hm : wfMonth m = true) {L : Str}
    (hL : wfLabel L = true)
    (hocc : occursCI (weekHeading L) (renderMonth m) = false) :
    ∀ w ∈ m.weeks, labelKey w.label ≠ labelKey L := by
  intro w hw heq
  have hlab : w.label = L :=
    labelKey_inj (wfWeek_parts ((wfMonth_parts hm).2.2.2.1 w hw)).1 hL heq
  rw [occursCI_wh_of_mem hw hlab] at hocc
  cases hocc

theorem mem_of_occurs {m : MonthB} (hm : wfMonth m = true) {L : Str}
    (hL : wfLabel L = true)
    (hocc : occursCI (weekHeading L) (renderMonth m) = true) :
    ∃ w ∈ m.weeks, w.label = L := by
  by_contra h
  push_neg at h
  rw [occursCI_wh_none hm hL h] at hocc
  cases hocc

theorem headOk_wh (L x : Str) : headOk (weekHeading L ++ x) = true := by
  have e : weekHeading L ++ x = '<' :: (('h' :: '2' :: '>' :: 'w' :: '/' :: 'e' :: ' ' ::
      (L ++ str "</h2>")) ++ x) := by
    unfold weekHeading
    simp [str]
  rw [e]
  rfl

theorem headOk_CU_append (N B f : Str) : headOk (createUserSection N B ++ f) = true := by
  have e : createUserSection N B ++ f = '\n' :: ((('<' :: 'h' :: '3' :: '>' :: N) ++
      str "</h3>\n" ++ B ++ str "\n\n") ++ f) := by
    unfold createUserSection
    simp [str, List.append_assoc]
  rw [e]
  rfl

/-- The week-present branch: splicing a user section into the week with
the matching label yields the render of a well-formed month with the same
name and the same week labels. -/
theorem insertUser_structural {m : MonthB} (hm : wfMonth m = true) {L N B : Str}
    (hL : wfLabel L = true) (hN : cleanFrag N = true) (hB : cleanFrag B = true)
    (hmem : ∃ w ∈ m.weeks, w.label = L) :
    ∃ m' : MonthB, insertUserIntoWeek (renderMonth m) L N B = some (renderMonth m') ∧
      wfMonth m' = true ∧ m'.name = m.name := by
  obtain ⟨hname, hpre, hwne, hwf, hord⟩ := wfMonth_parts hm
  obtain ⟨w, hw, hwl⟩ := hmem
  obtain ⟨ws1, ws2, hws⟩ := List.append_of_mem hw
  have hpw := weeksOrdered_pairwise hord
  rw [hws] at hpw
  have hpa := List.pairwise_append.1 hpw
  have hlabs1 : ∀ x ∈ ws1, x.label ≠ L := by
    intro x hx he
    have hk := hpa.2.2 x hx w (List.mem_cons_self _ _)
    rw [he, hwl, keyLt_irrefl] at hk
    cases hk
  have hlabs2 : ∀ x ∈ ws2, x.label ≠ L := by
    intro x hx he
    have hk := (List.pairwise_cons.1 hpa.2.1).1 x hx
    rw [he, hwl, keyLt_irrefl] at hk
    cases hk
  have hwf1 : ∀ x ∈ ws1, wfWeek x = true :=
    fun x hx => hwf x (by rw [hws]; exact List.mem_append.2 (Or.inl hx))
  have hwf2 : ∀ x ∈ ws2, wfWeek x = true :=
    fun x hx => hwf x (by rw [hws]; exact List.mem_append.2 (Or.inr (List.mem_cons_of_mem _ hx)))
  obtain ⟨hwL, hwchunk, hwlen⟩ := wfWeek_parts (hwf w hw)
  have hP1 : NoMatchAt (startsWithBy chEqCI (weekHeading L))
      ((str "<h1>" ++ (m.name ++ (str "</h1>" ++ m.pre))) ++ renderWeeks ws1)
      (weekHeading L ++ (w.chunk ++ renderWeeks ws2)) := by
    apply noMatchAt_append
    · exact noMatch_wh_head L hname hpre (headOk_renderWeeks_append (headOk_wh L _))
    · exact noMatch_wh_weeks hL hwf1 hlabs1 (headOk_wh L _)
  have hdec : renderMonth m =
      ((str "<h1>" ++ (m.name ++ (str "</h1>" ++ m.pre))) ++ renderWeeks ws1) ++
        (weekHeading L ++ (w.chunk ++ renderWeeks ws2)) := by
    rw [renderMonth_grouped, hws, renderWeeks_append, renderWeeks_cons, hwl]
    simp [List.append_assoc]
  have hsplit : splitFirstBy chEqCI (weekHeading L) (renderMonth m) =
      some ((str "<h1>" ++ (m.name ++ (str "</h1>" ++ m.pre))) ++ renderWeeks ws1,
        w.chunk ++ renderWeeks ws2) := by
    rw [hdec, splitFirstBy_skip hP1]
    rw [splitFirstBy_pos (weekHeading_ne_nil L) (startsWithBy_refl_CI _ _)]
    have hd : (weekHeading L ++ (w.chunk ++ renderWeeks ws2)).drop (weekHeading L).length =
        w.chunk ++ renderWeeks ws2 := List.drop_left _ _
    rw [hd]
    simp
  unfold insertUserIntoWeek
  rw [hsplit]
  show ∃ m', some (spliceUserSection
      ((str "<h1>" ++ (m.name ++ (str "</h1>" ++ m.pre))) ++ renderWeeks ws1)
      (w.chunk ++ renderWeeks ws2) L N B) = some (renderMonth m') ∧
    wfMonth m' = true ∧ m'.name = m.name
  have hafter : afterWeekPart L (w.chunk ++ renderWeeks ws2) =
      w.chunk ++ renderWeeks ws2 := by
    unfold afterWeekPart
    rw [splitFirstBy_eq_none_of_not_occurs ?_]
    apply occursBy_false_of_noMatch (weekHeading_ne_nil L)
    apply noMatchAt_append
    · exact noMatchAt_clean (whStartB_h3 L) hwchunk
        (headOk_renderWeeks_append (by rfl))
    · exact noMatch_wh_weeks hL hwf2 hlabs2 (by rfl)
  unfold spliceUserSection
  rw [hafter]
  have hR : renderWeeks ws2 = [] ∨ headTagAt ['1', '2', '3'] (renderWeeks ws2) = true := by
    cases ws2 with
    | nil => exact Or.inl rfl
    | cons w2 u => exact Or.inr (headTag123_renderWeeks u)
  have hlabeq : (ws1 ++ ⟨L, w.chunk⟩ :: ws2).map WeekB.label =
      (ws1 ++ w :: ws2).map WeekB.label := by
    simp [hwl]
  rcases splitAtHeadTag_chunk (c := w.chunk) hR with
    ⟨e, f, hef, hfh, hsp⟩ | ⟨hsp, hre⟩
  · rw [hsp]
    have hec : cleanFrag e = true := cleanFrag_left (by rw [← hef]; exact hwchunk)
    have hfc : cleanFrag f = true := cleanFrag_right (by rw [← hef]; exact hwchunk)
    have hcf : cleanFrag (createUserSection N B ++ f) = true :=
      cleanFrag_append_tailNl (createUserSection_tailNl N B)
        (cleanFrag_createUserSection hN hB) hfc
    refine ⟨⟨m.name, m.pre, ws1 ++ ⟨L, e ++ (createUserSection N B ++ f)⟩ :: ws2⟩, ?_, ?_, rfl⟩
    · congr 1
      rw [renderMonth_grouped]
      show _ = (str "<h1>" ++ (m.name ++ (str "</h1>" ++ m.pre))) ++ _
      rw [renderWeeks_append, renderWeeks_cons]
      simp [List.append_assoc]
    · unfold wfMonth
      simp only [Bool.and_eq_true, decide_eq_true_eq, List.all_eq_true]
      refine ⟨⟨⟨⟨hname, hpre⟩, by simp⟩, ?_⟩, ?_⟩
      · intro x hx
        rcases List.mem_append.1 hx with hx | hx
        · exact hwf1 x hx
        · rcases List.mem_cons.1 hx with rfl | hx
          · unfold wfWeek
            simp only [Bool.and_eq_true, decide_eq_true_eq]
            refine ⟨⟨hL, ?_⟩, ?_⟩
            · exact cleanFrag_append_headOk hec hcf (headOk_CU_append N B f)
            · simp only [List.length_append]
              rw [createUserSection_len]
              omega
          · exact hwf2 x hx
      · show weeksOrdered (ws1 ++ ⟨L, e ++ (createUserSection N B ++ f)⟩ :: ws2) = true
        rw [weeksOrdered_of_labels_eq (v := ws1 ++ w :: ws2) (by simp [hwl])]
        rw [← hws]
        exact hord
  · have hws2 : ws2 = [] := renderWeeks_eq_nil hre
    subst hws2
    rw [hsp]
    refine ⟨⟨m.name, m.pre,
      ws1 ++ [⟨L, w.chunk ++ createUserSection N B⟩]⟩, ?_, ?_, rfl⟩
    · congr 1
      rw [renderMonth_grouped]
      show _ = (str "<h1>" ++ (m.name ++ (str "</h1>" ++ m.pre))) ++ _
      rw [renderWeeks_append]
      simp [List.append_assoc, renderWeeks, renderWeek]
    · unfold wfMonth
      simp only [Bool.and_eq_true, decide_eq_true_eq, List.all_eq_true]
      refine ⟨⟨⟨⟨hname, hpre⟩, by simp⟩, ?_⟩, ?_⟩
      · intro x hx
        rcases List.mem_append.1 hx with hx | hx
        · exact hwf1 x hx
        · rcases List.mem_cons.1 hx with rfl | hx
          · unfold wfWeek
            simp only [Bool.and_eq_true, decide_eq_true_eq]
            refine ⟨⟨hL, ?_⟩, ?_⟩
            · exact cleanFrag_append_headOk hwchunk
                (cleanFrag_createUserSection hN hB) (headOk_createUserSection N B)
            · simp only [List.length_append]
              rw [createUserSection_len]
              omega
          · cases hx
      · show weeksOrdered (ws1 ++ [⟨L, w.chunk ++ createUserSection N B⟩]) = true
        rw [weeksOrdered_of_labels_eq (v := ws1 ++ [w]) (by simp [hwl])]
        rw [← hws]
        exact hord

theorem lookupSec_map_none {ms : List MonthB} {n : Str}
    (h : ∀ m ∈ ms, m.name ≠ n) :
    lookupSec (ms.map fun m => (m.name, renderMonth m)) n = none := by
  induction ms with
  | nil => rfl
  | cons m t ih =>
    simp only [List.map_cons, lookupSec]
    rw [if_neg (h m (List.mem_cons_self _ _))]
    exact ih (fun x hx => h x (List.mem_cons_of_mem _ hx))

theorem lookupSec_map_some {ms : List MonthB} {n : Str}
    (hmem : n ∈ ms.map (fun m => m.name)) :
    ∃ ms1 mt ms2, ms = ms1 ++ mt :: ms2 ∧ mt.name = n ∧ (∀ x ∈ ms1, x.name ≠ n) ∧
      lookupSec (ms.map fun m => (m.name, renderMonth m)) n = some (renderMonth mt) := by
  induction ms with
  | nil => simp at hmem
  | cons m t ih =>
    by_cases he : m.name = n
    · exact ⟨[], m, t, rfl, he, by simp, by simp [lookupSec, he]⟩
    · have hmem' : n ∈ t.map (fun m => m.name) := by
        rw [List.map_cons] at hmem
        rcases List.mem_cons.1 hmem with hx | hx
        · exact absurd hx.symm he
        · exact hx
      obtain ⟨ms1, mt, ms2, h1, h2, h3, h4⟩ := ih hmem'
      refine ⟨m :: ms1, mt, ms2, by rw [h1]; rfl, h2, ?_, ?_⟩
      · intro x hx
        rcases List.mem_cons.1 hx with rfl | hx
        · exact he
        · exact h3 x hx
      · simp only [List.map_cons, lookupSec]
        rw [if_neg he]
        exact h4

theorem mapSet_update {ms1 : List MonthB} {mt : MonthB} {ms2 : List MonthB} {n v : Str}
    (hne : ∀ x ∈ ms1, x.name ≠ n) (hm : mt.name = n) :
    mapSet ((ms1 ++ mt :: ms2).map fun x => (x.name, renderMonth x)) n v =
      (ms1.map fun x => (x.name, renderMonth x)) ++ (n, v) ::
        (ms2.map fun x => (x.name, renderMonth x)) := by
  induction ms1 with
  | nil => simp [mapSet, hm]
  | cons a t ih =>
    simp only [List.cons_append, List.map_cons, mapSet]
    rw [if_neg (hne a (List.mem_cons_self _ _))]
    have ea : t.append (mt :: ms2) = t ++ mt :: ms2 := rfl
    rw [ea]
    rw [ih (fun x hx => hne x (List.mem_cons_of_mem _ hx))]

theorem monthsOrdered_of_names_eq {u v : List MonthB}
    (h : u.map (fun m => m.name) = v.map (fun m => m.name)) :
    monthsOrdered u = monthsOrdered v := by
  unfold monthsOrdered
  have e1 := chainB_map
    (r := fun a b : Str => decide (monthIdx b monthNames < monthIdx a monthNames))
    (fun m : MonthB => m.name) u
  have e2 := chainB_map
    (r := fun a b : Str => decide (monthIdx b monthNames < monthIdx a monthNames))
    (fun m : MonthB => m.name) v
  rw [← e1, ← e2, h]

theorem regenerate_map {ms : List MonthB} (hord : monthsOrdered ms = true) :
    regenerateOrderedContent (ms.map fun m => (m.name, renderMonth m)) =
      (ms.map renderMonth).flatten := by
  unfold regenerateOrderedContent
  rw [sortBy_eq_self_of_chain ?_]
  · simp only [List.map_map]
    congr 1
  · rw [List.chain'_map]
    refine (chainB_iff_chain'.1 hord).imp ?_
    intro a b hab
    simp only [decide_eq_true_eq] at hab ⊢
    omega

/-- Absorb a trailing fragment into the last month of a list. -/
def absorbLastM : List MonthB → Str → List MonthB
  | [], _ => []
  | [mo], s => [absorbM mo s]
  | mo :: ms, s => mo :: absorbLastM ms s

theorem absorbLastM_names (s : Str) : ∀ ms : List MonthB,
    (absorbLastM ms s).map (fun m => m.name) = ms.map (fun m => m.name) := by
  intro ms
  induction ms with
  | nil => rfl
  | cons mo t ih =>
    cases t with
    | nil => rfl
    | cons m2 u =>
      show (mo :: absorbLastM (m2 :: u) s).map _ = _
      simp only [List.map_cons]
      rw [show (absorbLastM (m2 :: u) s).map (fun m => m.name) =
        (m2 :: u).map (fun m => m.name) from ih]
      rfl

theorem absorbLastM_all_wf {ms : List MonthB} {s : Str}
    (hwf : ∀ m ∈ ms, wfMonth m = true) (hs : cleanFrag s = true) (hok : headOk s = true) :
    ∀ m ∈ absorbLastM ms s, wfMonth m = true := by
  induction ms with
  | nil => intro m hm; cases hm
  | cons mo t ih =>
    cases t with
    | nil =>
      intro m hm
      have : m = absorbM mo s := by simpa [absorbLastM] using hm
      rw [this]
      exact wfMonth_absorbM (hwf mo (List.mem_cons_self _ _)) hs hok
    | cons m2 u =>
      intro m hm
      rcases (by simpa [absorbLastM] using hm : m = mo ∨ m ∈ absorbLastM (m2 :: u) s) with
        rfl | hm2
      · exact hwf m (List.mem_cons_self _ _)
      · exact ih (fun x hx => hwf x (List.mem_cons_of_mem _ hx)) m hm2

theorem flatten_absorbLastM {ms : List MonthB} (hne : ms ≠ [])
    (hwk : ∀ m ∈ ms, m.weeks ≠ []) (s : Str) :
    ((absorbLastM ms s).map renderMonth).flatten = (ms.map renderMonth).flatten ++ s := by
  induction ms with
  | nil => exact absurd rfl hne
  | cons mo t ih =>
    cases t with
    | nil =>
      show ([absorbM mo s].map renderMonth).flatten = _
      simp only [List.map_cons, List.map_nil, List.flatten_cons, List.flatten_nil,
        List.append_nil]
      unfold absorbM renderMonth
      simp only []
      rw [renderWeeks_absorbW (hwk mo (List.mem_cons_self _ _)) s]
      simp [List.append_assoc]
    | cons m2 u =>
      show ((mo :: absorbLastM (m2 :: u) s).map renderMonth).flatten = _
      simp only [List.map_cons, List.flatten_cons]
      rw [ih (by simp) (fun x hx => hwk x (List.mem_cons_of_mem _ hx))]
      simp [List.append_assoc]

theorem createFullSection_eq (mo L N B : Str) :
    createFullSection mo L N B =
      str "\n" ++ renderMonth ⟨mo, str "\n", [⟨L, createUserSection N B⟩]⟩ := by
  unfold createFullSection createWeekSection monthHeading renderMonth
  simp [List.append_assoc, renderWeeks, renderWeek]

theorem wfMonth_weeks_ne_nil {m : MonthB} (h : wfMonth m = true) : m.weeks ≠ [] :=
  (wfMonth_parts h).2.2.1

theorem map_snd_pairF (ms : List MonthB) :
    ((ms.map fun m => (m.name, renderMonth m)).map fun kv => kv.2) = ms.map renderMonth := by
  rw [List.map_map]
  rfl

/-- Regenerating after appending a fresh month section: the sorted result
is the render of a well-formed document. -/
theorem regenerate_new_month {ms : List MonthB} (hwfms : ∀ m ∈ ms, wfMonth m = true)
    (hord : monthsOrdered ms = true) {newM : MonthB} (hnewwf : wfMonth newM = true)
    (hfresh : ∀ m ∈ ms, monthIdx m.name monthNames ≠ monthIdx newM.name monthNames) :
    ∃ d' : DocB,
      regenerateOrderedContent ((ms.map fun m => (m.name, renderMonth m)) ++
        [(newM.name, str "\n" ++ renderMonth newM)]) = renderDoc d' ∧ wfDoc d' = true := by
  unfold regenerateOrderedContent
  have hch : List.Chain' (fun a b : Str × Str =>
      monthIdx b.1 monthNames < monthIdx a.1 monthNames)
      (ms.map fun m => (m.name, renderMonth m)) := by
    rw [List.chain'_map]
    refine (chainB_iff_chain'.1 hord).imp ?_
    intro a b hab
    simpa using hab
  have hne : ∀ a ∈ ms.map (fun m => (m.name, renderMonth m)),
      monthIdx a.1 monthNames ≠
        monthIdx (newM.name, str "\n" ++ renderMonth newM).1 monthNames := by
    intro a ha
    simp only [List.mem_map] at ha
    obtain ⟨mo, hmo, rfl⟩ := ha
    exact hfresh mo hmo
  rw [sortBy_append_singleton_key (K := fun p : Str × Str => monthIdx p.1 monthNames)
    hch hne]
  obtain ⟨l1, l2, hl, hins, hk1, hk2⟩ :=
    insBy_key_split (K := fun p : Str × Str => monthIdx p.1 monthNames) hch hne
  rw [hins]
  obtain ⟨msA, msB, hmsAB, hmA, hmB⟩ := List.append_eq_map_iff.mp hl.symm
  have hordAB := hord
  rw [hmsAB] at hordAB
  have hchains := chainB_split (u := msA) (v := msB) hordAB
  have hkA : ∀ a ∈ msA, monthIdx newM.name monthNames < monthIdx a.name monthNames := by
    intro a ha
    have := hk1 (a.name, renderMonth a) (by rw [← hmA]; exact List.mem_map_of_mem _ ha)
    simpa using this
  have hkB : ∀ b ∈ msB, monthIdx b.name monthNames < monthIdx newM.name monthNames := by
    intro b hb
    have := hk2 (b.name, renderMonth b) (by rw [← hmB]; exact List.mem_map_of_mem _ hb)
    simpa using this
  have hordnew : monthsOrdered (msA ++ newM :: msB) = true := by
    apply chainB_append_cons
    · apply chainB_append_singleton hchains.1
      intro a ha
      simpa using hkA a ha
    · show chainB _ (newM :: msB) = true
      cases msB with
      | nil => rfl
      | cons b u =>
        have : (decide (monthIdx b.name monthNames < monthIdx newM.name monthNames) &&
            chainB (fun a b => decide (monthIdx b.name monthNames <
              monthIdx a.name monthNames)) (b :: u)) = true := by
          rw [hchains.2]
          simpa using hkB b (List.mem_cons_self _ _)
        exact this
  have hflat : (((l1 ++ (newM.name, str "\n" ++ renderMonth newM) :: l2).map
      fun kv => kv.2)).flatten =
      (msA.map renderMonth).flatten ++
        ((str "\n" ++ renderMonth newM) ++ (msB.map renderMonth).flatten) := by
    rw [← hmA, ← hmB]
    simp only [List.map_append, List.map_cons, List.flatten_append, List.flatten_cons]
    rw [map_snd_pairF, map_snd_pairF]
  rw [hflat]
  cases hmsA : msA with
  | nil =>
    refine ⟨⟨str "\n", newM :: msB⟩, ?_, ?_⟩
    · unfold renderDoc
      simp
    · unfold wfDoc
      simp only [Bool.and_eq_true, List.all_eq_true]
      refine ⟨⟨by decide, ?_⟩, ?_⟩
      · intro x hx
        rcases List.mem_cons.1 hx with rfl | hx
        · exact hnewwf
        · exact hwfms x (by rw [hmsAB, hmsA]; simpa using hx)
      · show monthsOrdered (newM :: msB) = true
        have := hordnew
        rw [hmsA] at this
        simpa using this
  | cons a0 t0 =>
    subst hmsA
    refine ⟨⟨[], absorbLastM (a0 :: t0) (str "\n") ++ newM :: msB⟩, ?_, ?_⟩
    · unfold renderDoc
      rw [List.nil_append, List.map_append, List.flatten_append]
      rw [flatten_absorbLastM (by simp)
        (fun x hx => wfMonth_weeks_ne_nil (hwfms x
          (by rw [hmsAB]; exact List.mem_append.2 (Or.inl hx)))) (str "\n")]
      simp only [List.map_cons, List.flatten_cons]
      simp [List.append_assoc]
    · unfold wfDoc
      simp only [Bool.and_eq_true, List.all_eq_true]
      refine ⟨⟨by decide, ?_⟩, ?_⟩
      · intro x hx
        rcases List.mem_append.1 hx with hx | hx
        · exact absorbLastM_all_wf
            (fun y hy => hwfms y (by rw [hmsAB]; exact List.mem_append.2 (Or.inl hy)))
            (by decide) (by decide) x hx
        · rcases List.mem_cons.1 hx with rfl | hx
          · exact hnewwf
          · exact hwfms x (by rw [hmsAB]; exact List.mem_append.2 (Or.inr hx))
      · show monthsOrdered (absorbLastM (a0 :: t0) (str "\n") ++ newM :: msB) = true
        rw [monthsOrdered_of_names_eq (v := (a0 :: t0) ++ newM :: msB) ?_]
        · exact hordnew
        · simp [absorbLastM_names]

theorem cleanReq_parts {r : ReportRequest} (hr : cleanReq r = true) :
    r.month ∈ monthNames ∧ wfLabel r.weekEndingLabel = true ∧
      cleanFrag r.displayName = true ∧ cleanFrag r.body = true := by
  unfold cleanReq at hr
  simp only [Bool.and_eq_true, decide_eq_true_eq] at hr
  exact ⟨hr.1.1.1, hr.1.1.2, hr.1.2, hr.2⟩

/-- One merge step maps the render of a well-formed document to the render
of a well-formed document. -/
theorem merge_wf {d : DocB} {r : ReportRequest} (hd : wfDoc d = true)
    (hr : cleanReq r = true) :
    ∃ d', (merge (renderDoc d) r).1 = renderDoc d' ∧ wfDoc d' = true := by
  obtain ⟨hlead, hms, hord⟩ := wfDoc_parts hd
  obtain ⟨hmon, hLw, hNc, hBc⟩ := cleanReq_parts hr
  unfold merge prepareUpdatedContent
  by_cases htop : matchesSeq (renderDoc d) (weekHeading r.weekEndingLabel)
      (userHeading r.displayName) = true
  · rw [if_pos htop]
    exact ⟨d, rfl, hd⟩
  · rw [if_neg htop]
    show ∃ d', regenerateOrderedContent (addContentToMonthSections
        (extractMonthSections (renderDoc d)) r.month r.weekEndingLabel r.displayName r.body) =
      renderDoc d' ∧ wfDoc d' = true
    rw [extractMonthSections_renderDoc hd]
    unfold addContentToMonthSections
    by_cases hin : r.month ∈ d.months.map (fun m => m.name)
    · obtain ⟨ms1, mt, ms2, hsplit, hmtn, hms1ne, hlook⟩ := lookupSec_map_some hin
      rw [hlook]
      show ∃ d', regenerateOrderedContent (addContentExisting
          (d.months.map fun m => (m.name, renderMonth m)) r.month (renderMonth mt)
          r.weekEndingLabel r.displayName r.body) = renderDoc d' ∧ wfDoc d' = true
      unfold addContentExisting
      have hmtwf : wfMonth mt = true := hms mt (by rw [hsplit]; simp)
      have hinner : matchesSeq (renderMonth mt) (weekHeading r.weekEndingLabel)
          (userHeading r.displayName) = false := by
        by_contra hc
        rw [Bool.not_eq_false] at hc
        apply htop
        have hdoc : renderDoc d = (d.lead ++ (ms1.map renderMonth).flatten) ++
            renderMonth mt ++ (ms2.map renderMonth).flatten := by
          unfold renderDoc
          rw [hsplit]
          simp [List.append_assoc]
        rw [hdoc]
        exact matchesSeq_of_mid _ _ hc
      rw [if_neg (by simp [hinner])]
      have hordsplit : monthsOrdered (ms1 ++ mt :: ms2) = true := by
        rw [← hsplit]
        exact hord
      by_cases hocc : occursCI (weekHeading r.weekEndingLabel) (renderMonth mt) = true
      · rw [if_pos hocc]
        obtain ⟨m', hieq, hm'wf, hm'name⟩ := insertUser_structural hmtwf hLw hNc hBc
          (mem_of_occurs hmtwf hLw hocc)
        rw [hieq]
        show ∃ d', regenerateOrderedContent (mapSet
          (d.months.map fun m => (m.name, renderMonth m)) r.month (renderMonth m')) =
          renderDoc d' ∧ wfDoc d' = true
        rw [hsplit, mapSet_update hms1ne hmtn]
        have hpair : (ms1.map fun x => (x.name, renderMonth x)) ++
            (r.month, renderMonth m') :: (ms2.map fun x => (x.name, renderMonth x)) =
            (ms1 ++ m' :: ms2).map fun x => (x.name, renderMonth x) := by
          rw [List.map_append, List.map_cons]
          rw [show (r.month, renderMonth m') = (m'.name, renderMonth m') from by
            rw [hm'name, hmtn]]
        rw [hpair]
        have hordm : monthsOrdered (ms1 ++ m' :: ms2) = true := by
          rw [monthsOrdered_of_names_eq (v := ms1 ++ mt :: ms2) (by simp [hm'name])]
          exact hordsplit
        rw [regenerate_map hordm]
        refine ⟨⟨[], ms1 ++ m' :: ms2⟩, by unfold renderDoc; simp, ?_⟩
        unfold wfDoc
        simp only [Bool.and_eq_true, List.all_eq_true]
        refine ⟨⟨by rfl, ?_⟩, hordm⟩
        intro x hx
        rcases List.mem_append.1 hx with hx | hx
        · exact hms x (by rw [hsplit]; exact List.mem_append.2 (Or.inl hx))
        · rcases List.mem_cons.1 hx with rfl | hx
          · exact hm'wf
          · exact hms x (by rw [hsplit]; exact List.mem_append.2 (Or.inr (List.mem_cons_of_mem _ hx)))
      · rw [if_neg hocc]
        have hnotin := labels_of_not_occurs hmtwf hLw
          (by rwa [Bool.not_eq_true] at hocc)
        obtain ⟨m', hieq, hm'wf, hm'name⟩ := insertWeek_structural hmtwf hLw hNc hBc hnotin
        rw [hieq]
        show ∃ d', regenerateOrderedContent (mapSet
          (d.months.map fun m => (m.name, renderMonth m)) r.month (renderMonth m')) =
          renderDoc d' ∧ wfDoc d' = true
        rw [hsplit, mapSet_update hms1ne hmtn]
        have hpair : (ms1.map fun x => (x.name, renderMonth x)) ++
            (r.month, renderMonth m') :: (ms2.map fun x => (x.name, renderMonth x)) =
            (ms1 ++ m' :: ms2).map fun x => (x.name, renderMonth x) := by
          rw [List.map_append, List.map_cons]
          rw [show (r.month, renderMonth m') = (m'.name, renderMonth m') from by
            rw [hm'name, hmtn]]
        rw [hpair]
        have hordm : monthsOrdered (ms1 ++ m' :: ms2) = true := by
          rw [monthsOrdered_of_names_eq (v := ms1 ++ mt :: ms2) (by simp [hm'name])]
          exact hordsplit
        rw [regenerate_map hordm]
        refine ⟨⟨[], ms1 ++ m' :: ms2⟩, by unfold renderDoc; simp, ?_⟩
        unfold wfDoc
        simp only [Bool.and_eq_true, List.all_eq_true]
        refine ⟨⟨by rfl, ?_⟩, hordm⟩
        intro x hx
        rcases List.mem_append.1 hx with hx | hx
        · exact hms x (by rw [hsplit]; exact List.mem_append.2 (Or.inl hx))
        · rcases List.mem_cons.1 hx with rfl | hx
          · exact hm'wf
          · exact hms x (by rw [hsplit]; exact List.mem_append.2 (Or.inr (List.mem_cons_of_mem _ hx)))
    · have hnm : ∀ m ∈ d.months, m.name ≠ r.month := by
        intro m hm he
        exact hin (by rw [← he]; exact List.mem_map_of_mem _ hm)
      rw [lookupSec_map_none hnm]
      have hfreshkey : r.month ∉ (d.months.map fun m => (m.name, renderMonth m)).map
          Prod.fst := by
        intro hc
        simp only [List.map_map, List.mem_map] at hc
        obtain ⟨m, hm, he⟩ := hc
        exact hnm m hm he
      rw [mapSet_append_fresh hfreshkey]
      rw [createFullSection_eq r.month r.weekEndingLabel r.displayName r.body]
      have hnewwf : wfMonth ⟨r.month, str "\n",
          [⟨r.weekEndingLabel, createUserSection r.displayName r.body⟩]⟩ = true := by
        unfold wfMonth
        simp only [Bool.and_eq_true, decide_eq_true_eq, List.all_eq_true]
        refine ⟨⟨⟨⟨hmon, by decide⟩, by simp⟩, ?_⟩, by rfl⟩
        intro w hw
        have : w = ⟨r.weekEndingLabel, createUserSection r.displayName r.body⟩ := by
          simpa using hw
        rw [this]
        unfold wfWeek
        simp only [Bool.and_eq_true, decide_eq_true_eq]
        refine ⟨⟨hLw, cleanFrag_createUserSection hNc hBc⟩, ?_⟩
        rw [createUserSection_len]
        omega
      exact regenerate_new_month hms hord hnewwf
        (fun m hm he => hnm m hm (monthIdx_inj m.name
          (wfMonth_parts (hms m hm)).1 r.month hmon he))

theorem mergeSeq_wf : ∀ (rs : List ReportRequest), (∀ r ∈ rs, cleanReq r = true) →
    ∀ d : DocB, wfDoc d = true →
      ∃ d', mergeSeq (renderDoc d) rs = renderDoc d' ∧ wfDoc d' = true := by
  intro rs
  induction rs with
  | nil => intro _ d hd; exact ⟨d, rfl, hd⟩
  | cons r t ih =>
    intro hall d hd
    obtain ⟨d1, h1, hw1⟩ := merge_wf hd (hall r (List.mem_cons_self _ _))
    obtain ⟨d2, h2, hw2⟩ := ih (fun x hx => hall x (List.mem_cons_of_mem _ hx)) d1 hw1
    refine ⟨d2, ?_, hw2⟩
    unfold mergeSeq at h2 ⊢
    rw [List.foldl_cons]
    show List.foldl (fun dd rr => (merge dd rr).1) ((merge (renderDoc d) r).1) t = _
    rw [h1]
    exact h2

/-- The ordering invariant over any clean merge sequence from the empty
document. -/
theorem mergeSeq_ordered (rs : List ReportRequest) (hall : ∀ r ∈ rs, cleanReq r = true) :
    monthsDescB (mergeSeq [] rs) = true ∧
    ∀ ns ∈ extractMonthSections (mergeSeq [] rs), weeksDescB ns.2 = true := by
  obtain ⟨d', he, hw⟩ := mergeSeq_wf rs hall ⟨[], []⟩ (by decide)
  have he' : mergeSeq [] rs = renderDoc d' := he
  rw [he']
  constructor
  · exact monthsDescB_renderDoc hw
  · intro ns hns
    rw [extractMonthSections_renderDoc hw] at hns
    obtain ⟨mm, hmm, rfl⟩ := List.mem_map.1 hns
    exact weeksDescB_renderMonth ((wfDoc_parts hw).2.1 mm hmm)

/-- C4 (as amended): for every document produced by a sequence of clean
merge requests (recognized month name, two-digit DD/MM label, display
name and body free of h1/h2 open tags) starting from the empty document,
the extracted month sections appear in strictly descending calendar order
and the week headings inside every extracted month section appear in
strictly descending week-ending-date order; in particular, merging a
request for week ending 07/03 into a month containing only w/e 21/03
places the new week section after it, and merging one for week ending
28/03 places it before. -/
theorem spec_C4 :
    (∀ rs : List ReportRequest, (∀ r ∈ rs, cleanReq r = true) →
      monthsDescB (mergeSeq [] rs) = true ∧
      ∀ ns ∈ extractMonthSections (mergeSeq [] rs), weeksDescB ns.2 = true) ∧
    ((extractMonthSections (mergeSeq []
        [ReportRequest.mk (str "March") (str "21/03") (str "Alice") (str "r1"),
         ReportRequest.mk (str "March") (str "07/03") (str "Alice") (str "r2")])).map
      (fun kv => (scanWeeks kv.2).map Prod.fst) = [[(3, 21), (3, 7)]]) ∧
    ((extractMonthSections (mergeSeq []
        [ReportRequest.mk (str "March") (str "21/03") (str "Alice") (str "r1"),
         ReportRequest.mk (str "March") (str "28/03") (str "Alice") (str "r3")])).map
      (fun kv => (scanWeeks kv.2).map Prod.fst) = [[(3, 28), (3, 21)]]) := by
  refine ⟨mergeSeq_ordered, ?_, ?_⟩
  · decide
  · decide

/-- Witness for C4: a concrete clean request sequence satisfies the
hypothesis, and the invariant holds on its merge result. -/
theorem spec_C4_witness :
    (∀ r ∈ [ReportRequest.mk (str "March") (str "14/03") (str "Alice") (str "B")],
      cleanReq r = true) ∧
    monthsDescB (mergeSeq []
      [ReportRequest.mk (str "March") (str "14/03") (str "Alice") (str "B")]) = true :=
  ⟨by decide,
   (spec_C4.1 [ReportRequest.mk (str "March") (str "14/03") (str "Alice") (str "B")]
     (by decide)).1⟩
